import Mathlib

/-!
# MapReduce (`src/mr`) and the key-value server (`src/kvsrv`): a shallow embedding

Go strings are modelled by Lean `String`s (valid UTF-8 text); Go compares strings
byte by byte, which on valid UTF-8 is the lexicographic order of the code points,
written here as the order of `String.data`.  Files are modelled by their contents.
A Go panic or a call that never returns is the value `none`.
-/

namespace MR

/-! ## Records and the partition hash (`worker.go`) -/

/-- The record type `KeyValue` of `worker.go`. -/
structure KeyValue where
  Key : String
  Value : String
deriving DecidableEq, Repr

/-- The comparison `ByKey.Less`: `a[i].Key < a[j].Key`. -/
def ByKey.Less (a b : KeyValue) : Prop := a.Key.data < b.Key.data

instance : DecidableRel ByKey.Less := fun a b =>
  inferInstanceAs (Decidable (a.Key.data < b.Key.data))

/-- Non-decreasing key order between two records: `b` is not `Less` than `a`. -/
def keyLE (a b : KeyValue) : Prop := a.Key.data ≤ b.Key.data

instance : DecidableRel keyLE := fun a b =>
  inferInstanceAs (Decidable (a.Key.data ≤ b.Key.data))

instance : IsTotal KeyValue keyLE := ⟨fun a b => le_total a.Key.data b.Key.data⟩

instance : IsTrans KeyValue keyLE := ⟨fun _ _ _ h1 h2 => le_trans h1 h2⟩

instance : IsAntisymm String (fun a b => a.data ≤ b.data) :=
  ⟨fun _ _ h1 h2 => String.ext (le_antisymm h1 h2)⟩

/-- The bytes of a Go string, as numbers below 256. -/
def bytesOf (s : String) : List Nat :=
  (s.data.flatMap String.utf8EncodeChar).map UInt8.toNat

/-- The hash `fnv.New32a()` followed by `Write` and `Sum32`: 32-bit FNV-1a, starting
from the offset basis 2166136261, for each byte xor it in and multiply by the
prime 16777619 modulo 2^32. -/
def fnv32a (bytes : List Nat) : Nat :=
  bytes.foldl (fun h b => ((h ^^^ b) * 16777619) % 2 ^ 32) 2166136261

/-- The function `ihash`: `int(h.Sum32() & 0x7fffffff)`. -/
def ihash (key : String) : Nat :=
  fnv32a (bytesOf key) &&& 0x7fffffff

/-! ## The map side: sort and partition (`doMap`) -/

/-- The write `fmt.Fprintf(tmps[hash], ...)` on the table of temporary files: the
record is appended to file `hash`.  A file is kept as the list of records written
to it, in order; `fileContents` gives its text. -/
def appendTo (tmps : List (List KeyValue)) (hash : Nat) (kv : KeyValue) :
    List (List KeyValue) :=
  tmps.modify (fun f => f ++ [kv]) hash

/-- The loop `for _, kv := range kva` of `doMap`: each record goes to the file with
index `ihash(kv.Key) % job.NReduce`. -/
def writeBuckets (nReduce : Nat) : List KeyValue → List (List KeyValue) → List (List KeyValue)
  | [], tmps => tmps
  | kv :: rest, tmps => writeBuckets nReduce rest (appendTo tmps (ihash kv.Key % nReduce) kv)

/-- The sort-and-partition part of `doMap`, lines 84 to 102: call `mapf`, sort the
result with `sort.Sort(ByKey(kva))`, create `NReduce` empty temporary files and
distribute the records.  The library routine `sort.Sort` is the parameter `sortf`.
With `NReduce = 0` and a record to write, `ihash(kv.Key) % job.NReduce` divides by
zero and the worker panics. -/
def doMapBuckets (mapf : String → String → List KeyValue)
    (sortf : List KeyValue → List KeyValue) (fileName content : String) (nReduce : Nat) :
    Option (List (List KeyValue)) :=
  let kva := sortf (mapf fileName content)
  if nReduce = 0 ∧ kva ≠ [] then none
  else some (writeBuckets nReduce kva (List.replicate nReduce []))

/-- What `sort.Sort` guarantees for `ByKey`: the result is a rearrangement of the
input in which no later record is `Less` than an earlier one.  The library does
not promise stability. -/
def SortContract (sortf : List KeyValue → List KeyValue) : Prop :=
  ∀ l, (sortf l).Perm l ∧ (sortf l).Sorted keyLE

/-- The line `"%v %v\n"` written for one record. -/
def formatRecord (kv : KeyValue) : String :=
  kv.Key ++ " " ++ kv.Value ++ "\n"

/-- The text of a file to which the given records were written in order. -/
def fileContents (records : List KeyValue) : String :=
  String.join (records.map formatRecord)

/-! ## The library routine `sort.Sort` on `ByKey`

The routine is not part of `src/`; it is Go's package `sort`, whose `Sort` is, from
Go 1.19 on, the pattern-defeating quicksort `pdqsort` below.  Indices and counts are
natural numbers; the slice is a list. -/

/-- The call `data.Less(i, j)` of `ByKey`: `a[i].Key < a[j].Key`.  The library calls it
with indices in range only. -/
def lessAt (data : List KeyValue) (i j : Nat) : Bool :=
  match data[i]?, data[j]? with
  | some x, some y => decide (ByKey.Less x y)
  | _, _ => false

/-- The call `data.Swap(i, j)` of `ByKey`: `a[i], a[j] = a[j], a[i]`. -/
def swapAt (data : List KeyValue) (i j : Nat) : List KeyValue :=
  match data[i]?, data[j]? with
  | some x, some y => (data.set i y).set j x
  | _, _ => data

/-- The inner loop of `insertionSort`:
`for j := i; j > a && data.Less(j, j-1); j-- { data.Swap(j, j-1) }`. -/
def sinkLeft (a : Nat) : Nat → List KeyValue → List KeyValue
  | 0, data => data
  | j + 1, data =>
    if a < j + 1 ∧ lessAt data (j + 1) j then sinkLeft a j (swapAt data (j + 1) j) else data

/-- The outer loop of `insertionSort`, `for i := a + 1; i < b; i++`, with `n` rounds
left and the next round at `i`. -/
def insertionLoop (a : Nat) : Nat → Nat → List KeyValue → List KeyValue
  | 0, _, data => data
  | n + 1, i, data => insertionLoop a n (i + 1) (sinkLeft a i data)

/-- The function `insertionSort(data, a, b)` of package `sort`. -/
def insertionSort (data : List KeyValue) (a b : Nat) : List KeyValue :=
  insertionLoop a (b - (a + 1)) (a + 1) data

/-- The function `siftDown(data, lo, hi, first)` of package `sort`, with the loop variable
`root`; the first argument bounds the number of rounds, and `hi + 1` rounds are never
used up because `root` grows in every round. -/
def siftDown (first hi : Nat) : Nat → List KeyValue → Nat → List KeyValue
  | 0, data, _ => data
  | fuel + 1, data, root =>
    let child := 2 * root + 1
    if hi ≤ child then data
    else
      let child1 :=
        if child + 1 < hi ∧ lessAt data (first + child) (first + child + 1) then child + 1
        else child
      if lessAt data (first + root) (first + child1) then
        siftDown first hi fuel (swapAt data (first + root) (first + child1)) child1
      else data

/-- The function `heapSort(data, a, b)` of package `sort`: build the heap with
`for i := (hi - 1) / 2; i >= 0; i--`, then pop with `for i := hi - 1; i >= 0; i--`. -/
def heapSort (data : List KeyValue) (a b : Nat) : List KeyValue :=
  let hi := b - a
  let heap := (List.range ((hi - 1) / 2 + 1)).reverse.foldl
    (fun d i => siftDown a hi (hi + 1) d i) data
  (List.range hi).reverse.foldl (fun d i => siftDown a i (i + 1) (swapAt d a (a + i)) 0) heap

/-- A loop `for i <= j && p(i) { i++ }`; the first argument is `j + 1 - i`, the number of
rounds after which `i <= j` fails. -/
def scanUp (p : Nat → Bool) (j : Nat) : Nat → Nat → Nat
  | 0, i => i
  | fuel + 1, i => if i ≤ j ∧ p i then scanUp p j fuel (i + 1) else i

/-- A loop `for i <= j && p(j) { j-- }`.  The library runs it with `i` at least 1, so
that `j` never passes below 0. -/
def scanDown (p : Nat → Bool) (i : Nat) : Nat → Nat
  | 0 => 0
  | j + 1 => if i ≤ j + 1 ∧ p (j + 1) then scanDown p i j else j + 1

/-- The second loop of `partition`: move `i` up past the records below the pivot at `a`
and `j` down past the others, stop when `i > j`, else swap and go on.  The result is the
slice and the last `j`; the first argument bounds the rounds and is never used up when
it is `j + 2 - i`. -/
def partitionLoop (a : Nat) : Nat → List KeyValue → Nat → Nat → List KeyValue × Nat
  | 0, data, _, j => (data, j)
  | fuel + 1, data, i, j =>
    let i1 := scanUp (fun x => lessAt data x a) j (j + 1 - i) i
    let j1 := scanDown (fun x => !lessAt data x a) i1 j
    if j1 < i1 then (data, j1)
    else partitionLoop a fuel (swapAt data i1 j1) (i1 + 1) (j1 - 1)

/-- The function `partition(data, a, b, pivot)` of package `sort`; the result is the
slice, `newpivot` and `alreadyPartitioned`. -/
def partition (data : List KeyValue) (a b pivot : Nat) : List KeyValue × Nat × Bool :=
  let d0 := swapAt data a pivot
  let i := scanUp (fun x => lessAt d0 x a) (b - 1) (b - (a + 1)) (a + 1)
  let j := scanDown (fun x => !lessAt d0 x a) i (b - 1)
  if j < i then (swapAt d0 j a, j, true)
  else
    let r := partitionLoop a (j + 1 - i) (swapAt d0 i j) (i + 1) (j - 1)
    (swapAt r.1 r.2 a, r.2, false)

/-- The loop of `partitionEqual`; the result is the slice and the last `i`. -/
def partitionEqualLoop (a : Nat) : Nat → List KeyValue → Nat → Nat → List KeyValue × Nat
  | 0, data, i, _ => (data, i)
  | fuel + 1, data, i, j =>
    let i1 := scanUp (fun x => !lessAt data a x) j (j + 1 - i) i
    let j1 := scanDown (fun x => lessAt data a x) i1 j
    if j1 < i1 then (data, i1)
    else partitionEqualLoop a fuel (swapAt data i1 j1) (i1 + 1) (j1 - 1)

/-- The function `partitionEqual(data, a, b, pivot)` of package `sort`; the result is the
slice and `newpivot`. -/
def partitionEqual (data : List KeyValue) (a b pivot : Nat) : List KeyValue × Nat :=
  partitionEqualLoop a (b + 1 - (a + 1)) (swapAt data a pivot) (a + 1) (b - 1)

/-- The loops `for j := i - 1; j >= 1; j--` of `partialInsertionSort`, which stop at the
first `j` with `!data.Less(j, j-1)` and else swap `j` with `j - 1`. -/
def shiftLeft : Nat → List KeyValue → List KeyValue
  | 0, data => data
  | j + 1, data =>
    if lessAt data (j + 1) j then shiftLeft j (swapAt data (j + 1) j) else data

/-- The loop `for j := i + 1; j < b; j++` of `partialInsertionSort`, with `n` rounds
left. -/
def shiftRight : Nat → Nat → List KeyValue → List KeyValue
  | 0, _, data => data
  | n + 1, j, data =>
    if lessAt data j (j - 1) then shiftRight n (j + 1) (swapAt data j (j - 1)) else data

/-- The loop `for j := 0; j < maxSteps; j++` of `partialInsertionSort`, with the number
of rounds left, `shortestShifting = 50` and the variable `i`; the result is the slice
and whether it is sorted. -/
def partialInsertionLoop (a b : Nat) : Nat → Nat → List KeyValue → List KeyValue × Bool
  | 0, _, data => (data, false)
  | steps + 1, i, data =>
    let i1 := scanUp (fun x => !lessAt data x (x - 1)) (b - 1) (b - i) i
    if i1 = b then (data, true)
    else if b - a < 50 then (data, false)
    else
      let d1 := swapAt data i1 (i1 - 1)
      let d2 := if 2 ≤ i1 - a then shiftLeft (i1 - 1) d1 else d1
      let d3 := if 2 ≤ b - i1 then shiftRight (b - (i1 + 1)) (i1 + 1) d2 else d2
      partialInsertionLoop a b steps i1 d3

/-- The function `partialInsertionSort(data, a, b)` of package `sort`, with
`maxSteps = 5`. -/
def partialInsertionSort (data : List KeyValue) (a b : Nat) : List KeyValue × Bool :=
  partialInsertionLoop a b 5 (a + 1) data

/-- The number `bits.Len(uint(n))`: the number of binary digits of `n`. -/
def bitsLen : Nat → Nat → Nat
  | 0, _ => 0
  | fuel + 1, n => if n = 0 then 0 else bitsLen fuel (n / 2) + 1

/-- The function `breakPatterns(data, a, b)` of package `sort`.  The step `Next` of its
`xorshift` generator on 64-bit words is the parameter `next`. -/
def breakPatterns (next : Nat → Nat) (data : List KeyValue) (a b : Nat) : List KeyValue :=
  let length := b - a
  if 8 ≤ length then
    let modulus := 2 ^ bitsLen length length
    let idx := a + (length / 4) * 2 - 1
    let r1 := next length
    let r2 := next r1
    let r3 := next r2
    let other := fun r : Nat =>
      let o := r % modulus
      if length ≤ o then o - length else o
    let d1 := swapAt data (idx - 1) (a + other r1)
    let d2 := swapAt d1 idx (a + other r2)
    swapAt d2 (idx + 1) (a + other r3)
  else data

/-- The type `sortedHint` of package `sort`. -/
inductive SortedHint where
  | unknownHint
  | increasingHint
  | decreasingHint
deriving DecidableEq, Repr

/-- The function `order2(data, a, b, swaps)` of package `sort`; the result carries the
new value of `*swaps`. -/
def order2 (data : List KeyValue) (a b swaps : Nat) : Nat × Nat × Nat :=
  if lessAt data b a then (b, a, swaps + 1) else (a, b, swaps)

/-- The function `median(data, a, b, c, swaps)` of package `sort`. -/
def median (data : List KeyValue) (a b c swaps : Nat) : Nat × Nat :=
  let r1 := order2 data a b swaps
  let r2 := order2 data r1.2.1 c r1.2.2
  let r3 := order2 data r1.1 r2.1 r2.2.2
  (r3.2.1, r3.2.2)

/-- The function `medianAdjacent(data, a, swaps)` of package `sort`. -/
def medianAdjacent (data : List KeyValue) (a swaps : Nat) : Nat × Nat :=
  median data (a - 1) a (a + 1) swaps

/-- The function `choosePivot(data, a, b)` of package `sort`, with `shortestNinther = 50`
and `maxSwaps = 12`. -/
def choosePivot (data : List KeyValue) (a b : Nat) : Nat × SortedHint :=
  let l := b - a
  let i := a + l / 4 * 1
  let j := a + l / 4 * 2
  let k := a + l / 4 * 3
  let r :=
    if 8 ≤ l then
      if 50 ≤ l then
        let ri := medianAdjacent data i 0
        let rj := medianAdjacent data j ri.2
        let rk := medianAdjacent data k rj.2
        median data ri.1 rj.1 rk.1 rk.2
      else median data i j k 0
    else (j, 0)
  if r.2 = 0 then (r.1, SortedHint.increasingHint)
  else if r.2 = 12 then (r.1, SortedHint.decreasingHint)
  else (r.1, SortedHint.unknownHint)

/-- The loop `for i < j` of `reverseRange`, with the loop variables `i` and `j`. -/
def reverseLoop : Nat → List KeyValue → Nat → Nat → List KeyValue
  | 0, data, _, _ => data
  | fuel + 1, data, i, j =>
    if i < j then reverseLoop fuel (swapAt data i j) (i + 1) (j - 1) else data

/-- The function `reverseRange(data, a, b)` of package `sort`. -/
def reverseRange (data : List KeyValue) (a b : Nat) : List KeyValue :=
  reverseLoop (b - a) data a (b - 1)

/-- What a round of the loop of `pdqsort` has before it partitions: the slice, the index
of the pivot, the value of `limit`, and whether the slice was found sorted. -/
structure PivotChoice where
  data : List KeyValue
  pivot : Nat
  limit : Nat
  sorted : Bool
deriving DecidableEq, Repr

/-- A round of the loop of `pdqsort` from `if !wasBalanced` to the call of
`partialInsertionSort`: scatter some records if the last partition was unbalanced, choose
the pivot, reverse the range if it looks decreasing, and try to finish a range that
looks increasing. -/
def choosePivotRound (next : Nat → Nat) (data : List KeyValue) (a b limit : Nat)
    (wasBalanced wasPartitioned : Bool) : PivotChoice :=
  let d1 := if wasBalanced then data else breakPatterns next data a b
  let limit1 := if wasBalanced then limit else limit - 1
  let ph := choosePivot d1 a b
  let d2 := if ph.2 = SortedHint.decreasingHint then reverseRange d1 a b else d1
  let pivot := if ph.2 = SortedHint.decreasingHint then (b - 1) - (ph.1 - a) else ph.1
  let hint := if ph.2 = SortedHint.decreasingHint then SortedHint.increasingHint else ph.2
  if wasBalanced ∧ wasPartitioned ∧ hint = SortedHint.increasingHint then
    { data := (partialInsertionSort d2 a b).1, pivot := pivot, limit := limit1,
      sorted := (partialInsertionSort d2 a b).2 }
  else { data := d2, pivot := pivot, limit := limit1, sorted := false }

/-- The function `pdqsort(data, a, b, limit)` of package `sort` (Go 1.19 and later), with
`maxInsertion = 12`; `wasBalanced` and `wasPartitioned` are its two local flags, true
when it is called.  One unit of the first argument is spent per round of its loop and
per nested call; `none` says that it ran out. -/
def pdqsort (next : Nat → Nat) :
    Nat → List KeyValue → Nat → Nat → Nat → Bool → Bool → Option (List KeyValue)
  | 0, _, _, _, _, _, _ => none
  | fuel + 1, data, a, b, limit, wasBalanced, wasPartitioned =>
    if b - a ≤ 12 then some (insertionSort data a b)
    else if limit = 0 then some (heapSort data a b)
    else
      let s := choosePivotRound next data a b limit wasBalanced wasPartitioned
      if s.sorted then some s.data
      else if 0 < a ∧ lessAt s.data (a - 1) s.pivot = false then
        pdqsort next fuel (partitionEqual s.data a b s.pivot).1
          (partitionEqual s.data a b s.pivot).2 b s.limit wasBalanced wasPartitioned
      else
        let p := partition s.data a b s.pivot
        let mid := p.2.1
        if mid - a < b - mid then
          (pdqsort next fuel p.1 a mid s.limit true true).bind fun d4 =>
            pdqsort next fuel d4 (mid + 1) b s.limit (decide ((b - a) / 8 ≤ mid - a)) p.2.2
        else
          (pdqsort next fuel p.1 (mid + 1) b s.limit true true).bind fun d4 =>
            pdqsort next fuel d4 a mid s.limit (decide ((b - a) / 8 ≤ b - mid)) p.2.2

/-- The library routine `sort.Sort(data)` on `ByKey`. -/
def sortSort (next : Nat → Nat) (data : List KeyValue) : Option (List KeyValue) :=
  let n := data.length
  if n ≤ 1 then some data else pdqsort next (n + 1) data 0 n (bitsLen n n) true true

/-- The call `sort.Sort(ByKey(kva))` of `doMap` as a function on slices. -/
def sortByKey (next : Nat → Nat) (kva : List KeyValue) : List KeyValue :=
  (sortSort next kva).getD kva

/-- A map output of 13 records: one with the key `b`, then twelve with the key `a`,
numbered in emission order. -/
def mapOutput13 : List KeyValue :=
  [⟨"b", "0"⟩, ⟨"a", "1"⟩, ⟨"a", "2"⟩, ⟨"a", "3"⟩, ⟨"a", "4"⟩, ⟨"a", "5"⟩, ⟨"a", "6"⟩,
    ⟨"a", "7"⟩, ⟨"a", "8"⟩, ⟨"a", "9"⟩, ⟨"a", "10"⟩, ⟨"a", "11"⟩, ⟨"a", "12"⟩]

/-- The slice `mapOutput13` after `partition` around the pivot at index 6. -/
def partitioned13 : List KeyValue :=
  [⟨"a", "6"⟩, ⟨"a", "1"⟩, ⟨"a", "2"⟩, ⟨"a", "3"⟩, ⟨"a", "4"⟩, ⟨"a", "5"⟩, ⟨"b", "0"⟩,
    ⟨"a", "7"⟩, ⟨"a", "8"⟩, ⟨"a", "9"⟩, ⟨"a", "10"⟩, ⟨"a", "11"⟩, ⟨"a", "12"⟩]

/-- The slice `mapOutput13` after `sort.Sort`. -/
def sorted13 : List KeyValue :=
  [⟨"a", "6"⟩, ⟨"a", "1"⟩, ⟨"a", "2"⟩, ⟨"a", "3"⟩, ⟨"a", "4"⟩, ⟨"a", "5"⟩, ⟨"a", "7"⟩,
    ⟨"a", "8"⟩, ⟨"a", "9"⟩, ⟨"a", "10"⟩, ⟨"a", "11"⟩, ⟨"a", "12"⟩, ⟨"b", "0"⟩]

/-! ## The reduce side: reading partition files (`doReduce`, lines 120 to 132) -/

/-- The helper `dropCR` of `bufio.ScanLines`: one trailing carriage return is removed. -/
def dropCR (line : List Char) : List Char :=
  if line.getLast? = some '\r' then line.dropLast else line

/-- The token limit `bufio.MaxScanTokenSize` of a default scanner, in bytes. -/
def maxScanTokenSize : Nat := 65536

/-- Whether a line fits the scanner's buffer together with its newline. -/
def fitsScanner (line : List Char) : Bool :=
  decide ((String.mk line).utf8ByteSize < maxScanTokenSize)

/-- The loop `for scanner.Scan()` with `scanner.Text()`: the lines of the input, each
ended by a newline (the last one possibly by the end of the input), without the
newline and without one trailing carriage return.  `cur` holds the characters of
the line being read.  A line that does not fit the buffer makes `Scan` return
false, which ends the loop (the error is not looked at). -/
def scanLines : List Char → List Char → List (List Char)
  | cur, [] => if cur = [] then [] else if fitsScanner cur then [dropCR cur] else []
  | cur, c :: rest =>
    if c = '\n' then
      if fitsScanner cur then dropCR cur :: scanLines [] rest else []
    else scanLines (cur ++ [c]) rest

/-- The call `strings.Split(s, " ")` for a one-character separator: the pieces
between the separators, one more than there are separators. -/
def splitOn (sep : Char) : List Char → List Char → List (List Char)
  | cur, [] => [cur]
  | cur, c :: rest =>
    if c = sep then cur :: splitOn sep [] rest else splitOn sep (cur ++ [c]) rest

/-- The body of the scan loop: `tokens := strings.Split(line, " ")` and then
`KeyValue{tokens[0], tokens[1]}`; with fewer than two tokens `tokens[1]` panics. -/
def parseLine (line : List Char) : Option KeyValue :=
  match splitOn ' ' [] line with
  | t0 :: t1 :: _ => some ⟨String.mk t0, String.mk t1⟩
  | _ => none

/-- The records `kvas[i]` read from one partition file. -/
def readPartition (content : String) : Option (List KeyValue) :=
  (scanLines [] content.data).mapM parseLine

/-! ## The reduce side: k-way merge (`doReduce`, lines 133 to 172) -/

/-- The call `strings.Compare(a, b)`. -/
def stringsCompare (a b : String) : Int :=
  if a = b then 0 else if a.data < b.data then -1 else 1

/-- The record `kvas[i][ids[i]]`. -/
def recordAt (kvas : List (List KeyValue)) (ids : List Nat) (i : Nat) : KeyValue :=
  (kvas.getD i []).getD (ids.getD i 0) { Key := "", Value := "" }

/-- The inner loop `for i, kva := range kvas` of `doReduce`, over the indices still to
be visited.  The accumulator is `none` while `findNext` is false and `some nextI`
afterwards. -/
def findNextIdx (kvas : List (List KeyValue)) (ids : List Nat) :
    List Nat → Option Nat → Option Nat
  | [], best => best
  | i :: more, best =>
    if ids.getD i 0 < (kvas.getD i []).length then
      match best with
      | none => findNextIdx kvas ids more (some i)
      | some nextI =>
        if stringsCompare (recordAt kvas ids i).Key (recordAt kvas ids nextI).Key < 0 then
          findNextIdx kvas ids more (some i)
        else findNextIdx kvas ids more (some nextI)
    else findNextIdx kvas ids more best

/-- The variables of the merge loop: the positions `ids`, `values`, `prevKey`, and the
calls `reducef(prevKey, values)` made so far, in order.  Each call writes one line
`prevKey result` to the output file. -/
structure ReduceState where
  ids : List Nat
  values : List String
  prevKey : String
  calls : List (String × List String)
deriving DecidableEq, Repr

/-- One turn of the outer `for` loop of `doReduce`; `none` is the `break`. -/
def reduceStep (kvas : List (List KeyValue)) (s : ReduceState) : Option ReduceState :=
  match findNextIdx kvas s.ids (List.range kvas.length) none with
  | none => none
  | some nextI =>
    let nextKV := recordAt kvas s.ids nextI
    let ids := s.ids.modify (fun id => id + 1) nextI
    if s.prevKey = "" then
      some { ids := ids, values := s.values ++ [nextKV.Value],
             prevKey := nextKV.Key, calls := s.calls }
    else if nextKV.Key = s.prevKey then
      some { ids := ids, values := s.values ++ [nextKV.Value],
             prevKey := s.prevKey, calls := s.calls }
    else
      some { ids := ids, values := [nextKV.Value],
             prevKey := nextKV.Key, calls := s.calls ++ [(s.prevKey, s.values)] }

/-- The outer loop run for at most `fuel` turns: `some s` is the state at the `break`,
`none` means the loop was still running when the fuel ran out. -/
def reduceLoop (kvas : List (List KeyValue)) : Nat → ReduceState → Option ReduceState
  | 0, _ => none
  | fuel + 1, s =>
    match reduceStep kvas s with
    | none => some s
    | some s1 => reduceLoop kvas fuel s1

/-- The number of records in all input lists. -/
def totalRecords (kvas : List (List KeyValue)) : Nat :=
  (kvas.map List.length).sum

/-- The flush after the loop: `if prevKey != ""` one more call is made. -/
def flushLast (s : ReduceState) : List (String × List String) :=
  if s.prevKey ≠ "" then s.calls ++ [(s.prevKey, s.values)] else s.calls

/-- The merge of `doReduce`, lines 133 to 172, on the lists `kvas`: the calls
`reducef(key, values)` it makes, in order.  `ids` starts as `make([]int, len(kvas))`,
all zero.  Every turn of the loop consumes one record, so one turn more than there
are records is enough fuel (see `doReduceCalls_returns`). -/
def doReduceCalls (kvas : List (List KeyValue)) : Option (List (String × List String)) :=
  (reduceLoop kvas (totalRecords kvas + 1)
    { ids := List.replicate kvas.length 0, values := [], prevKey := "", calls := [] }).map
    flushLast

/-- The lines `"%v %v\n"` that `doReduce` writes to its output file. -/
def doReduceOutput (reducef : String → List String → String) (kvas : List (List KeyValue)) :
    Option (List String) :=
  (doReduceCalls kvas).map fun calls =>
    calls.map fun c => c.1 ++ " " ++ reducef c.1 c.2 ++ "\n"

/-- The keys of the lines `doReduce` writes, in order. -/
def doReduceKeys (kvas : List (List KeyValue)) : Option (List String) :=
  (doReduceCalls kvas).map fun calls => calls.map Prod.fst

/-! ## The merge seen on streams -/

/-- The inner loop of the merge on streams: each input list is kept as the part not
yet consumed, `kva[ids[i]:]`, so `ids[i] < len(kva)` says the part is non-empty and
`kva[ids[i]]` is its head.  The accumulator is `none` while
`findNext` is false and otherwise `some (nextI, kvas[nextI][ids[nextI]])`; `i` is
the index of the first list still to be looked at. -/
def findNextFrom : Nat → List (List KeyValue) → Option (Nat × KeyValue) →
    Option (Nat × KeyValue)
  | _, [], best => best
  | i, [] :: rest, best => findNextFrom (i + 1) rest best
  | i, (kv :: _) :: rest, none => findNextFrom (i + 1) rest (some (i, kv))
  | i, (kv :: _) :: rest, some (nextI, cur) =>
    if stringsCompare kv.Key cur.Key < 0 then findNextFrom (i + 1) rest (some (i, kv))
    else findNextFrom (i + 1) rest (some (nextI, cur))

/-- The merge loop seen on streams: the unread parts of the input lists in place of
the positions `ids`, and the other variables as they are. -/
structure StreamState where
  streams : List (List KeyValue)
  values : List String
  prevKey : String
  calls : List (String × List String)
deriving DecidableEq, Repr

/-- One turn of the merge loop on streams. -/
def streamStep (s : StreamState) : Option StreamState :=
  match findNextFrom 0 s.streams none with
  | none => none
  | some (nextI, nextKV) =>
    let streams := s.streams.modify List.tail nextI
    if s.prevKey = "" then
      some { streams := streams, values := s.values ++ [nextKV.Value],
             prevKey := nextKV.Key, calls := s.calls }
    else if nextKV.Key = s.prevKey then
      some { streams := streams, values := s.values ++ [nextKV.Value],
             prevKey := s.prevKey, calls := s.calls }
    else
      some { streams := streams, values := [nextKV.Value],
             prevKey := nextKV.Key, calls := s.calls ++ [(s.prevKey, s.values)] }

/-- The merge loop on streams, for at most `fuel` turns. -/
def streamLoop : Nat → StreamState → Option StreamState
  | 0, _ => none
  | fuel + 1, s =>
    match streamStep s with
    | none => some s
    | some s1 => streamLoop fuel s1

/-- The flush after the loop, on streams. -/
def streamFlush (s : StreamState) : List (String × List String) :=
  if s.prevKey ≠ "" then s.calls ++ [(s.prevKey, s.values)] else s.calls

/-- The merge on streams; it makes the same calls as `doReduceCalls` (see
`doReduceCalls_eq_streamCalls`). -/
def streamCalls (kvas : List (List KeyValue)) : Option (List (String × List String)) :=
  (streamLoop (totalRecords kvas + 1)
    { streams := kvas, values := [], prevKey := "", calls := [] }).map streamFlush

/-- The streams that belong to the positions `ids`. -/
def streamsOf (kvas : List (List KeyValue)) (ids : List Nat) : List (List KeyValue) :=
  List.zipWith (fun kva id => kva.drop id) kvas ids

/-- The state on streams that belongs to a state of the loop. -/
def toStreams (kvas : List (List KeyValue)) (s : ReduceState) : StreamState :=
  { streams := streamsOf kvas s.ids, values := s.values, prevKey := s.prevKey,
    calls := s.calls }

/-! ## Invariants of the merge loop -/

/-- The state after the loop body has taken record `nextKV` from list `nextI`. -/
def absorb (s : StreamState) (nextI : Nat) (nextKV : KeyValue) : StreamState :=
  if s.prevKey = "" then
    { streams := s.streams.modify List.tail nextI, values := s.values ++ [nextKV.Value],
      prevKey := nextKV.Key, calls := s.calls }
  else if nextKV.Key = s.prevKey then
    { streams := s.streams.modify List.tail nextI, values := s.values ++ [nextKV.Value],
      prevKey := s.prevKey, calls := s.calls }
  else
    { streams := s.streams.modify List.tail nextI, values := [nextKV.Value],
      prevKey := nextKV.Key, calls := s.calls ++ [(s.prevKey, s.values)] }

/-- What the merge loop keeps true on sorted inputs: the unread parts stay sorted,
the keys already passed to `reducef` increase strictly and lie below `prevKey`, and
`prevKey` is not above any unread record. -/
def MergeInv (s : StreamState) : Prop :=
  (∀ l ∈ s.streams, l.Sorted keyLE) ∧
  (s.calls.map Prod.fst).Sorted (fun a b => a.data < b.data) ∧
  (∀ c ∈ s.calls, c.1.data < s.prevKey.data) ∧
  (∀ y ∈ s.streams.flatten, s.prevKey.data ≤ y.Key.data)

/-- The records a list of `reducef` calls accounts for: one per value of each call. -/
def recordsOfCalls (calls : List (String × List String)) : List KeyValue :=
  calls.flatMap fun c => c.2.map fun v => ⟨c.1, v⟩

/-- What the merge loop keeps true when, besides, no key is the empty string: no
record is lost or added, and every group is non-empty. -/
def GroupInv (all : List KeyValue) (s : StreamState) : Prop :=
  MergeInv s ∧
  (∀ y ∈ s.streams.flatten, y.Key ≠ "") ∧
  (s.prevKey = "" → s.values = []) ∧
  (s.prevKey ≠ "" → s.values ≠ []) ∧
  (∀ c ∈ s.calls, c.2 ≠ []) ∧
  (recordsOfCalls s.calls ++ s.values.map (fun v => (⟨s.prevKey, v⟩ : KeyValue)) ++
    s.streams.flatten).Perm all

/-! ## The two phases composed, and the word-count functions -/

/-- The map phase: the sort-and-partition of `doMap` on every input shard, given as
(file name, contents); the result holds the buckets of each map task. -/
def mapPhase (mapf : String → String → List KeyValue) (sortf : List KeyValue → List KeyValue)
    (shards : List (String × String)) (nReduce : Nat) : Option (List (List (List KeyValue))) :=
  shards.mapM fun sh => doMapBuckets mapf sortf sh.1 sh.2 nReduce

/-- The contents of the partition files of shard index `i`, one per map task. -/
def partitionFiles (buckets : List (List (List KeyValue))) (i : Nat) : List String :=
  buckets.map fun b => fileContents (b.getD i [])

/-- The reduce phase: for every shard index, `doReduce` reads the partition files of
that index and merges them; the result holds the output lines of each shard. -/
def reducePhase (reducef : String → List String → String)
    (buckets : List (List (List KeyValue))) (nReduce : Nat) : Option (List (List String)) :=
  (List.range nReduce).mapM fun i =>
    ((partitionFiles buckets i).mapM readPartition).bind (doReduceOutput reducef)

/-- Both phases in sequence. -/
def runJob (mapf : String → String → List KeyValue) (reducef : String → List String → String)
    (sortf : List KeyValue → List KeyValue) (shards : List (String × String)) (nReduce : Nat) :
    Option (List (List String)) :=
  (mapPhase mapf sortf shards nReduce).bind fun buckets => reducePhase reducef buckets nReduce

/-- The words of a text: the maximal runs of letters. -/
def wordsOf : List Char → List Char → List (List Char)
  | cur, [] => if cur = [] then [] else [cur]
  | cur, c :: rest =>
    if c.isAlpha then wordsOf (cur ++ [c]) rest
    else if cur = [] then wordsOf [] rest else cur :: wordsOf [] rest

/-- Modelled from the spec: the word-count map function of the end-to-end scenario,
which emits one record `(word, "1")` per occurrence of a word. -/
def wcMap (_fileName content : String) : List KeyValue :=
  (wordsOf [] content.data).map fun w => ⟨String.mk w, "1"⟩

/-- The number written in decimal digits. -/
def parseNat (s : List Char) : Nat :=
  s.foldl (fun n c => 10 * n + (c.toNat - 48)) 0

/-- Modelled from the spec: the reduce function of the end-to-end scenario, which sums
its values and returns the sum in decimal. -/
def wcReduce (_key : String) (values : List String) : String :=
  toString ((values.map fun v => parseNat v.data).sum)

/-! ## Jobs -/

/-- Modelled from the spec: the job kinds `MapJob`, `ReduceJob` and `NoJob`; their
declaration is not among the sources, which only use the three names. -/
inductive JobType where
  | MapJob
  | ReduceJob
  | NoJob
deriving DecidableEq, Repr

/-- Modelled from the spec: the type `Job`; its declaration is not among the sources,
the fields are those the sources read and write. -/
structure Job where
  JobType : JobType
  FileNames : List String
  NReduce : Nat
deriving DecidableEq, Repr

/-- The function `doMap`, lines 75 to 102, as far as the temporary files: open and read
`job.FileNames[0]` (`readFile` gives the contents of the files that can be read; a
missing name or an unreadable file ends the worker), then sort and partition.  The
result is the text of the temporary files `tmps[0..NReduce-1]`.  The task id is only
used for the report sent at the end. -/
def doMapFiles (readFile : String → Option String) (job : Job) (_taskId : String)
    (mapf : String → String → List KeyValue) (sortf : List KeyValue → List KeyValue) :
    Option (List String) :=
  match job.FileNames with
  | [] => none
  | fileName :: _ =>
    match readFile fileName with
    | none => none
    | some content =>
      (doMapBuckets mapf sortf fileName content job.NReduce).map fun tmps =>
        tmps.map fileContents

/-! ## The coordinator (`coordinator.go`) -/

/-- A buffered Go channel of jobs: the values queued in it, oldest first, its
capacity, and whether it has been closed. -/
structure Chan where
  buf : List Job
  cap : Nat
  closed : Bool
deriving DecidableEq, Repr

/-- The call `make(chan Job, cap)`. -/
def Chan.make (cap : Nat) : Chan :=
  { buf := [], cap := cap, closed := false }

/-- A send `ch <- job` when nobody is receiving: the value is queued if the buffer has
room; otherwise the sender waits, and on a closed channel it panics (`none`). -/
def Chan.send (ch : Chan) (job : Job) : Option Chan :=
  if ch.closed = false ∧ ch.buf.length < ch.cap then some { ch with buf := ch.buf ++ [job] }
  else none

/-- The outcomes of a receive `job, ok := <-ch`. -/
inductive Recv where
  | value (job : Job) (rest : Chan)
  | closedEmpty
  | blocks
deriving DecidableEq, Repr

/-- A receive `job, ok := <-ch`: the oldest queued value with `ok = true`; on an empty
channel `ok = false` if the channel is closed, and the receiver waits if it is not. -/
def Chan.recv (ch : Chan) : Recv :=
  match ch.buf with
  | job :: rest => Recv.value job { ch with buf := rest }
  | [] => if ch.closed then Recv.closedEmpty else Recv.blocks

/-- The goroutine that `GetTask` starts for one assignment (lines 68 to 75): it waits in
the `select` with the assigned job, then has either received a reported job, which it
is about to send to `successJobs`, or seen the timer fire, after which it is about to
send the assigned job to `availableJobs`; after its send it is finished. -/
inductive Lease where
  | waiting (job : Job)
  | reported (job : Job)
  | timedOut (job : Job)
  | finished
deriving DecidableEq, Repr

/-- The struct `Coordinator` together with the goroutines started by `GetTask`.  The
map `reportChannelByUUID` sends a task id to its report channel; a report channel is
named by the position in `leases` of the goroutine that receives from it.  The
mutex, which no function locks, is left out. -/
structure Coordinator where
  jobs : List Job
  rawFiles : List String
  reportChannelByUUID : List (String × Nat)
  leases : List Lease
  blockingJobNum : Nat
  availableJobs : Chan
  successJobs : Chan
  nReduce : Nat
  successJobsSet : List (String × Bool)
  isSuccess : Bool
  addReduce : Bool
deriving DecidableEq, Repr

/-- Modelled from the spec: the reply type `GetTaskReply`, whose declaration is not
among the sources; the fields are those the sources use. -/
structure GetTaskReply where
  Job : Job
  TaskId : String
deriving DecidableEq, Repr

/-- The loop `for _, fileName := range files` of `MakeCoordinator`: one send per file.
No receiver exists yet, so a send to a full channel never completes. -/
def seedJobs (nReduce : Nat) : List String → Chan → Option Chan
  | [], ch => some ch
  | fileName :: rest, ch =>
    (ch.send { JobType := JobType.MapJob, FileNames := [fileName], NReduce := nReduce }).bind
      (seedJobs nReduce rest)

/-- The function `MakeCoordinator`; `none` when it never returns. -/
def MakeCoordinator (files : List String) (nReduce : Nat) : Option Coordinator :=
  (seedJobs nReduce files (Chan.make 100)).map fun avail =>
    { jobs := [], rawFiles := files, reportChannelByUUID := [], leases := [],
      blockingJobNum := nReduce, availableJobs := avail, successJobs := Chan.make 100,
      nReduce := nReduce, successJobsSet := [], isSuccess := false, addReduce := false }

/-- The RPC handler `GetTask`; `id` is the string `uuid.New()` returns.  `none` means the
handler is waiting at the receive from `availableJobs`. -/
def GetTask (c : Coordinator) (id : String) : Option (Coordinator × GetTaskReply) :=
  match c.availableJobs.recv with
  | Recv.blocks => none
  | Recv.closedEmpty =>
    some (c, { Job := { JobType := JobType.NoJob, FileNames := [], NReduce := c.nReduce },
               TaskId := "" })
  | Recv.value job rest =>
    some ({ c with availableJobs := rest,
                   reportChannelByUUID := (id, c.leases.length) :: c.reportChannelByUUID,
                   leases := c.leases ++ [Lease.waiting job] },
          { Job := job, TaskId := id })

/-- The outcomes of the RPC handler `ReportSuccess`: an error, a normal return (with the
new state), or a handler that waits for ever at its send on the report channel. -/
inductive ReportResult where
  | error (msg : String)
  | ack (c : Coordinator)
  | blocks
deriving DecidableEq, Repr

/-- The RPC handler `ReportSuccess`: look the task id up; send the job on the report
channel, which is unbuffered, so the send completes only if the goroutine of that
channel is waiting in its `select`. -/
def ReportSuccess (c : Coordinator) (taskId : String) (job : Job) : ReportResult :=
  match c.reportChannelByUUID.lookup taskId with
  | none => ReportResult.error "cannot read given uuid"
  | some ch =>
    match c.leases[ch]? with
    | some (Lease.waiting _) =>
      ReportResult.ack { c with leases := c.leases.set ch (Lease.reported job) }
    | _ => ReportResult.blocks

/-- The case `<-time.After(10 * time.Second)` of the `select` in goroutine `ch`: it can be
taken while the goroutine is waiting. -/
def timerFires (c : Coordinator) (ch : Nat) : Option Coordinator :=
  match c.leases[ch]? with
  | some (Lease.waiting job) => some { c with leases := c.leases.set ch (Lease.timedOut job) }
  | _ => none

/-- The send that ends goroutine `ch`: `c.successJobs <- job` after a report,
`c.availableJobs <- job` after the timer; `none` while the send cannot proceed, and for
a goroutine that is not at its send. -/
def leaseSend (c : Coordinator) (ch : Nat) : Option Coordinator :=
  match c.leases[ch]? with
  | some (Lease.reported job) =>
    (c.successJobs.send job).map fun q =>
      { c with successJobs := q, leases := c.leases.set ch Lease.finished }
  | some (Lease.timedOut job) =>
    (c.availableJobs.send job).map fun q =>
      { c with availableJobs := q, leases := c.leases.set ch Lease.finished }
  | _ => none

/-- One turn of the loop of `handleSuccessJobs`: receive a job from `successJobs` and
switch on its type; both cases of the switch are empty.  `none` while the receive
waits. -/
def handleSuccessJobs (c : Coordinator) : Option Coordinator :=
  match c.successJobs.recv with
  | Recv.value job rest =>
    match job.JobType with
    | JobType.MapJob => some { c with successJobs := rest }
    | JobType.ReduceJob => some { c with successJobs := rest }
    | JobType.NoJob => some { c with successJobs := rest }
  | _ => none

/-- The method `Done`. -/
def Done (c : Coordinator) : Bool :=
  c.isSuccess

/-- What can happen next at a coordinator: an RPC arrives, a lease timer fires, a lease
goroutine does its send, or `handleSuccessJobs` receives. -/
inductive Event where
  | getTask (id : String)
  | reportSuccess (taskId : String) (job : Job)
  | timer (ch : Nat)
  | send (ch : Nat)
  | handleSuccess
deriving DecidableEq, Repr

/-- The state after an event; `none` when the event cannot happen in this state.  A
`ReportSuccess` that returns an error or waits for ever leaves the state as it is. -/
def step (c : Coordinator) : Event → Option Coordinator
  | Event.getTask id => (GetTask c id).map Prod.fst
  | Event.reportSuccess taskId job =>
    match ReportSuccess c taskId job with
    | ReportResult.ack c1 => some c1
    | _ => some c
  | Event.timer ch => timerFires c ch
  | Event.send ch => leaseSend c ch
  | Event.handleSuccess => handleSuccessJobs c

/-- The states a coordinator can be in: those `MakeCoordinator` returns and those an
event leads to from such a state. -/
inductive Reachable : Coordinator → Prop where
  | init (files : List String) (nReduce : Nat) (c : Coordinator) :
      MakeCoordinator files nReduce = some c → Reachable c
  | next (c : Coordinator) (e : Event) (c1 : Coordinator) :
      Reachable c → step c e = some c1 → Reachable c1

/-! ## Invariants and runs of the coordinator -/

/-- The number of jobs a lease goroutine still holds for the pending queue. -/
def pendingWeight : Lease → Nat
  | Lease.waiting _ => 1
  | Lease.timedOut _ => 1
  | _ => 0

/-- The number of goroutines that may still send a job to `availableJobs`. -/
def pendingLeases (leases : List Lease) : Nat :=
  (leases.map pendingWeight).sum

/-- What holds in every reachable state: `availableJobs` is the open channel of
capacity 100, and the jobs queued in it together with those held by lease goroutines
never exceed its capacity. -/
def QueueInv (c : Coordinator) : Prop :=
  c.availableJobs.cap = 100 ∧ c.availableJobs.closed = false ∧
  c.availableJobs.buf.length + pendingLeases c.leases ≤ 100

/-- The state `MakeCoordinator` returns for the single input file `pg-1.txt` and two
reduce shards. -/
def oneFileCoordinator : Coordinator :=
  { jobs := [], rawFiles := ["pg-1.txt"], reportChannelByUUID := [], leases := [],
    blockingJobNum := 2,
    availableJobs := { buf := [{ JobType := JobType.MapJob, FileNames := ["pg-1.txt"],
                                 NReduce := 2 }], cap := 100, closed := false },
    successJobs := { buf := [], cap := 100, closed := false },
    nReduce := 2, successJobsSet := [], isSuccess := false, addReduce := false }

/-- The state after `GetTask` has assigned the only job of `oneFileCoordinator` under
the task id `id-1`. -/
def oneFileAssigned : Coordinator :=
  { oneFileCoordinator with
    availableJobs := { buf := [], cap := 100, closed := false },
    reportChannelByUUID := [("id-1", 0)],
    leases := [Lease.waiting { JobType := JobType.MapJob, FileNames := ["pg-1.txt"],
                               NReduce := 2 }] }

/-- A run of the coordinator: the events happen one after the other; `none` when one of
them cannot happen in the state reached. -/
def run : Coordinator → List Event → Option Coordinator
  | c, [] => some c
  | c, e :: es => (step c e).bind fun c1 => run c1 es

/-- The success reports processed along a run: the jobs `handleSuccessJobs` receives
from `successJobs`, in order. -/
def processedReports : Coordinator → List Event → List Job
  | _, [] => []
  | c, e :: es =>
    match step c e with
    | none => []
    | some c1 =>
      match e with
      | Event.handleSuccess => c.successJobs.buf.head?.toList ++ processedReports c1 es
      | _ => processedReports c1 es

/-- What holds in every reachable state: the jobs in the pending queue and the jobs
held by waiting or timed-out goroutines are Map jobs, and the completion flag is
false. -/
def MapOnlyInv (c : Coordinator) : Prop :=
  (∀ j ∈ c.availableJobs.buf, j.JobType = JobType.MapJob) ∧
  (∀ j, Lease.waiting j ∈ c.leases → j.JobType = JobType.MapJob) ∧
  (∀ j, Lease.timedOut j ∈ c.leases → j.JobType = JobType.MapJob) ∧
  c.isSuccess = false

/-- The state `MakeCoordinator` returns for the two input files `pg-1.txt` and
`pg-2.txt` and two reduce shards. -/
def twoFileCoordinator : Coordinator :=
  { oneFileCoordinator with
    rawFiles := ["pg-1.txt", "pg-2.txt"],
    availableJobs := { buf := [{ JobType := JobType.MapJob, FileNames := ["pg-1.txt"],
                                 NReduce := 2 },
                               { JobType := JobType.MapJob, FileNames := ["pg-2.txt"],
                                 NReduce := 2 }],
                       cap := 100, closed := false } }

/-! ## File names (`doMap`, lines 103 to 106, and `doReduce`, lines 173 and 174) -/

/-- The call `strconv.Itoa(i)` for an index `i >= 0`: the decimal digits of `i`. -/
def Itoa (i : Nat) : String :=
  toString i

/-- The stable name `doMap` renames the temporary file of bucket `i` to:
`"mr-" + strings.Split(job.FileNames[0], "-")[1] + "-" + strconv.Itoa(i)`; with no `-` in
the input name the index `[1]` is out of range and the worker panics. -/
def mapOutputName (fileName : String) (i : Nat) : Option String :=
  match splitOn '-' [] fileName.data with
  | _ :: taskIdentifier :: _ => some ("mr-" ++ String.mk taskIdentifier ++ "-" ++ Itoa i)
  | _ => none

/-- The name `doReduce` renames its output file to:
`"mr-out-" + strings.Split(job.FileNames[0], "-")[2]`; with fewer than two `-` in the
name the index `[2]` is out of range and the worker panics. -/
def reduceOutputName (fileName : String) : Option String :=
  match splitOn '-' [] fileName.data with
  | _ :: _ :: taskIdentifier :: _ => some ("mr-out-" ++ String.mk taskIdentifier)
  | _ => none

/-- The second `-`-separated field of a file name, `strings.Split(name, "-")[1]`. -/
def secondField (fileName : String) : Option String :=
  match splitOn '-' [] fileName.data with
  | _ :: taskIdentifier :: _ => some (String.mk taskIdentifier)
  | _ => none

/-! ## The phases of a job -/

/-- The jobs a coordinator holds for its pending queue: those queued in `availableJobs`
and those in the hands of a lease goroutine that is waiting in its `select` or about to
send to `availableJobs`. -/
def heldForQueue (c : Coordinator) (j : Job) : Prop :=
  j ∈ c.availableJobs.buf ∨ Lease.waiting j ∈ c.leases ∨ Lease.timedOut j ∈ c.leases

/-- Modelled from the spec: the Reduce job of shard `i` of a coordinator made from
`files`, "the set of partition files for one reduce shard", under the names that `doMap`
gives these files.  No function of `coordinator.go` builds a Reduce job. -/
def reduceJobOf (files : List String) (nReduce i : Nat) : Job :=
  { JobType := JobType.ReduceJob, FileNames := files.filterMap fun f => mapOutputName f i,
    NReduce := nReduce }

/-- A state of the coordinator of `pg-1.txt` in which the completion flag is set and the
Reduce job of shard 0 is in the pending queue.  No run from `MakeCoordinator` reaches
such a state; it shows what the events do to a set flag and to a queued Reduce job. -/
def doneCoordinator : Coordinator :=
  { oneFileCoordinator with
    availableJobs := { buf := [reduceJobOf ["pg-1.txt"] 2 0], cap := 100, closed := false },
    isSuccess := true }

/-- The state `doneCoordinator` after its queued job was assigned under the task id
`id-1`, the lease timer fired and the goroutine sent the job back. -/
def doneRequeued : Coordinator :=
  { doneCoordinator with
    reportChannelByUUID := [("id-1", 0)],
    leases := [Lease.finished] }

/-- The state of `twoFileCoordinator` after both jobs were assigned, under the task ids
`id-1` and `id-2`, and a report was received, sent on and processed for each. -/
def twoFileReported : Coordinator :=
  { twoFileCoordinator with
    availableJobs := { buf := [], cap := 100, closed := false },
    reportChannelByUUID := [("id-2", 1), ("id-1", 0)],
    leases := [Lease.finished, Lease.finished] }

/-! ## The worker loop (`Worker`, `doMap`, `doReduce`) -/

/-- Modelled from the spec: the argument type `ReportSuccessArgs`, whose declaration is
not among the sources; the fields are those the sources use, in the order of the
literal `ReportSuccessArgs{job, taskId}`. -/
structure ReportSuccessArgs where
  Job : Job
  TaskId : String
deriving DecidableEq, Repr

/-- What `doMap` has done when it returns: the renames it asked for, each as the
stable name and the text of the temporary file that is to get this name, and the report
it sends to the coordinator at its end.  `doMap` does not look at the error of
`os.Rename`: after a rename that fails (as when the stable name lies in a directory that
does not exist) no file has the stable name, and the report is sent all the same. -/
structure MapEffect where
  renames : List (String × String)
  report : ReportSuccessArgs
deriving DecidableEq, Repr

/-- What `doReduce` has done when it returns: the rename it asked for, as the name
`outputName` and the lines `output` of the temporary file that is to get this name, and
the report it sends to the coordinator at its end.  `doReduce` does not look at the
error of `os.Rename` either. -/
structure ReduceEffect where
  outputName : String
  output : List String
  report : ReportSuccessArgs
deriving DecidableEq, Repr

/-- The function `doMap`: read the input, sort and partition into the temporary
files, ask for the rename of file `i` to its stable name, report success.  `none` when
the worker ends before the report (missing file, panic). -/
def doMap (readFile : String → Option String) (mapf : String → String → List KeyValue)
    (sortf : List KeyValue → List KeyValue) (job : Job) (taskId : String) : Option MapEffect :=
  (doMapFiles readFile job taskId mapf sortf).bind fun tmps =>
    ((List.range job.NReduce).mapM fun i =>
      (mapOutputName (job.FileNames.headD "") i).map fun name => (name, tmps.getD i "")).map
      fun renames => { renames := renames, report := { Job := job, TaskId := taskId } }

/-- The function `doReduce`: read every partition file of the job, merge, write the
output lines, ask for the rename of the output file, report success.  `none` when the worker ends
before the report (missing file, panic on a line without a space, panic on
`job.FileNames[0]` or on the third field of its name). -/
def doReduce (readFile : String → Option String) (reducef : String → List String → String)
    (job : Job) (taskId : String) : Option ReduceEffect :=
  (job.FileNames.mapM fun fileName => (readFile fileName).bind readPartition).bind fun kvas =>
    (doReduceOutput reducef kvas).bind fun lines =>
      match job.FileNames with
      | [] => none
      | fileName :: _ =>
        (reduceOutputName fileName).map fun name =>
          { outputName := name, output := lines, report := { Job := job, TaskId := taskId } }

/-- The outcomes of one turn of the loop of `Worker`: the loop ends, the worker faults
with an index out of range before it calls an executor, or it calls `doMap` or
`doReduce`, with that call's result. -/
inductive WorkerTurn (α β : Type) where
  | stops
  | faults
  | ranMap (result : α)
  | ranReduce (result : β)
deriving DecidableEq, Repr

/-- One turn of the loop of `Worker`, lines 52 to 65, on the reply of
`Coordinator.GetTask`: `runMap` and `runReduce` are the calls of `doMap` and `doReduce`.
The arguments of the two `log.Printf` calls are evaluated before the executor is called:
`job.FileNames[0]` for a Map job, `job.FileNames[0]`, `[1]` and `[2]` for a Reduce job. -/
def workerDispatch {α β : Type} (runMap : Job → String → α) (runReduce : Job → String → β)
    (reply : GetTaskReply) : WorkerTurn α β :=
  match reply.Job.JobType with
  | JobType.NoJob => WorkerTurn.stops
  | JobType.MapJob =>
    match reply.Job.FileNames with
    | _ :: _ => WorkerTurn.ranMap (runMap reply.Job reply.TaskId)
    | [] => WorkerTurn.faults
  | JobType.ReduceJob =>
    match reply.Job.FileNames with
    | _ :: _ :: _ :: _ => WorkerTurn.ranReduce (runReduce reply.Job reply.TaskId)
    | _ => WorkerTurn.faults

end MR

namespace KVSrv

/-! ## The key-value server (`kvsrv/server.go`) -/

/-- Modelled from the spec: the argument type `GetArgs`, whose declaration is not among
the sources; the fields are those `Get` reads.  The request id is an `int64`, used as a
map key only. -/
structure GetArgs where
  Key : String
  RequestID : Int
  AckRequest : Bool
deriving DecidableEq, Repr

/-- Modelled from the spec: the argument type `PutAppendArgs`, whose declaration is not
among the sources; the fields are those `Put` and `Append` read. -/
structure PutAppendArgs where
  Key : String
  Value : String
  Op : String
  RequestID : Int
  AckRequest : Bool
deriving DecidableEq, Repr

/-- Modelled from the spec: the reply type `GetReply`, with the field `Get` writes. -/
structure GetReply where
  Value : String
deriving DecidableEq, Repr

/-- Modelled from the spec: the reply type `PutAppendReply`, with the field `Put` and
`Append` write. -/
structure PutAppendReply where
  Value : String
deriving DecidableEq, Repr

/-- The struct `KVServer`: the two Go maps, each as a function that gives the value
stored under a key, if any.  Every method holds the mutex from its first access to a map
to its return, so a method is one step on this state. -/
structure KVServer where
  store : String → Option String
  processedID : Int → Option String

/-- The function `StartKVServer`: both maps empty. -/
def StartKVServer : KVServer :=
  { store := fun _ => none, processedID := fun _ => none }

/-- A read `m[k]` of a Go map of strings: the zero value `""` for a missing key. -/
def lookupOrEmpty (m : String → Option String) (k : String) : String :=
  match m k with
  | some v => v
  | none => ""

/-- The method `Get`: the state after the call and the reply, `reply` being the reply
struct the caller passed in. -/
def KVServer.Get (kv : KVServer) (args : GetArgs) (reply : GetReply) : KVServer × GetReply :=
  if args.AckRequest then
    ({ kv with processedID := Function.update kv.processedID args.RequestID none }, reply)
  else
    match kv.processedID args.RequestID with
    | some val => (kv, { reply with Value := val })
    | none =>
      let value := match kv.store args.Key with
        | none => ""
        | some val => val
      ({ kv with processedID := Function.update kv.processedID args.RequestID (some value) },
       { reply with Value := value })

/-- The method `Put`. -/
def KVServer.Put (kv : KVServer) (args : PutAppendArgs) (reply : PutAppendReply) :
    KVServer × PutAppendReply :=
  if args.Op ≠ "Put" then (kv, reply)
  else if args.AckRequest then
    ({ kv with processedID := Function.update kv.processedID args.RequestID none }, reply)
  else
    match kv.processedID args.RequestID with
    | some val => (kv, { reply with Value := val })
    | none =>
      ({ store := Function.update kv.store args.Key (some args.Value),
         processedID := Function.update kv.processedID args.RequestID (some args.Value) },
       { reply with Value := args.Value })

/-- The method `Append`. -/
def KVServer.Append (kv : KVServer) (args : PutAppendArgs) (reply : PutAppendReply) :
    KVServer × PutAppendReply :=
  if args.Op ≠ "Append" then (kv, reply)
  else if args.AckRequest then
    ({ kv with processedID := Function.update kv.processedID args.RequestID none }, reply)
  else
    match kv.processedID args.RequestID with
    | some val => (kv, { reply with Value := val })
    | none =>
      let oldVal := lookupOrEmpty kv.store args.Key
      ({ store := Function.update kv.store args.Key (some (oldVal ++ args.Value)),
         processedID := Function.update kv.processedID args.RequestID (some oldVal) },
       { reply with Value := oldVal })

/-- A server whose store holds `x` under the key `k` and whose table of processed
requests is empty. -/
def serverWithX : KVServer :=
  { store := fun k => if k = "k" then some "x" else none, processedID := fun _ => none }

/-- A `Get` request for the key `k` under the request id 1. -/
def getK : GetArgs :=
  { Key := "k", RequestID := 1, AckRequest := false }

/-- A `Put` request of the value `y` for the key `k` under the request id 2. -/
def putY : PutAppendArgs :=
  { Key := "k", Value := "y", Op := "Put", RequestID := 2, AckRequest := false }

/-- An `Append` request of the value `z` for the key `k` under the request id 3. -/
def appendZ : PutAppendArgs :=
  { Key := "k", Value := "z", Op := "Append", RequestID := 3, AckRequest := false }

end KVSrv

/-! # Theorems -/

namespace MR

/-! ## The merge on streams -/

theorem stringsCompare_neg_iff (a b : String) : stringsCompare a b < 0 ↔ a.data < b.data := by
  unfold stringsCompare
  by_cases h : a = b
  · subst h; simp
  · by_cases h2 : a.data < b.data <;> simp [h, h2]

theorem findNextFrom_eq_none : ∀ (rest : List (List KeyValue)) (i : Nat) (best : Option (Nat × KeyValue)),
    findNextFrom i rest best = none ↔ best = none ∧ ∀ s ∈ rest, s = [] := by
  intro rest
  induction rest with
  | nil => intro i best; simp [findNextFrom]
  | cons s rest ih =>
    intro i best
    cases s with
    | nil => simp [findNextFrom, ih]
    | cons kv tl =>
      cases best with
      | none => simp [findNextFrom, ih]
      | some c =>
        obtain ⟨nextI, cur⟩ := c
        simp only [findNextFrom]
        split <;> simp [ih]

theorem findNextFrom_some : ∀ (rest : List (List KeyValue)) (i : Nat) (best : Option (Nat × KeyValue))
    (j : Nat) (kv : KeyValue), findNextFrom i rest best = some (j, kv) →
    (best = some (j, kv) ∨ (i ≤ j ∧ ∃ tl, rest[j - i]? = some (kv :: tl))) ∧
    (∀ c, best = some c → kv.Key.data ≤ c.2.Key.data) ∧
    (∀ x tl, (x :: tl) ∈ rest → kv.Key.data ≤ x.Key.data) := by
  intro rest
  induction rest with
  | nil =>
    intro i best j kv h
    simp only [findNextFrom] at h
    subst h
    simp
  | cons s rest ih =>
    intro i best j kv h
    cases s with
    | nil =>
      simp only [findNextFrom] at h
      obtain ⟨h1, h2, h3⟩ := ih (i + 1) best j kv h
      refine ⟨?_, h2, ?_⟩
      · rcases h1 with h1 | ⟨hle, tl, htl⟩
        · exact Or.inl h1
        · refine Or.inr ⟨by omega, tl, ?_⟩
          have : j - i = (j - (i + 1)) + 1 := by omega
          rw [this]; simpa using htl
      · intro x tl hx
        simp only [List.mem_cons] at hx
        rcases hx with hx | hx
        · cases hx
        · exact h3 x tl hx
    | cons hd tl0 =>
      cases best with
      | none =>
        simp only [findNextFrom] at h
        obtain ⟨h1, h2, h3⟩ := ih (i + 1) (some (i, hd)) j kv h
        refine ⟨?_, by simp, ?_⟩
        · rcases h1 with h1 | ⟨hle, tl, htl⟩
          · simp only [Option.some.injEq, Prod.mk.injEq] at h1
            obtain ⟨rfl, rfl⟩ := h1
            exact Or.inr ⟨le_refl _, tl0, by simp⟩
          · refine Or.inr ⟨by omega, tl, ?_⟩
            have : j - i = (j - (i + 1)) + 1 := by omega
            rw [this]; simpa using htl
        · intro x tl hx
          simp only [List.mem_cons] at hx
          rcases hx with hx | hx
          · cases hx
            exact h2 _ rfl
          · exact h3 x tl hx
      | some c =>
        obtain ⟨nextI, cur⟩ := c
        simp only [findNextFrom] at h
        split at h
        · rename_i hlt
          rw [stringsCompare_neg_iff] at hlt
          obtain ⟨h1, h2, h3⟩ := ih (i + 1) (some (i, hd)) j kv h
          have hhd := h2 (i, hd) rfl
          refine ⟨?_, ?_, ?_⟩
          · rcases h1 with h1 | ⟨hle, tl, htl⟩
            · simp only [Option.some.injEq, Prod.mk.injEq] at h1
              obtain ⟨rfl, rfl⟩ := h1
              exact Or.inr ⟨le_refl _, tl0, by simp⟩
            · refine Or.inr ⟨by omega, tl, ?_⟩
              have : j - i = (j - (i + 1)) + 1 := by omega
              rw [this]; simpa using htl
          · intro c hc
            simp only [Option.some.injEq] at hc
            subst hc
            exact le_trans hhd (le_of_lt hlt)
          · intro x tl hx
            simp only [List.mem_cons] at hx
            rcases hx with hx | hx
            · cases hx
              exact hhd
            · exact h3 x tl hx
        · rename_i hlt
          rw [stringsCompare_neg_iff] at hlt
          obtain ⟨h1, h2, h3⟩ := ih (i + 1) (some (nextI, cur)) j kv h
          have hcur := h2 (nextI, cur) rfl
          refine ⟨?_, ?_, ?_⟩
          · rcases h1 with h1 | ⟨hle, tl, htl⟩
            · exact Or.inl h1
            · refine Or.inr ⟨by omega, tl, ?_⟩
              have : j - i = (j - (i + 1)) + 1 := by omega
              rw [this]; simpa using htl
          · intro c hc
            simp only [Option.some.injEq] at hc
            subst hc
            exact hcur
          · intro x tl hx
            simp only [List.mem_cons] at hx
            rcases hx with hx | hx
            · cases hx
              exact le_trans hcur (not_lt.mp hlt)
            · exact h3 x tl hx

theorem absorb_streams (s : StreamState) (j : Nat) (kv : KeyValue) :
    (absorb s j kv).streams = s.streams.modify List.tail j := by
  unfold absorb
  split
  · rfl
  · split <;> rfl

theorem streamStep_eq_none (s : StreamState) :
    streamStep s = none ↔ ∀ l ∈ s.streams, l = [] := by
  unfold streamStep
  split
  · rename_i h
    rw [findNextFrom_eq_none] at h
    simpa using h.2
  · rename_i j kv h
    have hne : findNextFrom 0 s.streams none ≠ none := by rw [h]; simp
    rw [Ne, findNextFrom_eq_none] at hne
    constructor
    · intro h2
      split at h2
      · cases h2
      · split at h2 <;> cases h2
    · intro h2
      exact absurd ⟨rfl, h2⟩ hne

theorem streamStep_eq_some (s s1 : StreamState) (h : streamStep s = some s1) :
    ∃ j kv tl, s.streams[j]? = some (kv :: tl) ∧
      (∀ x tl1, (x :: tl1) ∈ s.streams → kv.Key.data ≤ x.Key.data) ∧
      s1 = absorb s j kv := by
  unfold streamStep at h
  split at h
  · cases h
  · rename_i j kv hf
    obtain ⟨h1, -, h3⟩ := findNextFrom_some s.streams 0 none j kv hf
    rcases h1 with h1 | ⟨-, tl, htl⟩
    · cases h1
    · refine ⟨j, kv, tl, by simpa using htl, h3, ?_⟩
      unfold absorb
      split at h
      · rename_i hp
        simp only [hp, if_true]
        exact (Option.some.inj h).symm
      · rename_i hp
        simp only [hp, if_false]
        split at h
        · rename_i hk
          simp only [hk, if_true]
          exact (Option.some.inj h).symm
        · rename_i hk
          simp only [hk, if_false]
          exact (Option.some.inj h).symm

theorem flatten_modify_tail : ∀ (streams : List (List KeyValue)) (j : Nat) (kv : KeyValue)
    (tl : List KeyValue), streams[j]? = some (kv :: tl) →
    streams.flatten.Perm (kv :: (streams.modify List.tail j).flatten) := by
  intro streams
  induction streams with
  | nil => intro j kv tl h; simp at h
  | cons s rest ih =>
    intro j kv tl h
    cases j with
    | zero =>
      simp only [List.getElem?_cons_zero, Option.some.injEq] at h
      subst h
      simp
    | succ j =>
      simp only [List.getElem?_cons_succ] at h
      have := ih j kv tl h
      simp only [List.modify_succ_cons, List.flatten_cons]
      exact (List.Perm.append_left s this).trans List.perm_middle

theorem totalRecords_modify_tail : ∀ (streams : List (List KeyValue)) (j : Nat) (kv : KeyValue)
    (tl : List KeyValue), streams[j]? = some (kv :: tl) →
    totalRecords (streams.modify List.tail j) + 1 = totalRecords streams := by
  intro streams
  induction streams with
  | nil => intro j kv tl h; simp at h
  | cons s rest ih =>
    intro j kv tl h
    cases j with
    | zero =>
      simp only [List.getElem?_cons_zero, Option.some.injEq] at h
      subst h
      simp [totalRecords]
      omega
    | succ j =>
      simp only [List.getElem?_cons_succ] at h
      have := ih j kv tl h
      simp only [totalRecords, List.modify_succ_cons, List.map_cons, List.sum_cons] at this ⊢
      omega

theorem sorted_modify_tail : ∀ (streams : List (List KeyValue)) (j : Nat),
    (∀ l ∈ streams, l.Sorted keyLE) → ∀ l ∈ streams.modify List.tail j, l.Sorted keyLE := by
  intro streams
  induction streams with
  | nil => intro j _ l hl; simp at hl
  | cons s rest ih =>
    intro j hs l hl
    cases j with
    | zero =>
      simp only [List.modify_zero_cons, List.mem_cons] at hl
      rcases hl with rfl | hl
      · exact (hs s (List.mem_cons_self _ _)).tail
      · exact hs l (List.mem_cons_of_mem _ hl)
    | succ j =>
      simp only [List.modify_succ_cons, List.mem_cons] at hl
      rcases hl with rfl | hl
      · exact hs l (List.mem_cons_self _ _)
      · exact ih j (fun l1 h1 => hs l1 (List.mem_cons_of_mem _ h1)) l hl

/-- The record the merge takes next is not above any record still unread, when every
input list is sorted. -/
theorem head_min_all (streams : List (List KeyValue)) (kv : KeyValue)
    (hs : ∀ l ∈ streams, l.Sorted keyLE)
    (hmin : ∀ x tl1, (x :: tl1) ∈ streams → kv.Key.data ≤ x.Key.data) :
    ∀ y ∈ streams.flatten, kv.Key.data ≤ y.Key.data := by
  intro y hy
  rw [List.mem_flatten] at hy
  obtain ⟨l, hl, hyl⟩ := hy
  cases l with
  | nil => simp at hyl
  | cons x tl1 =>
    have hx := hmin x tl1 hl
    simp only [List.mem_cons] at hyl
    rcases hyl with rfl | hyl
    · exact hx
    · have hsorted := hs _ hl
      have := List.rel_of_sorted_cons hsorted y hyl
      exact le_trans hx this

/-- Induction principle for the merge loop: with more fuel than unread records the
loop reaches its `break`, and a property kept by every turn holds there. -/
theorem streamLoop_invariant (Inv : StreamState → Prop)
    (hstep : ∀ s s1, Inv s → streamStep s = some s1 → Inv s1) :
    ∀ (fuel : Nat) (s : StreamState), Inv s → totalRecords s.streams < fuel →
      ∃ s1, streamLoop fuel s = some s1 ∧ Inv s1 ∧ ∀ l ∈ s1.streams, l = [] := by
  intro fuel
  induction fuel with
  | zero => intro s _ h; omega
  | succ fuel ih =>
    intro s hinv hfuel
    unfold streamLoop
    cases hstp : streamStep s with
    | none =>
      exact ⟨s, rfl, hinv, (streamStep_eq_none s).mp hstp⟩
    | some s1 =>
      obtain ⟨j, kv, tl, hj, -, hs1⟩ := streamStep_eq_some s s1 hstp
      have htot := totalRecords_modify_tail s.streams j kv tl hj
      have hstr : s1.streams = s.streams.modify List.tail j := by rw [hs1, absorb_streams]
      have : totalRecords s1.streams < fuel := by rw [hstr]; omega
      exact ih s1 (hstep s s1 hinv hstp) this

/-! ## The merge loop of `doReduce` and its view on streams -/

theorem drop_eq_cons_getD {α : Type} (d : α) : ∀ (l : List α) (n : Nat) (x : α) (tl : List α),
    l.drop n = x :: tl → n < l.length ∧ l.getD n d = x := by
  intro l
  induction l with
  | nil => intro n x tl h; simp at h
  | cons a l ih =>
    intro n x tl h
    cases n with
    | zero =>
      simp only [List.drop_zero, List.cons.injEq] at h
      exact ⟨by simp, by simp [h.1]⟩
    | succ n =>
      simp only [List.drop_succ_cons] at h
      obtain ⟨h1, h2⟩ := ih n x tl h
      exact ⟨by simpa using h1, by simpa using h2⟩

theorem findNextIdx_eq (kvas : List (List KeyValue)) (ids : List Nat) :
    ∀ (rest : List (List KeyValue)) (i : Nat) (best : Option Nat),
    (∀ k, k < rest.length →
      rest[k]? = some ((kvas.getD (i + k) []).drop (ids.getD (i + k) 0))) →
    findNextFrom i rest (best.map fun j => (j, recordAt kvas ids j)) =
      (findNextIdx kvas ids (List.range' i rest.length) best).map
        fun j => (j, recordAt kvas ids j) := by
  intro rest
  induction rest with
  | nil => intro i best _; simp [findNextFrom, findNextIdx]
  | cons s rest ih =>
    intro i best h
    have h0 := h 0 (by simp)
    simp only [List.getElem?_cons_zero, Option.some.injEq, Nat.add_zero] at h0
    have hrest : ∀ k, k < rest.length →
        rest[k]? = some ((kvas.getD (i + 1 + k) []).drop (ids.getD (i + 1 + k) 0)) := by
      intro k hk
      have := h (k + 1) (by simpa using hk)
      simp only [List.getElem?_cons_succ] at this
      rw [this]
      have e : i + (k + 1) = i + 1 + k := by omega
      rw [e]
    simp only [List.length_cons, List.range'_succ]
    cases s with
    | nil =>
      have hlen : ¬ ids.getD i 0 < (kvas.getD i []).length := by
        have := List.drop_eq_nil_iff.mp h0.symm
        omega
      simp only [findNextFrom, findNextIdx, hlen, if_false]
      exact ih (i + 1) best hrest
    | cons kv tl =>
      obtain ⟨hlen, hkv⟩ := drop_eq_cons_getD (⟨"", ""⟩ : KeyValue) _ _ kv tl h0.symm
      have hrec : recordAt kvas ids i = kv := hkv
      cases best with
      | none =>
        simp only [Option.map_none', findNextFrom, findNextIdx, hlen, if_true]
        have := ih (i + 1) (some i) hrest
        simp only [Option.map_some', hrec] at this
        exact this
      | some nextI =>
        simp only [Option.map_some', findNextFrom, findNextIdx, hlen, if_true, hrec]
        split
        · have := ih (i + 1) (some i) hrest
          simp only [Option.map_some', hrec] at this
          exact this
        · have := ih (i + 1) (some nextI) hrest
          simp only [Option.map_some'] at this
          exact this

theorem getElem?_streamsOf : ∀ (kvas : List (List KeyValue)) (ids : List Nat) (k : Nat),
    k < (streamsOf kvas ids).length →
    (streamsOf kvas ids)[k]? = some ((kvas.getD k []).drop (ids.getD k 0)) := by
  intro kvas
  induction kvas with
  | nil => intro ids k h; simp [streamsOf] at h
  | cons kva kvas ih =>
    intro ids k h
    cases ids with
    | nil => simp [streamsOf] at h
    | cons id ids =>
      cases k with
      | zero => simp [streamsOf]
      | succ k =>
        have := ih ids k (by simpa [streamsOf] using h)
        simpa [streamsOf] using this

theorem length_streamsOf (kvas : List (List KeyValue)) (ids : List Nat)
    (h : ids.length = kvas.length) : (streamsOf kvas ids).length = kvas.length := by
  simp [streamsOf, h]

theorem streamsOf_modify : ∀ (kvas : List (List KeyValue)) (ids : List Nat) (j : Nat),
    streamsOf kvas (ids.modify (fun id => id + 1) j) =
      (streamsOf kvas ids).modify List.tail j := by
  intro kvas
  induction kvas with
  | nil => intro ids j; simp [streamsOf]
  | cons kva kvas ih =>
    intro ids j
    cases ids with
    | nil => simp [streamsOf]
    | cons id ids =>
      cases j with
      | zero => simp [streamsOf, List.tail_drop]
      | succ j =>
        have := ih ids j
        simp only [streamsOf] at this
        simp [streamsOf, this]

theorem streamsOf_replicate : ∀ kvas : List (List KeyValue),
    streamsOf kvas (List.replicate kvas.length 0) = kvas := by
  intro kvas
  induction kvas with
  | nil => simp [streamsOf]
  | cons kva kvas ih =>
    simp only [streamsOf] at ih
    simp [streamsOf, List.replicate_succ, ih]

theorem findNextFrom_streamsOf (kvas : List (List KeyValue)) (ids : List Nat)
    (h : ids.length = kvas.length) :
    findNextFrom 0 (streamsOf kvas ids) none =
      (findNextIdx kvas ids (List.range kvas.length) none).map
        fun j => (j, recordAt kvas ids j) := by
  have := findNextIdx_eq kvas ids (streamsOf kvas ids) 0 none (by
    intro k hk
    rw [getElem?_streamsOf kvas ids k hk]
    simp)
  rw [length_streamsOf kvas ids h] at this
  rw [List.range_eq_range']
  simpa using this

/-- One turn of the loop and one turn on streams do the same. -/
theorem reduceStep_toStreams (kvas : List (List KeyValue)) (s : ReduceState)
    (h : s.ids.length = kvas.length) :
    (reduceStep kvas s).map (toStreams kvas) = streamStep (toStreams kvas s) := by
  unfold reduceStep streamStep
  simp only [toStreams, findNextFrom_streamsOf kvas s.ids h]
  cases findNextIdx kvas s.ids (List.range kvas.length) none with
  | none => rfl
  | some j =>
    simp only [Option.map_some']
    split
    · simp [toStreams, streamsOf_modify]
    · split
      · simp [toStreams, streamsOf_modify]
      · simp [toStreams, streamsOf_modify]

theorem reduceStep_ids_length (kvas : List (List KeyValue)) (s s1 : ReduceState)
    (h : reduceStep kvas s = some s1) : s1.ids.length = s.ids.length := by
  unfold reduceStep at h
  cases hf : findNextIdx kvas s.ids (List.range kvas.length) none with
  | none => rw [hf] at h; cases h
  | some j =>
    rw [hf] at h
    simp only at h
    by_cases hp : s.prevKey = ""
    · simp only [hp, if_true, Option.some.injEq] at h
      rw [← h]; simp
    · by_cases hk : (recordAt kvas s.ids j).Key = s.prevKey
      · simp only [hp, hk, if_true, if_false, Option.some.injEq] at h
        rw [← h]; simp
      · simp only [hp, hk, if_false, Option.some.injEq] at h
        rw [← h]; simp

theorem reduceLoop_toStreams (kvas : List (List KeyValue)) :
    ∀ (fuel : Nat) (s : ReduceState), s.ids.length = kvas.length →
    (reduceLoop kvas fuel s).map (toStreams kvas) = streamLoop fuel (toStreams kvas s) := by
  intro fuel
  induction fuel with
  | zero => intro s _; rfl
  | succ fuel ih =>
    intro s h
    have hstep := reduceStep_toStreams kvas s h
    unfold reduceLoop streamLoop
    cases hs : reduceStep kvas s with
    | none =>
      rw [hs] at hstep
      simp only [Option.map_none'] at hstep
      rw [← hstep]
      rfl
    | some s1 =>
      rw [hs] at hstep
      simp only [Option.map_some'] at hstep
      rw [← hstep]
      exact ih s1 ((reduceStep_ids_length kvas s s1 hs).trans h)

/-- The merge of `doReduce` makes the calls of the merge on streams. -/
theorem doReduceCalls_eq_streamCalls (kvas : List (List KeyValue)) :
    doReduceCalls kvas = streamCalls kvas := by
  unfold doReduceCalls streamCalls
  have h := reduceLoop_toStreams kvas (totalRecords kvas + 1)
    { ids := List.replicate kvas.length 0, values := [], prevKey := "", calls := [] }
    (by simp)
  simp only [toStreams, streamsOf_replicate] at h
  rw [← h, Option.map_map]
  rfl

/-! ## The merge of `doReduce` -/

theorem mem_flatten_of_getElem? (streams : List (List KeyValue)) (j : Nat) (kv : KeyValue)
    (tl : List KeyValue) (h : streams[j]? = some (kv :: tl)) : kv ∈ streams.flatten := by
  rw [List.mem_flatten]
  exact ⟨kv :: tl, List.getElem?_mem h, List.mem_cons_self _ _⟩

theorem mem_flatten_of_modify_tail (streams : List (List KeyValue)) (j : Nat) (kv : KeyValue)
    (tl : List KeyValue) (h : streams[j]? = some (kv :: tl)) :
    ∀ y ∈ (streams.modify List.tail j).flatten, y ∈ streams.flatten := by
  intro y hy
  exact (flatten_modify_tail streams j kv tl h).symm.subset (List.mem_cons_of_mem _ hy)

theorem mergeInv_step (s s1 : StreamState) (hinv : MergeInv s) (h : streamStep s = some s1) :
    MergeInv s1 := by
  obtain ⟨hsorted, hcalls, hbelow, hprev⟩ := hinv
  obtain ⟨j, kv, tl, hj, hmin, rfl⟩ := streamStep_eq_some s s1 h
  have hkv : s.prevKey.data ≤ kv.Key.data := hprev kv (mem_flatten_of_getElem? _ j kv tl hj)
  have hminall := head_min_all s.streams kv hsorted hmin
  have hsub := mem_flatten_of_modify_tail s.streams j kv tl hj
  have hsorted1 := sorted_modify_tail s.streams j hsorted
  unfold absorb
  split
  · rename_i hp
    refine ⟨hsorted1, hcalls, ?_, fun y hy => hminall y (hsub y hy)⟩
    intro c hc
    have := hbelow c hc
    rw [hp] at this
    exact absurd this (not_lt.mpr List.nil_le)
  · split
    · exact ⟨hsorted1, hcalls, hbelow, fun y hy => hprev y (hsub y hy)⟩
    · rename_i hp hk
      have hlt : s.prevKey.data < kv.Key.data := by
        refine lt_of_le_of_ne hkv ?_
        intro heq
        exact hk (String.ext heq).symm
      refine ⟨hsorted1, ?_, ?_, fun y hy => hminall y (hsub y hy)⟩
      · simp only [List.map_append, List.map_cons, List.map_nil]
        refine List.pairwise_append.mpr ⟨hcalls, List.pairwise_singleton _ _, ?_⟩
        intro a ha b hb
        simp only [List.mem_singleton] at hb
        subst hb
        simp only [List.mem_map] at ha
        obtain ⟨c, hc, rfl⟩ := ha
        exact hbelow c hc
      · intro c hc
        simp only [List.mem_append, List.mem_singleton] at hc
        rcases hc with hc | rfl
        · exact lt_trans (hbelow c hc) hlt
        · exact hlt

theorem mergeInv_init (kvas : List (List KeyValue)) (h : ∀ kva ∈ kvas, kva.Sorted keyLE) :
    MergeInv { streams := kvas, values := [], prevKey := "", calls := [] } := by
  refine ⟨h, by simp [List.Sorted], by simp, ?_⟩
  intro y _
  exact List.nil_le

theorem streamFlush_sorted (s : StreamState) (hinv : MergeInv s) :
    ((streamFlush s).map Prod.fst).Sorted (fun a b => a.data < b.data) := by
  obtain ⟨-, hcalls, hbelow, -⟩ := hinv
  unfold streamFlush
  split
  · simp only [List.map_append, List.map_cons, List.map_nil]
    refine List.pairwise_append.mpr ⟨hcalls, List.pairwise_singleton _ _, ?_⟩
    intro a ha b hb
    simp only [List.mem_singleton] at hb
    subst hb
    simp only [List.mem_map] at ha
    obtain ⟨c, hc, rfl⟩ := ha
    exact hbelow c hc
  · exact hcalls

/-- The merge always reaches its end: `doReduceCalls` returns on every input. -/
theorem doReduceCalls_returns (kvas : List (List KeyValue)) :
    ∃ calls, doReduceCalls kvas = some calls := by
  obtain ⟨s1, h1, -, -⟩ := streamLoop_invariant (fun _ => True) (fun _ _ _ _ => trivial)
    (totalRecords kvas + 1) { streams := kvas, values := [], prevKey := "", calls := [] }
    trivial (Nat.lt_succ_self _)
  exact ⟨streamFlush s1, by simp [doReduceCalls_eq_streamCalls, streamCalls, h1]⟩

/-- C2: on input lists that are each sorted by key, `doReduce` returns, and the keys of
the lines it writes (one line per call of `reducef`) are strictly increasing, so the
output is sorted by key and no key is written twice. -/
theorem doReduce_output_keys_strictly_increasing (reducef : String → List String → String)
    (kvas : List (List KeyValue)) (hsorted : ∀ kva ∈ kvas, kva.Sorted keyLE) :
    ∃ calls, doReduceCalls kvas = some calls ∧
      doReduceOutput reducef kvas =
        some (calls.map fun c => c.1 ++ " " ++ reducef c.1 c.2 ++ "\n") ∧
      doReduceKeys kvas = some (calls.map Prod.fst) ∧
      (calls.map Prod.fst).Sorted (fun a b => a.data < b.data) ∧
      (calls.map Prod.fst).Nodup := by
  obtain ⟨s1, h1, hinv, -⟩ := streamLoop_invariant MergeInv mergeInv_step
    (totalRecords kvas + 1) { streams := kvas, values := [], prevKey := "", calls := [] }
    (mergeInv_init kvas hsorted) (Nat.lt_succ_self _)
  have hs := streamFlush_sorted s1 hinv
  refine ⟨streamFlush s1, by simp [doReduceCalls_eq_streamCalls, streamCalls, h1], by simp [doReduceOutput, doReduceCalls_eq_streamCalls, streamCalls, h1],
    by simp [doReduceKeys, doReduceCalls_eq_streamCalls, streamCalls, h1], hs, ?_⟩
  exact hs.imp (fun hab heq => by rw [heq] at hab; exact lt_irrefl _ hab)

theorem sorted_keyLE_pair (a b : KeyValue) (h : a.Key.data ≤ b.Key.data) :
    [a, b].Sorted keyLE := by
  simp [List.Sorted, keyLE, h]

theorem doReduce_output_keys_strictly_increasing_witness :
    (∀ kva ∈ [[(⟨"a", "1"⟩ : KeyValue), ⟨"b", "2"⟩], [⟨"", "0"⟩, ⟨"b", "3"⟩]],
        kva.Sorted keyLE) ∧
    ∃ calls, doReduceCalls [[(⟨"a", "1"⟩ : KeyValue), ⟨"b", "2"⟩], [⟨"", "0"⟩, ⟨"b", "3"⟩]]
        = some calls ∧
      doReduceOutput (fun _ vs => String.join vs)
          [[(⟨"a", "1"⟩ : KeyValue), ⟨"b", "2"⟩], [⟨"", "0"⟩, ⟨"b", "3"⟩]] =
        some (calls.map fun c => c.1 ++ " " ++ (fun _ vs => String.join vs) c.1 c.2 ++ "\n") ∧
      doReduceKeys [[(⟨"a", "1"⟩ : KeyValue), ⟨"b", "2"⟩], [⟨"", "0"⟩, ⟨"b", "3"⟩]]
        = some (calls.map Prod.fst) ∧
      (calls.map Prod.fst).Sorted (fun a b => a.data < b.data) ∧
      (calls.map Prod.fst).Nodup :=
  have h : ∀ kva ∈ [[(⟨"a", "1"⟩ : KeyValue), ⟨"b", "2"⟩], [⟨"", "0"⟩, ⟨"b", "3"⟩]],
      kva.Sorted keyLE := by
    intro kva hk
    simp only [List.mem_cons, List.mem_singleton, List.not_mem_nil, or_false] at hk
    rcases hk with rfl | rfl
    · exact sorted_keyLE_pair _ _ (by decide)
    · exact sorted_keyLE_pair _ _ (by decide)
  ⟨h, doReduce_output_keys_strictly_increasing (fun _ vs => String.join vs) _ h⟩

theorem recordsOfCalls_append (xs ys : List (String × List String)) :
    recordsOfCalls (xs ++ ys) = recordsOfCalls xs ++ recordsOfCalls ys := by
  simp [recordsOfCalls, List.flatMap_append]

theorem recordsOfCalls_single (k : String) (vs : List String) :
    recordsOfCalls [(k, vs)] = vs.map (fun v => (⟨k, v⟩ : KeyValue)) := by
  simp [recordsOfCalls, List.flatMap]

theorem groupInv_step (all : List KeyValue) (s s1 : StreamState) (hinv : GroupInv all s)
    (h : streamStep s = some s1) : GroupInv all s1 := by
  obtain ⟨hm, hne, hempty, hvals, hcalls, hperm⟩ := hinv
  have hm1 := mergeInv_step s s1 hm h
  obtain ⟨j, kv, tl, hj, -, rfl⟩ := streamStep_eq_some s s1 h
  have hsub := mem_flatten_of_modify_tail s.streams j kv tl hj
  have hkvne : kv.Key ≠ "" := hne kv (mem_flatten_of_getElem? _ j kv tl hj)
  have hfl := flatten_modify_tail s.streams j kv tl hj
  refine ⟨hm1, ?_, ?_⟩
  · rw [absorb_streams]
    exact fun y hy => hne y (hsub y hy)
  · clear hm1
    unfold absorb
    split
    · rename_i hp
      refine ⟨fun hk => absurd hk hkvne, fun _ => by simp, hcalls, ?_⟩
      have hv := hempty hp
      simp only [hv, List.nil_append, List.map_cons, List.map_nil, List.append_nil] at hperm ⊢
      refine List.Perm.trans ?_ hperm
      refine List.Perm.trans ?_ (List.Perm.append_left _ hfl.symm)
      simp only [List.append_assoc, List.singleton_append]
      exact List.Perm.refl _
    · split
      · rename_i hp hk
        refine ⟨fun hq => absurd hq hp, fun _ => by simp, hcalls, ?_⟩
        refine List.Perm.trans ?_ hperm
        refine List.Perm.trans ?_ (List.Perm.append_left _ hfl.symm)
        have hkv : (⟨s.prevKey, kv.Value⟩ : KeyValue) = kv := by
          cases kv; simp only [KeyValue.mk.injEq, and_true]; exact hk.symm
        simp only [List.map_append, List.map_cons, List.map_nil, List.append_assoc,
          List.singleton_append, hkv]
        exact List.Perm.refl _
      · rename_i hp hk
        refine ⟨fun hq => absurd hq hkvne, fun _ => by simp, ?_, ?_⟩
        · intro c hc
          simp only [List.mem_append, List.mem_singleton] at hc
          rcases hc with hc | rfl
          · exact hcalls c hc
          · exact hvals hp
        · refine List.Perm.trans ?_ hperm
          refine List.Perm.trans ?_ (List.Perm.append_left _ hfl.symm)
          simp only [recordsOfCalls_append, recordsOfCalls_single, List.map_cons, List.map_nil,
            List.append_assoc, List.singleton_append]
          exact List.Perm.refl _

theorem filter_recordsOfCalls_of_not_mem (k : String) :
    ∀ calls : List (String × List String), k ∉ calls.map Prod.fst →
      (recordsOfCalls calls).filter (fun kv => decide (kv.Key = k)) = [] := by
  intro calls
  induction calls with
  | nil => intro _; rfl
  | cons d rest ih =>
    intro hk
    simp only [List.map_cons, List.mem_cons, not_or] at hk
    have h1 : recordsOfCalls (d :: rest) = (d.2.map fun v => ⟨d.1, v⟩) ++ recordsOfCalls rest := by
      simp [recordsOfCalls, List.flatMap_cons]
    rw [h1, List.filter_append, ih hk.2, List.append_nil, List.filter_eq_nil_iff]
    intro a ha
    simp only [List.mem_map] at ha
    obtain ⟨v, -, rfl⟩ := ha
    simpa using fun h => hk.1 h.symm

theorem filter_recordsOfCalls_of_mem :
    ∀ calls : List (String × List String), (calls.map Prod.fst).Nodup → ∀ c ∈ calls,
      ((recordsOfCalls calls).filter (fun kv => decide (kv.Key = c.1))).map KeyValue.Value
        = c.2 := by
  intro calls
  induction calls with
  | nil => intro _ c hc; simp at hc
  | cons d rest ih =>
    intro hnd c hc
    simp only [List.map_cons, List.nodup_cons] at hnd
    have h1 : recordsOfCalls (d :: rest) = (d.2.map fun v => ⟨d.1, v⟩) ++ recordsOfCalls rest := by
      simp [recordsOfCalls, List.flatMap_cons]
    rw [h1, List.filter_append, List.map_append]
    simp only [List.mem_cons] at hc
    rcases hc with rfl | hc
    · rw [filter_recordsOfCalls_of_not_mem c.1 rest hnd.1]
      have : (List.map (fun v => (⟨c.1, v⟩ : KeyValue)) c.2).filter
          (fun kv => decide (kv.Key = c.1)) = List.map (fun v => (⟨c.1, v⟩ : KeyValue)) c.2 := by
        rw [List.filter_eq_self]
        intro a ha
        simp only [List.mem_map] at ha
        obtain ⟨v, -, rfl⟩ := ha
        simp
      rw [this]
      simp [Function.comp_def]
    · have hne : d.1 ≠ c.1 := by
        intro heq
        exact hnd.1 (heq ▸ List.mem_map_of_mem Prod.fst hc)
      have : (List.map (fun v => (⟨d.1, v⟩ : KeyValue)) d.2).filter
          (fun kv => decide (kv.Key = c.1)) = [] := by
        rw [List.filter_eq_nil_iff]
        intro a ha
        simp only [List.mem_map] at ha
        obtain ⟨v, -, rfl⟩ := ha
        simpa using hne
      rw [this]
      simpa using ih hnd.2 c hc

/-- On sorted input lists without an empty key, the merge calls `reducef` once per
distinct key of the inputs, in increasing key order, and the values of a call are a
rearrangement of all values recorded for its key. -/
theorem doReduceCalls_groups_of_nonempty_keys (kvas : List (List KeyValue))
    (hsorted : ∀ kva ∈ kvas, kva.Sorted keyLE)
    (hne : ∀ kva ∈ kvas, ∀ kv ∈ kva, kv.Key ≠ "") :
    ∃ calls, doReduceCalls kvas = some calls ∧
      (calls.map Prod.fst).Sorted (fun a b => a.data < b.data) ∧
      (calls.map Prod.fst).Nodup ∧
      (∀ k, k ∈ calls.map Prod.fst ↔ ∃ kv ∈ kvas.flatten, kv.Key = k) ∧
      ∀ c ∈ calls, c.2.Perm
        ((kvas.flatten.filter (fun kv => decide (kv.Key = c.1))).map KeyValue.Value) := by
  have hinit : GroupInv kvas.flatten
      { streams := kvas, values := [], prevKey := "", calls := [] } := by
    refine ⟨mergeInv_init kvas hsorted, ?_, fun _ => rfl, fun h => absurd rfl h, by simp, ?_⟩
    · intro y hy
      rw [List.mem_flatten] at hy
      obtain ⟨l, hl, hyl⟩ := hy
      exact hne l hl y hyl
    · simp [recordsOfCalls]
  obtain ⟨s1, h1, hinv, hdone⟩ := streamLoop_invariant (GroupInv kvas.flatten)
    (groupInv_step kvas.flatten) (totalRecords kvas + 1)
    { streams := kvas, values := [], prevKey := "", calls := [] } hinit (Nat.lt_succ_self _)
  obtain ⟨hm, -, hempty, hvals, hcalls, hperm⟩ := hinv
  have hs := streamFlush_sorted s1 hm
  have hnd : ((streamFlush s1).map Prod.fst).Nodup :=
    hs.imp (fun hab heq => by rw [heq] at hab; exact lt_irrefl _ hab)
  have hflat : s1.streams.flatten = [] := by
    rw [List.flatten_eq_nil_iff]; exact hdone
  have hrec : (recordsOfCalls (streamFlush s1)).Perm kvas.flatten := by
    rw [hflat, List.append_nil] at hperm
    unfold streamFlush
    split
    · rw [recordsOfCalls_append, recordsOfCalls_single]; exact hperm
    · rename_i hp
      have hp1 : s1.prevKey = "" := by simpa using hp
      rw [hempty hp1] at hperm
      simpa using hperm
  have hgroups : ∀ c ∈ streamFlush s1, c.2 ≠ [] := by
    unfold streamFlush
    split
    · rename_i hp
      intro c hc
      simp only [List.mem_append, List.mem_singleton] at hc
      rcases hc with hc | rfl
      · exact hcalls c hc
      · exact hvals hp
    · exact hcalls
  refine ⟨streamFlush s1, by simp [doReduceCalls_eq_streamCalls, streamCalls, h1], hs, hnd, ?_, ?_⟩
  · intro k
    constructor
    · intro hk
      simp only [List.mem_map] at hk
      obtain ⟨c, hc, rfl⟩ := hk
      obtain ⟨v, hv⟩ := List.exists_mem_of_ne_nil _ (hgroups c hc)
      refine ⟨⟨c.1, v⟩, hrec.subset ?_, rfl⟩
      simp only [recordsOfCalls, List.mem_flatMap, List.mem_map]
      exact ⟨c, hc, v, hv, rfl⟩
    · rintro ⟨kv, hkv, rfl⟩
      have := hrec.symm.subset hkv
      simp only [recordsOfCalls, List.mem_flatMap, List.mem_map] at this
      obtain ⟨c, hc, v, -, rfl⟩ := this
      exact List.mem_map_of_mem Prod.fst hc
  · intro c hc
    have := filter_recordsOfCalls_of_mem (streamFlush s1) hnd c hc
    rw [← this]
    exact (hrec.filter _).map _

/-- C1 fails on the code for the empty key: the input list holding `("", x)` and then
`(a, y)` is sorted by key and is what `doReduce` reads back from the partition file
`doMap` writes for these records, yet the merge makes a single call of `reducef`, for
the key `a` with the values `x` and `y`, and none for the empty key; and on a list
whose only key is the empty key it makes no call at all. -/
theorem doReduce_empty_key_joins_next_group :
    ([⟨"", "x"⟩, ⟨"a", "y"⟩] : List KeyValue).Sorted keyLE ∧
    readPartition (fileContents [⟨"", "x"⟩, ⟨"a", "y"⟩]) = some [⟨"", "x"⟩, ⟨"a", "y"⟩] ∧
    doReduceCalls [[⟨"", "x"⟩, ⟨"a", "y"⟩]] = some [("a", ["x", "y"])] ∧
    doReduceCalls [[⟨"", "x"⟩]] = some [] :=
  ⟨sorted_keyLE_pair _ _ (by decide), by decide, by decide, by decide⟩

/-! ## The partition of `doMap` -/

/-- The order `keyLE` is the one `sort.Sort` establishes: the second record is not
`Less` than the first. -/
theorem keyLE_iff_not_less (a b : KeyValue) : keyLE a b ↔ ¬ ByKey.Less b a := by
  unfold keyLE ByKey.Less
  exact not_lt.symm

theorem length_writeBuckets (n : Nat) : ∀ (kva : List KeyValue) (tmps : List (List KeyValue)),
    (writeBuckets n kva tmps).length = tmps.length := by
  intro kva
  induction kva with
  | nil => intro tmps; rfl
  | cons kv rest ih => intro tmps; simp [writeBuckets, ih, appendTo]

theorem getElem?_writeBuckets (n i : Nat) :
    ∀ (kva : List KeyValue) (tmps : List (List KeyValue)),
    (writeBuckets n kva tmps)[i]? =
      (tmps[i]?).map fun f => f ++ kva.filter (fun kv => decide (ihash kv.Key % n = i)) := by
  intro kva
  induction kva with
  | nil => intro tmps; cases h : tmps[i]? <;> simp [writeBuckets, h]
  | cons kv rest ih =>
    intro tmps
    simp only [writeBuckets, ih, appendTo, List.getElem?_modify]
    cases h : tmps[i]? with
    | none => simp
    | some f =>
      by_cases hi : ihash kv.Key % n = i
      · simp [hi, List.filter_cons]
      · simp [hi, List.filter_cons]

theorem flatten_appendTo : ∀ (tmps : List (List KeyValue)) (h : Nat) (kv : KeyValue),
    h < tmps.length → (appendTo tmps h kv).flatten.Perm (tmps.flatten ++ [kv]) := by
  intro tmps
  induction tmps with
  | nil => intro h kv hlt; simp at hlt
  | cons f rest ih =>
    intro h kv hlt
    cases h with
    | zero =>
      simp only [appendTo, List.modify_zero_cons, List.flatten_cons, List.append_assoc]
      exact List.Perm.append_left f List.perm_append_comm
    | succ h =>
      have := ih h kv (by simpa using hlt)
      simp only [appendTo, List.modify_succ_cons, List.flatten_cons, List.append_assoc] at this ⊢
      exact List.Perm.append_left f this

theorem flatten_writeBuckets (n : Nat) (hn : 0 < n) :
    ∀ (kva : List KeyValue) (tmps : List (List KeyValue)), tmps.length = n →
    (writeBuckets n kva tmps).flatten.Perm (tmps.flatten ++ kva) := by
  intro kva
  induction kva with
  | nil => intro tmps _; simp [writeBuckets]
  | cons kv rest ih =>
    intro tmps hlen
    have hlt : ihash kv.Key % n < tmps.length := by rw [hlen]; exact Nat.mod_lt _ hn
    have h1 := ih (appendTo tmps (ihash kv.Key % n) kv) (by simp [appendTo, hlen])
    have h2 := flatten_appendTo tmps _ kv hlt
    simp only [writeBuckets]
    refine h1.trans ?_
    refine (List.Perm.append_right rest h2).trans ?_
    simp

theorem flatten_replicate_nil (n : Nat) :
    (List.replicate n ([] : List KeyValue)).flatten = [] := by
  rw [List.flatten_eq_nil_iff]
  intro l hl
  exact (List.mem_replicate.mp hl).2

/-- With a positive shard count `doMap` does not panic, and its bucket `i` holds the
sorted records whose key hashes to `i`, in sorted order. -/
theorem doMapBuckets_eq (mapf : String → String → List KeyValue)
    (sortf : List KeyValue → List KeyValue) (fileName content : String) (n : Nat)
    (hn : 0 < n) :
    ∃ buckets, doMapBuckets mapf sortf fileName content n = some buckets ∧
      buckets.length = n ∧
      (∀ i, i < n → buckets[i]? = some ((sortf (mapf fileName content)).filter
          (fun kv => decide (ihash kv.Key % n = i)))) ∧
      buckets.flatten.Perm (sortf (mapf fileName content)) := by
  refine ⟨writeBuckets n (sortf (mapf fileName content)) (List.replicate n []), ?_, ?_, ?_, ?_⟩
  · simp [doMapBuckets, Nat.pos_iff_ne_zero.mp hn]
  · simp [length_writeBuckets]
  · intro i hi
    rw [getElem?_writeBuckets]
    simp [List.getElem?_replicate, hi]
  · have := flatten_writeBuckets n hn (sortf (mapf fileName content)) (List.replicate n [])
      (by simp)
    rw [flatten_replicate_nil] at this
    simpa using this

/-- C3: for every map output and every `NReduce > 0`, `doMap` fills `NReduce` buckets;
bucket `i` holds exactly the records of the map output whose key has
`ihash(key) % NReduce = i` (as a rearrangement of them), in non-decreasing key order;
the buckets together are a rearrangement of the map output, and a record found in
bucket `i` hashes to `i`, so no record is in two buckets. -/
theorem doMap_partition (mapf : String → String → List KeyValue)
    (sortf : List KeyValue → List KeyValue) (hsort : SortContract sortf)
    (fileName content : String) (nReduce : Nat) (hn : 0 < nReduce) :
    ∃ buckets, doMapBuckets mapf sortf fileName content nReduce = some buckets ∧
      buckets.length = nReduce ∧
      (∀ i, i < nReduce → ∃ b, buckets[i]? = some b ∧
        b.Perm ((mapf fileName content).filter
          (fun kv => decide (ihash kv.Key % nReduce = i))) ∧
        b.Sorted keyLE ∧ ∀ kv ∈ b, ihash kv.Key % nReduce = i) ∧
      buckets.flatten.Perm (mapf fileName content) := by
  obtain ⟨buckets, h1, h2, h3, h4⟩ := doMapBuckets_eq mapf sortf fileName content nReduce hn
  obtain ⟨hperm, hsorted⟩ := hsort (mapf fileName content)
  refine ⟨buckets, h1, h2, ?_, h4.trans hperm⟩
  intro i hi
  refine ⟨_, h3 i hi, hperm.filter _, hsorted.filter _, ?_⟩
  intro kv hkv
  simpa using (List.mem_filter.mp hkv).2

theorem sortContract_insertionSort : SortContract (List.insertionSort keyLE) :=
  fun l => ⟨List.perm_insertionSort keyLE l, List.sorted_insertionSort keyLE l⟩

theorem doMap_partition_witness :
    SortContract (List.insertionSort keyLE) ∧ 0 < 2 ∧
    ∃ buckets, doMapBuckets (fun _ _ => [⟨"b", "1"⟩, ⟨"a", "1"⟩])
        (List.insertionSort keyLE) "pg-x.txt" "b a" 2 = some buckets ∧
      buckets.length = 2 ∧
      (∀ i, i < 2 → ∃ b, buckets[i]? = some b ∧
        b.Perm (((fun _ _ => [⟨"b", "1"⟩, ⟨"a", "1"⟩] : String → String → List KeyValue)
          "pg-x.txt" "b a").filter (fun kv => decide (ihash kv.Key % 2 = i))) ∧
        b.Sorted keyLE ∧ ∀ kv ∈ b, ihash kv.Key % 2 = i) ∧
      buckets.flatten.Perm ((fun _ _ => [⟨"b", "1"⟩, ⟨"a", "1"⟩] :
        String → String → List KeyValue) "pg-x.txt" "b a") :=
  ⟨sortContract_insertionSort, by decide,
    doMap_partition (fun _ _ => [⟨"b", "1"⟩, ⟨"a", "1"⟩]) (List.insertionSort keyLE)
      sortContract_insertionSort "pg-x.txt" "b a" 2 (by decide)⟩

/-! ## The hash -/

theorem fnv32a_lt (bytes : List Nat) : fnv32a bytes < 2 ^ 32 := by
  unfold fnv32a
  have : ∀ (bs : List Nat) (h : Nat), h < 2 ^ 32 →
      bs.foldl (fun h b => ((h ^^^ b) * 16777619) % 2 ^ 32) h < 2 ^ 32 := by
    intro bs
    induction bs with
    | nil => intro h hh; exact hh
    | cons b rest ih =>
      intro h _
      exact ih _ (Nat.mod_lt _ (by norm_num))
  exact this bytes _ (by norm_num)

theorem ihash_eq_mod (key : String) : ihash key = fnv32a (bytesOf key) % 2 ^ 31 := by
  unfold ihash
  exact Nat.and_pow_two_sub_one_eq_mod _ 31

/-- The hash agrees with the published test vectors of 32-bit FNV-1a. -/
theorem fnv32a_test_vectors :
    fnv32a (bytesOf "") = 0x811c9dc5 ∧ fnv32a (bytesOf "a") = 0xe40c292c ∧
    fnv32a (bytesOf "foobar") = 0xbf9cf968 := by
  decide

theorem mem_bucket_hash (mapf : String → String → List KeyValue)
    (sortf : List KeyValue → List KeyValue) (fileName content : String) (n : Nat)
    (hn : 0 < n) (buckets : List (List KeyValue))
    (h : doMapBuckets mapf sortf fileName content n = some buckets)
    (i : Nat) (b : List KeyValue) (hb : buckets[i]? = some b) (kv : KeyValue) (hkv : kv ∈ b) :
    i = ihash kv.Key % n := by
  obtain ⟨buckets1, h1, h2, h3, -⟩ := doMapBuckets_eq mapf sortf fileName content n hn
  rw [h] at h1
  cases h1
  have hi : i < n := by
    rw [← h2]
    by_contra hcon
    rw [List.getElem?_eq_none (Nat.le_of_not_lt hcon)] at hb
    cases hb
  rw [h3 i hi] at hb
  cases hb
  have := (List.mem_filter.mp hkv).2
  simp only [decide_eq_true_eq] at this
  exact this.symm

/-- C4: `ihash(key)` is the 32-bit FNV-1a hash of the key's bytes with the top bit
cleared, so it lies in `[0, 2^31)`; for `R > 0` the bucket index `ihash(key) % R` lies in
`[0, R)` and is a valid index into a file table of `R` entries; and the index depends
only on the key and `R`: in any two runs of `doMap` with the same `R`, whatever the
map function, the input and the sort, records with equal keys are found in buckets
of the same index, namely `ihash(key) % R`. -/
theorem ihash_bucket_index (key : String) (R : Nat) (hR : 0 < R) :
    fnv32a (bytesOf key) < 2 ^ 32 ∧
    ihash key = (if fnv32a (bytesOf key) < 2 ^ 31 then fnv32a (bytesOf key)
      else fnv32a (bytesOf key) - 2 ^ 31) ∧
    ihash key < 2 ^ 31 ∧
    ihash key % R < R ∧
    (∀ tmps : List (List KeyValue), tmps.length = R → ∃ f, tmps[ihash key % R]? = some f) ∧
    (∀ (mapf1 mapf2 : String → String → List KeyValue)
        (sortf1 sortf2 : List KeyValue → List KeyValue) (file1 content1 file2 content2 : String)
        (buckets1 buckets2 : List (List KeyValue)),
      doMapBuckets mapf1 sortf1 file1 content1 R = some buckets1 →
      doMapBuckets mapf2 sortf2 file2 content2 R = some buckets2 →
      ∀ (i j : Nat) (b1 b2 : List KeyValue) (kv1 kv2 : KeyValue),
        buckets1[i]? = some b1 → buckets2[j]? = some b2 → kv1 ∈ b1 → kv2 ∈ b2 →
        kv1.Key = key → kv2.Key = key → i = ihash key % R ∧ j = ihash key % R) := by
  have hlt := fnv32a_lt (bytesOf key)
  have hmod := ihash_eq_mod key
  refine ⟨hlt, ?_, ?_, Nat.mod_lt _ hR, ?_, ?_⟩
  · rw [hmod]
    split
    · rename_i h; exact Nat.mod_eq_of_lt h
    · rename_i h; omega
  · rw [hmod]; exact Nat.mod_lt _ (by norm_num)
  · intro tmps hlen
    have : ihash key % R < tmps.length := by rw [hlen]; exact Nat.mod_lt _ hR
    exact ⟨tmps[ihash key % R], List.getElem?_eq_getElem this⟩
  · intro mapf1 mapf2 sortf1 sortf2 file1 content1 file2 content2 buckets1 buckets2 h1 h2
      i j b1 b2 kv1 kv2 hb1 hb2 hkv1 hkv2 hk1 hk2
    have e1 := mem_bucket_hash mapf1 sortf1 file1 content1 R hR buckets1 h1 i b1 hb1 kv1 hkv1
    have e2 := mem_bucket_hash mapf2 sortf2 file2 content2 R hR buckets2 h2 j b2 hb2 kv2 hkv2
    rw [hk1] at e1
    rw [hk2] at e2
    exact ⟨e1, e2⟩

theorem ihash_bucket_index_witness :
    0 < 2 ∧
    fnv32a (bytesOf "b") < 2 ^ 32 ∧
    ihash "b" = (if fnv32a (bytesOf "b") < 2 ^ 31 then fnv32a (bytesOf "b")
      else fnv32a (bytesOf "b") - 2 ^ 31) ∧
    ihash "b" < 2 ^ 31 ∧
    ihash "b" % 2 < 2 ∧
    (∀ tmps : List (List KeyValue), tmps.length = 2 → ∃ f, tmps[ihash "b" % 2]? = some f) ∧
    (∀ (mapf1 mapf2 : String → String → List KeyValue)
        (sortf1 sortf2 : List KeyValue → List KeyValue) (file1 content1 file2 content2 : String)
        (buckets1 buckets2 : List (List KeyValue)),
      doMapBuckets mapf1 sortf1 file1 content1 2 = some buckets1 →
      doMapBuckets mapf2 sortf2 file2 content2 2 = some buckets2 →
      ∀ (i j : Nat) (b1 b2 : List KeyValue) (kv1 kv2 : KeyValue),
        buckets1[i]? = some b1 → buckets2[j]? = some b2 → kv1 ∈ b1 → kv2 ∈ b2 →
        kv1.Key = "b" → kv2.Key = "b" → i = ihash "b" % 2 ∧ j = ihash "b" % 2) :=
  ⟨by decide, ihash_bucket_index "b" 2 (by decide)⟩

/-! ## The end-to-end scenario -/

theorem eq_of_map_key_eq (v : String) : ∀ l1 l2 : List KeyValue,
    l1.map KeyValue.Key = l2.map KeyValue.Key → (∀ kv ∈ l1, kv.Value = v) →
    (∀ kv ∈ l2, kv.Value = v) → l1 = l2 := by
  intro l1
  induction l1 with
  | nil => intro l2 h _ _; cases l2 with
    | nil => rfl
    | cons b l2 => simp at h
  | cons a l1 ih =>
    intro l2 h h1 h2
    cases l2 with
    | nil => simp at h
    | cons b l2 =>
      simp only [List.map_cons, List.cons.injEq] at h
      have hab : a = b := by
        cases a; cases b
        simp only [KeyValue.mk.injEq]
        refine ⟨h.1, ?_⟩
        have e1 := h1 _ (List.mem_cons_self _ _)
        have e2 := h2 _ (List.mem_cons_self _ _)
        simp only at e1 e2
        rw [e1, e2]
      rw [hab, ih l2 h.2 (fun kv hk => h1 kv (List.mem_cons_of_mem _ hk))
        (fun kv hk => h2 kv (List.mem_cons_of_mem _ hk))]

/-- When all records carry the same value, the result of sorting by key is fixed by
the contract of the sort. -/
theorem sortf_eq_of_constant_value (sortf : List KeyValue → List KeyValue)
    (hsort : SortContract sortf) (l : List KeyValue) (v : String)
    (hv : ∀ kv ∈ l, kv.Value = v) : sortf l = List.insertionSort keyLE l := by
  obtain ⟨hp, hs⟩ := hsort l
  have hp2 := List.perm_insertionSort keyLE l
  have hs2 := List.sorted_insertionSort keyLE l
  apply eq_of_map_key_eq v
  · apply List.eq_of_perm_of_sorted (r := fun a b : String => a.data ≤ b.data)
    · exact (hp.trans hp2.symm).map _
    · exact List.pairwise_map.mpr hs
    · exact List.pairwise_map.mpr hs2
  · exact fun kv hk => hv kv (hp.subset hk)
  · exact fun kv hk => hv kv (hp2.subset hk)

theorem wcMap_value (fileName content : String) :
    ∀ kv ∈ wcMap fileName content, kv.Value = "1" := by
  intro kv hk
  simp only [wcMap, List.mem_map] at hk
  obtain ⟨w, -, rfl⟩ := hk
  rfl

theorem mapPhase_wcMap (sortf : List KeyValue → List KeyValue) (hsort : SortContract sortf)
    (shards : List (String × String)) (n : Nat) :
    mapPhase wcMap sortf shards n = mapPhase wcMap (List.insertionSort keyLE) shards n := by
  have : (fun sh : String × String => doMapBuckets wcMap sortf sh.1 sh.2 n) =
      fun sh => doMapBuckets wcMap (List.insertionSort keyLE) sh.1 sh.2 n := by
    funext sh
    simp only [doMapBuckets]
    rw [sortf_eq_of_constant_value sortf hsort _ "1" (wcMap_value sh.1 sh.2)]
  unfold mapPhase
  rw [this]

/-- C5: for the input shards `a b a` and `b c`, the word-count map and reduce functions,
`NReduce = 2` and any sort that meets the contract of `sort.Sort`: the map phase followed
by the reduce phase yields the output `a 2`, `c 1` for shard 0 and `b 2` for shard 1, that
is exactly the records `a 2`, `b 2`, `c 1`, each once and each in the shard
`ihash(word) % 2`. -/
theorem wordcount_end_to_end (sortf : List KeyValue → List KeyValue)
    (hsort : SortContract sortf) :
    runJob wcMap wcReduce sortf [("pg-1.txt", "a b a"), ("pg-2.txt", "b c")] 2 =
      some [["a 2\n", "c 1\n"], ["b 2\n"]] ∧
    ihash "a" % 2 = 0 ∧ ihash "c" % 2 = 0 ∧ ihash "b" % 2 = 1 := by
  unfold runJob
  rw [mapPhase_wcMap sortf hsort]
  decide

theorem wordcount_end_to_end_witness :
    SortContract (List.insertionSort keyLE) ∧
    runJob wcMap wcReduce (List.insertionSort keyLE)
        [("pg-1.txt", "a b a"), ("pg-2.txt", "b c")] 2 =
      some [["a 2\n", "c 1\n"], ["b 2\n"]] ∧
    ihash "a" % 2 = 0 ∧ ihash "c" % 2 = 0 ∧ ihash "b" % 2 = 1 :=
  ⟨sortContract_insertionSort,
    wordcount_end_to_end (List.insertionSort keyLE) sortContract_insertionSort⟩

/-! ## The record line format -/

theorem scanLines_line : ∀ (line cur rest : List Char), '\n' ∉ line →
    scanLines cur (line ++ '\n' :: rest) =
      if fitsScanner (cur ++ line) then dropCR (cur ++ line) :: scanLines [] rest else [] := by
  intro line
  induction line with
  | nil => intro cur rest _; simp [scanLines]
  | cons c line ih =>
    intro cur rest h
    simp only [List.mem_cons, not_or] at h
    have hc : c ≠ '\n' := fun e => h.1 e.symm
    rw [List.cons_append, scanLines]
    simp only [hc, if_false]
    rw [ih (cur ++ [c]) rest h.2]
    simp

theorem splitOn_no_sep (sep : Char) : ∀ (piece cur : List Char), sep ∉ piece →
    splitOn sep cur piece = [cur ++ piece] := by
  intro piece
  induction piece with
  | nil => intro cur _; simp [splitOn]
  | cons c piece ih =>
    intro cur h
    simp only [List.mem_cons, not_or] at h
    have hc : c ≠ sep := fun e => h.1 e.symm
    simp only [splitOn, hc, if_false]
    rw [ih (cur ++ [c]) h.2]
    simp

theorem splitOn_piece (sep : Char) : ∀ (piece cur rest : List Char), sep ∉ piece →
    splitOn sep cur (piece ++ sep :: rest) = (cur ++ piece) :: splitOn sep [] rest := by
  intro piece
  induction piece with
  | nil => intro cur rest _; simp [splitOn]
  | cons c piece ih =>
    intro cur rest h
    simp only [List.mem_cons, not_or] at h
    have hc : c ≠ sep := fun e => h.1 e.symm
    rw [List.cons_append, splitOn]
    simp only [hc, if_false]
    rw [ih (cur ++ [c]) rest h.2]
    simp

theorem dropCR_of_getLast? (line : List Char) (h : line.getLast? ≠ some '\r') :
    dropCR line = line := by
  simp [dropCR, h]

theorem formatRecord_data (kv : KeyValue) :
    (formatRecord kv).data = (kv.Key.data ++ ' ' :: kv.Value.data) ++ '\n' :: [] := by
  simp [formatRecord, String.data_append]

/-- C6, as amended: for every record whose key contains no space and no newline and
whose value contains no space and no newline and does not end in a carriage return,
and whose line is shorter than the scanner's token limit, the line `doMap` writes for it
is read back by `doReduce` as exactly one record, with the same key and the same value. -/
theorem record_line_round_trip (kv : KeyValue)
    (hk1 : ' ' ∉ kv.Key.data) (hk2 : '\n' ∉ kv.Key.data)
    (hv1 : ' ' ∉ kv.Value.data) (hv2 : '\n' ∉ kv.Value.data)
    (hv3 : kv.Value.data.getLast? ≠ some '\r')
    (hlen : (kv.Key ++ " " ++ kv.Value).utf8ByteSize < maxScanTokenSize) :
    readPartition (formatRecord kv) = some [kv] := by
  have hline : '\n' ∉ kv.Key.data ++ ' ' :: kv.Value.data := by
    simp only [List.mem_append, List.mem_cons, not_or]
    exact ⟨hk2, by decide, hv2⟩
  have hfit : fitsScanner (kv.Key.data ++ ' ' :: kv.Value.data) = true := by
    simp only [fitsScanner, decide_eq_true_eq]
    have : String.mk (kv.Key.data ++ ' ' :: kv.Value.data) = kv.Key ++ " " ++ kv.Value := by
      apply String.ext
      simp [String.data_append]
    rw [this]
    exact hlen
  have hlast : (kv.Key.data ++ ' ' :: kv.Value.data).getLast? ≠ some '\r' := by
    cases hval : kv.Value.data with
    | nil => simp [List.getLast?_append]
    | cons c tl =>
      rw [hval] at hv3
      have : kv.Key.data ++ ' ' :: c :: tl = (kv.Key.data ++ [' ']) ++ (c :: tl) := by simp
      rw [this, List.getLast?_append]
      cases hl : (c :: tl).getLast? with
      | none => simp at hl
      | some d =>
        rw [hl] at hv3
        simpa using hv3
  unfold readPartition
  rw [formatRecord_data, scanLines_line _ [] [] hline]
  simp only [List.nil_append, hfit, if_true, scanLines, dropCR_of_getLast? _ hlast]
  have hsplit : splitOn ' ' [] (kv.Key.data ++ ' ' :: kv.Value.data) =
      [kv.Key.data, kv.Value.data] := by
    rw [splitOn_piece ' ' kv.Key.data [] kv.Value.data hk1, splitOn_no_sep ' ' _ [] hv1]
    simp
  rw [List.mapM_cons, List.mapM_nil]
  simp [parseLine, hsplit]

theorem record_line_round_trip_witness :
    readPartition (formatRecord ⟨"a\r", "1"⟩) = some [⟨"a\r", "1"⟩] :=
  record_line_round_trip ⟨"a\r", "1"⟩ (by decide) (by decide) (by decide) (by decide)
    (by decide) (by decide)

/-- C6, as stated, fails: the key `k` contains no space and no newline, yet the record
`(k, "a b")` is read back with the value `a`, the record `(k, "a\nb")` makes `doReduce`
panic on the second line, and the record `(k, "a\r")` is read back with the value `a`. -/
theorem record_line_round_trip_fails_for_value :
    ' ' ∉ ("k" : String).data ∧ '\n' ∉ ("k" : String).data ∧
    readPartition (formatRecord ⟨"k", "a b"⟩) = some [⟨"k", "a"⟩] ∧
    readPartition (formatRecord ⟨"k", "a b"⟩) ≠ some [⟨"k", "a b"⟩] ∧
    readPartition (formatRecord ⟨"k", "a\nb"⟩) = none ∧
    readPartition (formatRecord ⟨"k", "a\r"⟩) = some [⟨"k", "a"⟩] := by
  decide

theorem utf8ByteSize_replicate_a (n : Nat) (tl : List Char) :
    String.utf8ByteSize.go (List.replicate n 'a' ++ tl) = String.utf8ByteSize.go tl + n := by
  induction n with
  | zero => simp
  | succ n ih =>
    have h1 : Char.utf8Size 'a' = 1 := by decide
    rw [List.replicate_succ, List.cons_append, String.utf8ByteSize.go, ih, h1]
    omega

/-- A record whose line reaches the scanner's token limit is not read back at all: the
scan loop of `doReduce` ends, and the error is not looked at. -/
theorem record_line_too_long_is_dropped (n : Nat) (hn : 65534 ≤ n) :
    readPartition (formatRecord ⟨"k", String.mk (List.replicate n 'a')⟩) = some [] := by
  have hline : '\n' ∉ ("k" : String).data ++ ' ' :: List.replicate n 'a' := by
    simp only [List.mem_append, List.mem_cons, List.mem_replicate, not_or]
    refine ⟨by decide, by decide, ?_⟩
    intro h
    exact absurd h.2 (by decide)
  have hfit : fitsScanner (("k" : String).data ++ ' ' :: List.replicate n 'a') = false := by
    have h0 := utf8ByteSize_replicate_a n []
    have h1 : Char.utf8Size 'k' = 1 := by decide
    have h2 : Char.utf8Size ' ' = 1 := by decide
    have h3 : String.utf8ByteSize.go ('k' :: ' ' :: List.replicate n 'a') = n + 2 := by
      rw [String.utf8ByteSize.go, String.utf8ByteSize.go, h1, h2]
      rw [List.append_nil] at h0
      rw [h0, String.utf8ByteSize.go]
      omega
    have h4 : ¬ n + 2 < maxScanTokenSize := by unfold maxScanTokenSize; omega
    unfold fitsScanner
    rw [decide_eq_false_iff_not]
    show ¬ String.utf8ByteSize.go ('k' :: ' ' :: List.replicate n 'a') < maxScanTokenSize
    rw [h3]
    exact h4
  unfold readPartition
  rw [formatRecord_data, scanLines_line _ [] [] hline]
  simp only [List.nil_append]
  rw [hfit]
  rfl

/-! ## The library routine `sort.Sort` -/

theorem listInsertionSort_filter_key (l : List KeyValue) (k : String) :
    (List.insertionSort keyLE l).filter (fun kv => decide (kv.Key = k)) =
      l.filter (fun kv => decide (kv.Key = k)) := by
  have hins : ∀ (a : KeyValue) (s : List KeyValue),
      (List.orderedInsert keyLE a s).filter (fun kv => decide (kv.Key = k)) =
        (a :: s).filter (fun kv => decide (kv.Key = k)) := by
    intro a s
    induction s with
    | nil => rfl
    | cons b s ih =>
      rw [List.orderedInsert]
      by_cases hab : keyLE a b
      · rw [if_pos hab]
      · rw [if_neg hab, List.filter_cons, ih]
        have hne : a.Key ≠ b.Key := fun h => hab (by unfold keyLE; rw [h])
        by_cases ha : a.Key = k
        · have hb : ¬ b.Key = k := fun h => hne (ha.trans h.symm)
          simp [List.filter_cons, ha, hb]
        · simp [List.filter_cons, ha]
  induction l with
  | nil => rfl
  | cons a l ih =>
    rw [List.insertionSort, hins, List.filter_cons, List.filter_cons, ih]

theorem lessAt_cons_succ (x : KeyValue) (data : List KeyValue) (i j : Nat) :
    lessAt (x :: data) (i + 1) (j + 1) = lessAt data i j := by
  simp [lessAt]

theorem swapAt_cons_succ (x : KeyValue) (data : List KeyValue) (i j : Nat) :
    swapAt (x :: data) (i + 1) (j + 1) = x :: swapAt data i j := by
  unfold swapAt
  simp only [List.getElem?_cons_succ]
  cases data[i]? with
  | none => rfl
  | some u =>
    cases data[j]? with
    | none => rfl
    | some v => rfl

theorem cons_set_perm (x y : KeyValue) : ∀ (l : List KeyValue) (j : Nat), l[j]? = some y →
    (y :: l.set j x).Perm (x :: l) := by
  intro l
  induction l with
  | nil => intro j h; simp at h
  | cons z l ih =>
    intro j h
    cases j with
    | zero =>
      simp only [List.getElem?_cons_zero, Option.some.injEq] at h
      subst h
      rw [List.set_cons_zero]
      exact List.Perm.swap _ _ _
    | succ j =>
      rw [List.getElem?_cons_succ] at h
      rw [List.set_cons_succ]
      exact (List.Perm.swap _ _ _).trans (((ih j h).cons z).trans (List.Perm.swap _ _ _))

/-- A swap rearranges the slice. -/
theorem swapAt_perm : ∀ (data : List KeyValue) (i j : Nat), (swapAt data i j).Perm data := by
  intro data
  induction data with
  | nil => intro i j; simp [swapAt]
  | cons z l ih =>
    intro i j
    cases i with
    | zero =>
      cases j with
      | zero => simp [swapAt]
      | succ j =>
        unfold swapAt
        simp only [List.getElem?_cons_zero, List.getElem?_cons_succ]
        cases hj : l[j]? with
        | none => exact List.Perm.refl _
        | some y =>
          simp only [List.set_cons_zero, List.set_cons_succ]
          exact cons_set_perm z y l j hj
    | succ i =>
      cases j with
      | zero =>
        unfold swapAt
        simp only [List.getElem?_cons_zero, List.getElem?_cons_succ]
        cases hi : l[i]? with
        | none => exact List.Perm.refl _
        | some x =>
          simp only [List.set_cons_zero, List.set_cons_succ]
          exact cons_set_perm z x l i hi
      | succ j =>
        rw [swapAt_cons_succ]
        exact (ih i j).cons z

theorem sinkLeft_perm (a : Nat) : ∀ (j : Nat) (data : List KeyValue),
    (sinkLeft a j data).Perm data := by
  intro j
  induction j with
  | zero => intro data; exact List.Perm.refl _
  | succ j ih =>
    intro data
    rw [sinkLeft]
    split
    · exact (ih _).trans (swapAt_perm _ _ _)
    · exact List.Perm.refl _

theorem insertionLoop_perm (a : Nat) : ∀ (n i : Nat) (data : List KeyValue),
    (insertionLoop a n i data).Perm data := by
  intro n
  induction n with
  | zero => intro i data; exact List.Perm.refl _
  | succ n ih =>
    intro i data
    rw [insertionLoop]
    exact (ih _ _).trans (sinkLeft_perm a i data)

theorem insertionSort_perm (data : List KeyValue) (a b : Nat) :
    (insertionSort data a b).Perm data :=
  insertionLoop_perm a _ _ data

theorem siftDown_perm (first hi : Nat) : ∀ (fuel : Nat) (data : List KeyValue) (root : Nat),
    (siftDown first hi fuel data root).Perm data := by
  intro fuel
  induction fuel with
  | zero => intro data root; exact List.Perm.refl _
  | succ fuel ih =>
    intro data root
    rw [siftDown]
    try dsimp only
    repeat' split
    all_goals first
      | exact List.Perm.refl _
      | exact (ih _ _).trans (swapAt_perm _ _ _)

theorem foldl_perm (f : List KeyValue → Nat → List KeyValue)
    (hf : ∀ d i, (f d i).Perm d) : ∀ (l : List Nat) (d : List KeyValue),
    (l.foldl f d).Perm d := by
  intro l
  induction l with
  | nil => intro d; exact List.Perm.refl _
  | cons i l ih => intro d; exact (ih (f d i)).trans (hf d i)

theorem heapSort_perm (data : List KeyValue) (a b : Nat) : (heapSort data a b).Perm data := by
  unfold heapSort
  try dsimp only
  refine (foldl_perm _ ?_ _ _).trans (foldl_perm _ ?_ _ _)
  · intro d i
    exact (siftDown_perm _ _ _ _ _).trans (swapAt_perm _ _ _)
  · intro d i
    exact siftDown_perm _ _ _ _ _

theorem partitionLoop_perm (a : Nat) : ∀ (fuel : Nat) (data : List KeyValue) (i j : Nat),
    (partitionLoop a fuel data i j).1.Perm data := by
  intro fuel
  induction fuel with
  | zero => intro data i j; exact List.Perm.refl _
  | succ fuel ih =>
    intro data i j
    rw [partitionLoop]
    try dsimp only
    split
    · exact List.Perm.refl _
    · exact (ih _ _ _).trans (swapAt_perm _ _ _)

theorem partition_perm (data : List KeyValue) (a b pivot : Nat) :
    (partition data a b pivot).1.Perm data := by
  unfold partition
  try dsimp only
  split
  · exact (swapAt_perm _ _ _).trans (swapAt_perm _ _ _)
  · exact (swapAt_perm _ _ _).trans
      ((partitionLoop_perm _ _ _ _ _).trans ((swapAt_perm _ _ _).trans (swapAt_perm _ _ _)))

theorem partitionEqualLoop_perm (a : Nat) : ∀ (fuel : Nat) (data : List KeyValue) (i j : Nat),
    (partitionEqualLoop a fuel data i j).1.Perm data := by
  intro fuel
  induction fuel with
  | zero => intro data i j; exact List.Perm.refl _
  | succ fuel ih =>
    intro data i j
    rw [partitionEqualLoop]
    try dsimp only
    split
    · exact List.Perm.refl _
    · exact (ih _ _ _).trans (swapAt_perm _ _ _)

theorem partitionEqual_perm (data : List KeyValue) (a b pivot : Nat) :
    (partitionEqual data a b pivot).1.Perm data :=
  (partitionEqualLoop_perm _ _ _ _ _).trans (swapAt_perm _ _ _)

theorem shiftLeft_perm : ∀ (j : Nat) (data : List KeyValue), (shiftLeft j data).Perm data := by
  intro j
  induction j with
  | zero => intro data; exact List.Perm.refl _
  | succ j ih =>
    intro data
    rw [shiftLeft]
    split
    · exact (ih _).trans (swapAt_perm _ _ _)
    · exact List.Perm.refl _

theorem shiftRight_perm : ∀ (n j : Nat) (data : List KeyValue),
    (shiftRight n j data).Perm data := by
  intro n
  induction n with
  | zero => intro j data; exact List.Perm.refl _
  | succ n ih =>
    intro j data
    rw [shiftRight]
    split
    · exact (ih _ _).trans (swapAt_perm _ _ _)
    · exact List.Perm.refl _

theorem partialInsertionLoop_perm (a b : Nat) : ∀ (steps i : Nat) (data : List KeyValue),
    (partialInsertionLoop a b steps i data).1.Perm data := by
  intro steps
  induction steps with
  | zero => intro i data; exact List.Perm.refl _
  | succ steps ih =>
    intro i data
    rw [partialInsertionLoop]
    try dsimp only
    split
    · exact List.Perm.refl _
    · split
      · exact List.Perm.refl _
      · refine (ih _ _).trans ?_
        have h1 : ∀ (c : Prop) [Decidable c] (n j : Nat) (d : List KeyValue),
            (if c then shiftRight n j d else d).Perm d := by
          intro c _ n j d
          split
          · exact shiftRight_perm _ _ _
          · exact List.Perm.refl _
        have h2 : ∀ (c : Prop) [Decidable c] (j : Nat) (d : List KeyValue),
            (if c then shiftLeft j d else d).Perm d := by
          intro c _ j d
          split
          · exact shiftLeft_perm _ _
          · exact List.Perm.refl _
        exact (h1 _ _ _ _).trans ((h2 _ _ _).trans (swapAt_perm _ _ _))

theorem partialInsertionSort_perm (data : List KeyValue) (a b : Nat) :
    (partialInsertionSort data a b).1.Perm data :=
  partialInsertionLoop_perm a b _ _ data

theorem breakPatterns_perm (next : Nat → Nat) (data : List KeyValue) (a b : Nat) :
    (breakPatterns next data a b).Perm data := by
  unfold breakPatterns
  try dsimp only
  split
  · exact (swapAt_perm _ _ _).trans ((swapAt_perm _ _ _).trans (swapAt_perm _ _ _))
  · exact List.Perm.refl _

theorem reverseLoop_perm : ∀ (fuel : Nat) (data : List KeyValue) (i j : Nat),
    (reverseLoop fuel data i j).Perm data := by
  intro fuel
  induction fuel with
  | zero => intro data i j; exact List.Perm.refl _
  | succ fuel ih =>
    intro data i j
    rw [reverseLoop]
    split
    · exact (ih _ _ _).trans (swapAt_perm _ _ _)
    · exact List.Perm.refl _

theorem reverseRange_perm (data : List KeyValue) (a b : Nat) :
    (reverseRange data a b).Perm data :=
  reverseLoop_perm _ _ _ _

theorem choosePivotRound_perm (next : Nat → Nat) (data : List KeyValue) (a b limit : Nat)
    (wb wp : Bool) : (choosePivotRound next data a b limit wb wp).data.Perm data := by
  have h1 : (if wb = true then data else breakPatterns next data a b).Perm data := by
    split
    · exact List.Perm.refl _
    · exact breakPatterns_perm _ _ _ _
  unfold choosePivotRound
  dsimp only
  generalize (if wb = true then data else breakPatterns next data a b) = d1 at h1 ⊢
  have h2 : (if (choosePivot d1 a b).2 = SortedHint.decreasingHint then reverseRange d1 a b
      else d1).Perm d1 := by
    split
    · exact reverseRange_perm _ _ _
    · exact List.Perm.refl _
  generalize (if (choosePivot d1 a b).2 = SortedHint.decreasingHint then reverseRange d1 a b
      else d1) = d2 at h2 ⊢
  by_cases hc : wb = true ∧ wp = true ∧
      (if (choosePivot d1 a b).2 = SortedHint.decreasingHint then SortedHint.increasingHint
        else (choosePivot d1 a b).2) = SortedHint.increasingHint
  · rw [if_pos hc]
    exact (partialInsertionSort_perm _ _ _).trans (h2.trans h1)
  · rw [if_neg hc]
    exact h2.trans h1

/-- What `pdqsort` returns is a rearrangement of the slice. -/
theorem pdqsort_perm (next : Nat → Nat) : ∀ (fuel : Nat) (data : List KeyValue)
    (a b limit : Nat) (wb wp : Bool) (r : List KeyValue),
    pdqsort next fuel data a b limit wb wp = some r → r.Perm data := by
  intro fuel
  induction fuel with
  | zero => intro data a b limit wb wp r h; rw [pdqsort] at h; cases h
  | succ fuel ih =>
    intro data a b limit wb wp r h
    have hfront := choosePivotRound_perm next data a b limit wb wp
    rw [pdqsort] at h
    dsimp only at h
    split at h
    · cases h
      exact insertionSort_perm _ _ _
    · split at h
      · cases h
        exact heapSort_perm _ _ _
      · split at h
        · cases h
          exact hfront
        · split at h
          · exact (ih _ _ _ _ _ _ _ h).trans ((partitionEqual_perm _ _ _ _).trans hfront)
          · split at h
            · obtain ⟨d4, h1, h2⟩ := Option.bind_eq_some.mp h
              exact (ih _ _ _ _ _ _ _ h2).trans ((ih _ _ _ _ _ _ _ h1).trans
                ((partition_perm _ _ _ _).trans hfront))
            · obtain ⟨d4, h1, h2⟩ := Option.bind_eq_some.mp h
              exact (ih _ _ _ _ _ _ _ h2).trans ((ih _ _ _ _ _ _ _ h1).trans
                ((partition_perm _ _ _ _).trans hfront))

theorem scanUp_ge (p : Nat → Bool) (j : Nat) : ∀ (fuel i : Nat), i ≤ scanUp p j fuel i := by
  intro fuel
  induction fuel with
  | zero => intro i; exact Nat.le_refl _
  | succ fuel ih =>
    intro i
    rw [scanUp]
    split
    · exact Nat.le_trans (Nat.le_succ i) (ih (i + 1))
    · exact Nat.le_refl _

theorem scanDown_le (p : Nat → Bool) (i : Nat) : ∀ j : Nat, scanDown p i j ≤ j := by
  intro j
  induction j with
  | zero => exact Nat.le_refl _
  | succ j ih =>
    rw [scanDown]
    split
    · exact Nat.le_trans ih (Nat.le_succ j)
    · exact Nat.le_refl _

theorem scanDown_ge (p : Nat → Bool) (a i : Nat) (hi : a + 1 ≤ i) : ∀ j : Nat, a ≤ j →
    a ≤ scanDown p i j := by
  intro j
  induction j with
  | zero => intro h; exact h
  | succ j ih =>
    intro h
    rw [scanDown]
    split
    · next hc => exact ih (by omega)
    · exact h

theorem partitionLoop_bounds (a : Nat) : ∀ (fuel : Nat) (data : List KeyValue) (i j : Nat),
    a + 1 ≤ i → a ≤ j →
    a ≤ (partitionLoop a fuel data i j).2 ∧ (partitionLoop a fuel data i j).2 ≤ j := by
  intro fuel
  induction fuel with
  | zero => intro data i j _ hj; exact ⟨hj, Nat.le_refl _⟩
  | succ fuel ih =>
    intro data i j hi hj
    rw [partitionLoop]
    have h1 := scanUp_ge (fun x => lessAt data x a) j (j + 1 - i) i
    have h2 := scanDown_le (fun x => !lessAt data x a)
      (scanUp (fun x => lessAt data x a) j (j + 1 - i) i) j
    have h3 := scanDown_ge (fun x => !lessAt data x a) a
      (scanUp (fun x => lessAt data x a) j (j + 1 - i) i) (by omega) j hj
    try dsimp only
    split
    · exact ⟨h3, h2⟩
    · next hlt =>
      obtain ⟨h4, h5⟩ := ih (swapAt data (scanUp (fun x => lessAt data x a) j (j + 1 - i) i)
        (scanDown (fun x => !lessAt data x a)
          (scanUp (fun x => lessAt data x a) j (j + 1 - i) i) j))
        (scanUp (fun x => lessAt data x a) j (j + 1 - i) i + 1)
        (scanDown (fun x => !lessAt data x a)
          (scanUp (fun x => lessAt data x a) j (j + 1 - i) i) j - 1) (by omega) (by omega)
      exact ⟨h4, by omega⟩

/-- The pivot position `partition` returns lies in the range. -/
theorem partition_bounds (data : List KeyValue) (a b pivot : Nat) (hab : a < b) :
    a ≤ (partition data a b pivot).2.1 ∧ (partition data a b pivot).2.1 < b := by
  unfold partition
  try dsimp only
  have h1 := scanUp_ge (fun x => lessAt (swapAt data a pivot) x a) (b - 1) (b - (a + 1)) (a + 1)
  have h2 := scanDown_le (fun x => !lessAt (swapAt data a pivot) x a)
    (scanUp (fun x => lessAt (swapAt data a pivot) x a) (b - 1) (b - (a + 1)) (a + 1)) (b - 1)
  have h3 := scanDown_ge (fun x => !lessAt (swapAt data a pivot) x a) a
    (scanUp (fun x => lessAt (swapAt data a pivot) x a) (b - 1) (b - (a + 1)) (a + 1)) h1
    (b - 1) (by omega)
  split
  · dsimp only
    exact ⟨h3, by omega⟩
  · next hlt =>
    dsimp only
    obtain ⟨h4, h5⟩ := partitionLoop_bounds a
      (scanDown (fun x => !lessAt (swapAt data a pivot) x a)
        (scanUp (fun x => lessAt (swapAt data a pivot) x a) (b - 1) (b - (a + 1)) (a + 1))
        (b - 1) + 1 -
        scanUp (fun x => lessAt (swapAt data a pivot) x a) (b - 1) (b - (a + 1)) (a + 1))
      (swapAt (swapAt data a pivot)
        (scanUp (fun x => lessAt (swapAt data a pivot) x a) (b - 1) (b - (a + 1)) (a + 1))
        (scanDown (fun x => !lessAt (swapAt data a pivot) x a)
          (scanUp (fun x => lessAt (swapAt data a pivot) x a) (b - 1) (b - (a + 1)) (a + 1))
          (b - 1)))
      (scanUp (fun x => lessAt (swapAt data a pivot) x a) (b - 1) (b - (a + 1)) (a + 1) + 1)
      (scanDown (fun x => !lessAt (swapAt data a pivot) x a)
        (scanUp (fun x => lessAt (swapAt data a pivot) x a) (b - 1) (b - (a + 1)) (a + 1))
        (b - 1) - 1) (by omega) (by omega)
    exact ⟨h4, by omega⟩

theorem partitionEqualLoop_ge (a : Nat) : ∀ (fuel : Nat) (data : List KeyValue) (i j : Nat),
    i ≤ (partitionEqualLoop a fuel data i j).2 := by
  intro fuel
  induction fuel with
  | zero => intro data i j; exact Nat.le_refl _
  | succ fuel ih =>
    intro data i j
    rw [partitionEqualLoop]
    have h1 := scanUp_ge (fun x => !lessAt data a x) j (j + 1 - i) i
    try dsimp only
    split
    · exact h1
    · exact Nat.le_trans (Nat.le_trans h1 (Nat.le_succ _)) (ih _ _ _)

theorem partitionEqual_ge (data : List KeyValue) (a b pivot : Nat) :
    a + 1 ≤ (partitionEqual data a b pivot).2 :=
  partitionEqualLoop_ge _ _ _ _ _

/-- The function `pdqsort` returns when it is given more rounds than the range has
records. -/
theorem pdqsort_returns (next : Nat → Nat) : ∀ (fuel : Nat) (data : List KeyValue)
    (a b limit : Nat) (wb wp : Bool), b - a < fuel →
    ∃ r, pdqsort next fuel data a b limit wb wp = some r := by
  intro fuel
  induction fuel with
  | zero => intro data a b limit wb wp h; omega
  | succ fuel ih =>
    intro data a b limit wb wp h
    rw [pdqsort]
    try dsimp only
    split
    · exact ⟨_, rfl⟩
    · next hlen =>
      split
      · exact ⟨_, rfl⟩
      · split
        · exact ⟨_, rfl⟩
        · split
          · have hge := partitionEqual_ge
              (choosePivotRound next data a b limit wb wp).data a b
              (choosePivotRound next data a b limit wb wp).pivot
            exact ih _ _ _ _ _ _ (by omega)
          · obtain ⟨hlo, hhi⟩ := partition_bounds
              (choosePivotRound next data a b limit wb wp).data a b
              (choosePivotRound next data a b limit wb wp).pivot (by omega)
            split
            · obtain ⟨d4, h4⟩ := ih
                (partition (choosePivotRound next data a b limit wb wp).data a b
                  (choosePivotRound next data a b limit wb wp).pivot).1 a
                (partition (choosePivotRound next data a b limit wb wp).data a b
                  (choosePivotRound next data a b limit wb wp).pivot).2.1
                (choosePivotRound next data a b limit wb wp).limit true true (by omega)
              rw [h4, Option.some_bind]
              exact ih _ _ _ _ _ _ (by omega)
            · obtain ⟨d4, h4⟩ := ih
                (partition (choosePivotRound next data a b limit wb wp).data a b
                  (choosePivotRound next data a b limit wb wp).pivot).1
                ((partition (choosePivotRound next data a b limit wb wp).data a b
                  (choosePivotRound next data a b limit wb wp).pivot).2.1 + 1) b
                (choosePivotRound next data a b limit wb wp).limit true true (by omega)
              rw [h4, Option.some_bind]
              exact ih _ _ _ _ _ _ (by omega)

/-- The routine `sort.Sort` returns on every slice, and what it returns is a
rearrangement of the slice. -/
theorem sortSort_returns (next : Nat → Nat) (data : List KeyValue) :
    ∃ r, sortSort next data = some r ∧ r.Perm data := by
  unfold sortSort
  try dsimp only
  split
  · exact ⟨data, rfl, List.Perm.refl _⟩
  · obtain ⟨r, hr⟩ := pdqsort_returns next (data.length + 1) data 0 data.length
      (bitsLen data.length data.length) true true (by omega)
    exact ⟨r, hr, pdqsort_perm next _ _ _ _ _ _ _ r hr⟩

theorem sortByKey_perm (next : Nat → Nat) (data : List KeyValue) :
    (sortByKey next data).Perm data := by
  obtain ⟨r, hr, hp⟩ := sortSort_returns next data
  rw [sortByKey, hr, Option.getD_some]
  exact hp

/-- A swap of two neighbours of which the right one is `Less` than the left one leaves
the records of every key in their order. -/
theorem swapAt_filter_key (k : String) (data : List KeyValue) (j : Nat)
    (h : lessAt data (j + 1) j = true) :
    (swapAt data (j + 1) j).filter (fun kv => decide (kv.Key = k)) =
      data.filter (fun kv => decide (kv.Key = k)) := by
  induction j generalizing data with
  | zero =>
    match data, h with
    | [], h => simp [lessAt] at h
    | [_], h => simp [lessAt] at h
    | x :: y :: rest, h =>
      have hlt : y.Key.data < x.Key.data := by
        simpa [lessAt, ByKey.Less] using h
      have hne : y.Key ≠ x.Key := fun e => by rw [e] at hlt; exact lt_irrefl _ hlt
      have hs : swapAt (x :: y :: rest) 1 0 = y :: x :: rest := by simp [swapAt]
      rw [hs]
      by_cases hx : x.Key = k
      · have hy : ¬ y.Key = k := fun e => hne (e.trans hx.symm)
        simp [List.filter_cons, hx, hy]
      · simp [List.filter_cons, hx]
  | succ j ih =>
    match data, h with
    | [], h => simp [lessAt] at h
    | x :: rest, h =>
      rw [lessAt_cons_succ] at h
      rw [swapAt_cons_succ]
      simp only [List.filter_cons, ih rest h]

theorem sinkLeft_filter_key (k : String) (a j : Nat) (data : List KeyValue) :
    (sinkLeft a j data).filter (fun kv => decide (kv.Key = k)) =
      data.filter (fun kv => decide (kv.Key = k)) := by
  induction j generalizing data with
  | zero => rfl
  | succ j ih =>
    rw [sinkLeft]
    split
    · next h => rw [ih, swapAt_filter_key k data j h.2]
    · rfl

theorem insertionLoop_filter_key (k : String) (a n i : Nat) (data : List KeyValue) :
    (insertionLoop a n i data).filter (fun kv => decide (kv.Key = k)) =
      data.filter (fun kv => decide (kv.Key = k)) := by
  induction n generalizing i data with
  | zero => rfl
  | succ n ih => rw [insertionLoop, ih, sinkLeft_filter_key]

/-- The insertion sort of package `sort` keeps the records of every key in their order. -/
theorem insertionSort_filter_key (k : String) (data : List KeyValue) (a b : Nat) :
    (insertionSort data a b).filter (fun kv => decide (kv.Key = k)) =
      data.filter (fun kv => decide (kv.Key = k)) :=
  insertionLoop_filter_key k a _ _ data

/-- On a range of at most 12 records `pdqsort` is `insertionSort`. -/
theorem pdqsort_short (next : Nat → Nat) (fuel : Nat) (data : List KeyValue)
    (a b limit : Nat) (wb wp : Bool) (h : b - a ≤ 12) :
    pdqsort next (fuel + 1) data a b limit wb wp = some (insertionSort data a b) := by
  rw [pdqsort]
  simp only [h, if_true]

/-- On a slice of at most 12 records `sort.Sort` returns, and is the insertion sort of
the whole slice. -/
theorem sortSort_short (next : Nat → Nat) (data : List KeyValue) (h : data.length ≤ 12) :
    sortSort next data = some (insertionSort data 0 data.length) ∨
      sortSort next data = some data := by
  unfold sortSort
  by_cases h1 : data.length ≤ 1
  · right
    simp only [h1, if_true]
  · left
    simp only [h1, if_false]
    exact pdqsort_short next _ data 0 _ _ true true (by simpa using h)

theorem sortByKey_short_filter_key (next : Nat → Nat) (data : List KeyValue)
    (h : data.length ≤ 12) (k : String) :
    (sortByKey next data).filter (fun kv => decide (kv.Key = k)) =
      data.filter (fun kv => decide (kv.Key = k)) := by
  unfold sortByKey
  rcases sortSort_short next data h with h1 | h1
  · rw [h1, Option.getD_some, insertionSort_filter_key]
  · rw [h1, Option.getD_some]

/-! ## Order of equal keys and repeated execution -/

/-- The run of `sort.Sort` on `mapOutput13`: the pivot is the record at index 6, the
slice is not found sorted, `partition` swaps the pivot to the front and leaves it there,
and the 12 records behind it are sorted by insertion. -/
theorem sortSort_mapOutput13 (next : Nat → Nat) : sortSort next mapOutput13 = some sorted13 := by
  have hp : choosePivot mapOutput13 0 13 = (6, SortedHint.increasingHint) := by decide
  have hi : partialInsertionSort mapOutput13 0 13 = (mapOutput13, false) := by decide
  have hround : choosePivotRound next mapOutput13 0 13 4 true true =
      { data := mapOutput13, pivot := 6, limit := 4, sorted := false } := by
    simp [choosePivotRound, hp, hi]
  have hq : partition mapOutput13 0 13 6 = (partitioned13, 0, true) := by decide
  have h0 : insertionSort partitioned13 0 0 = partitioned13 := by decide
  have h1 : insertionSort partitioned13 1 13 = sorted13 := by decide
  have hlen : mapOutput13.length = 13 := rfl
  have hbits : bitsLen 13 13 = 4 := by decide
  have s0 := pdqsort_short next 12 partitioned13 0 0 4 true true (by decide)
  have s1 := pdqsort_short next 12 partitioned13 1 13 4 false true (by decide)
  unfold sortSort
  simp only [hlen, hbits]
  rw [show (13 + 1 : Nat) = 13 + 1 from rfl, pdqsort]
  simp [hround, hq, h0, h1, s0, s1]

/-- C7, as stated, fails on the code: on the 13 records `mapOutput13`, one with the key
`b` followed by twelve with the key `a`, `sort.Sort` returns `sorted13`, in which the
seventh record ("a", "6") stands before ("a", "1"); so `doMap` with one reduce shard
writes the records with the key `a` to their bucket in another order than the map
function emitted them. -/
theorem doMap_sort_reorders_equal_keys :
    (∀ next : Nat → Nat, sortSort next mapOutput13 = some sorted13) ∧
    (∀ next : Nat → Nat,
      doMapBuckets (fun _ _ => mapOutput13) (sortByKey next) "pg-1.txt" "" 1 =
        some [sorted13]) ∧
    sorted13.filter (fun kv => decide (kv.Key = "a")) ≠
      mapOutput13.filter (fun kv => decide (kv.Key = "a")) ∧
    (sorted13.filter (fun kv => decide (kv.Key = "a"))).map KeyValue.Value =
      ["6", "1", "2", "3", "4", "5", "7", "8", "9", "10", "11", "12"] := by
  refine ⟨sortSort_mapOutput13, ?_, by decide, by decide⟩
  intro next
  have h : sortByKey next mapOutput13 = sorted13 := by
    rw [sortByKey, sortSort_mapOutput13, Option.getD_some]
  simp only [doMapBuckets, h]
  decide

/-- C7, as amended: whatever sort meeting the contract of `sort.Sort` is applied, the
records with a given key appear in the bucket of that key as a rearrangement of the
records the map function emitted with that key, and in emission order when the sort
keeps records with equal keys in their input order.  With `sort.Sort` itself they are
such a rearrangement for every map output, and in emission order for every map output
of at most 12 records. -/
theorem doMap_equal_keys (mapf : String → String → List KeyValue)
    (sortf : List KeyValue → List KeyValue) (hsort : SortContract sortf)
    (fileName content : String) (nReduce : Nat) (hn : 0 < nReduce) (key : String) :
    (∃ buckets b, doMapBuckets mapf sortf fileName content nReduce = some buckets ∧
      buckets[ihash key % nReduce]? = some b ∧
      (b.filter (fun kv => decide (kv.Key = key))).Perm
        ((mapf fileName content).filter (fun kv => decide (kv.Key = key))) ∧
      ((∀ l k, (sortf l).filter (fun kv => decide (kv.Key = k)) =
          l.filter (fun kv => decide (kv.Key = k))) →
        b.filter (fun kv => decide (kv.Key = key)) =
          (mapf fileName content).filter (fun kv => decide (kv.Key = key)))) ∧
    (∀ next : Nat → Nat,
      ∃ buckets b, doMapBuckets mapf (sortByKey next) fileName content nReduce =
          some buckets ∧
        buckets[ihash key % nReduce]? = some b ∧
        (b.filter (fun kv => decide (kv.Key = key))).Perm
          ((mapf fileName content).filter (fun kv => decide (kv.Key = key))) ∧
        ((mapf fileName content).length ≤ 12 →
          b.filter (fun kv => decide (kv.Key = key)) =
            (mapf fileName content).filter (fun kv => decide (kv.Key = key)))) := by
  have hi : ihash key % nReduce < nReduce := Nat.mod_lt _ hn
  have hfilter : ∀ l : List KeyValue,
      (l.filter (fun kv => decide (ihash kv.Key % nReduce = ihash key % nReduce))).filter
        (fun kv => decide (kv.Key = key)) = l.filter (fun kv => decide (kv.Key = key)) := by
    intro l
    rw [List.filter_filter]
    apply List.filter_congr
    intro kv _
    by_cases hk : kv.Key = key
    · simp [hk]
    · simp [hk]
  constructor
  · obtain ⟨buckets, h1, -, h3, -⟩ := doMapBuckets_eq mapf sortf fileName content nReduce hn
    refine ⟨buckets, _, h1, h3 _ hi, ?_, ?_⟩
    · rw [hfilter]
      exact (hsort (mapf fileName content)).1.filter _
    · intro hstable
      rw [hfilter]
      exact hstable _ key
  · intro next
    obtain ⟨buckets, h1, -, h3, -⟩ :=
      doMapBuckets_eq mapf (sortByKey next) fileName content nReduce hn
    refine ⟨buckets, _, h1, h3 _ hi, ?_, ?_⟩
    · rw [hfilter]
      exact (sortByKey_perm next (mapf fileName content)).filter _
    · intro hlen
      rw [hfilter]
      exact sortByKey_short_filter_key next _ hlen key

theorem doMap_equal_keys_witness :
    SortContract (List.insertionSort keyLE) ∧ 0 < 1 ∧
    (∀ l k, (List.insertionSort keyLE l).filter (fun kv => decide (kv.Key = k)) =
      l.filter (fun kv => decide (kv.Key = k))) ∧
    (∃ buckets b,
      doMapBuckets (fun _ _ => [⟨"b", "0"⟩, ⟨"a", "1"⟩, ⟨"a", "2"⟩]) (List.insertionSort keyLE)
        "pg-1.txt" "b a a" 1 = some buckets ∧
      buckets[ihash "a" % 1]? = some b ∧
      (b.filter (fun kv => decide (kv.Key = "a"))).Perm
        (((fun _ _ => [⟨"b", "0"⟩, ⟨"a", "1"⟩, ⟨"a", "2"⟩] : String → String → List KeyValue)
          "pg-1.txt" "b a a").filter (fun kv => decide (kv.Key = "a"))) ∧
      ((∀ l k, (List.insertionSort keyLE l).filter (fun kv => decide (kv.Key = k)) =
          l.filter (fun kv => decide (kv.Key = k))) →
        b.filter (fun kv => decide (kv.Key = "a")) =
          ((fun _ _ => [⟨"b", "0"⟩, ⟨"a", "1"⟩, ⟨"a", "2"⟩] : String → String → List KeyValue)
            "pg-1.txt" "b a a").filter (fun kv => decide (kv.Key = "a")))) ∧
    (∀ next : Nat → Nat, ∃ buckets b,
      doMapBuckets (fun _ _ => [⟨"b", "0"⟩, ⟨"a", "1"⟩, ⟨"a", "2"⟩]) (sortByKey next)
        "pg-1.txt" "b a a" 1 = some buckets ∧
      buckets[ihash "a" % 1]? = some b ∧
      (b.filter (fun kv => decide (kv.Key = "a"))).Perm
        (((fun _ _ => [⟨"b", "0"⟩, ⟨"a", "1"⟩, ⟨"a", "2"⟩] : String → String → List KeyValue)
          "pg-1.txt" "b a a").filter (fun kv => decide (kv.Key = "a"))) ∧
      (((fun _ _ => [⟨"b", "0"⟩, ⟨"a", "1"⟩, ⟨"a", "2"⟩] : String → String → List KeyValue)
          "pg-1.txt" "b a a").length ≤ 12 →
        b.filter (fun kv => decide (kv.Key = "a")) =
          ((fun _ _ => [⟨"b", "0"⟩, ⟨"a", "1"⟩, ⟨"a", "2"⟩] : String → String → List KeyValue)
            "pg-1.txt" "b a a").filter (fun kv => decide (kv.Key = "a")))) ∧
    ((fun _ _ => [⟨"b", "0"⟩, ⟨"a", "1"⟩, ⟨"a", "2"⟩] : String → String → List KeyValue)
      "pg-1.txt" "b a a").length ≤ 12 :=
  ⟨sortContract_insertionSort, by decide, listInsertionSort_filter_key,
    (doMap_equal_keys (fun _ _ => [⟨"b", "0"⟩, ⟨"a", "1"⟩, ⟨"a", "2"⟩])
      (List.insertionSort keyLE) sortContract_insertionSort "pg-1.txt" "b a a" 1
      (by decide) "a").1,
    (doMap_equal_keys (fun _ _ => [⟨"b", "0"⟩, ⟨"a", "1"⟩, ⟨"a", "2"⟩])
      (List.insertionSort keyLE) sortContract_insertionSort "pg-1.txt" "b a a" 1
      (by decide) "a").2,
    by decide⟩

/-- C8: for every readable input shard, every `NReduce > 0`, every map function and the
sort routine at hand, two executions of `doMap` on the same job, under different task
ids, both reach the end of the partition loop and leave the same text in every one of
the `NReduce` temporary files. -/
theorem doMap_idempotent (readFile : String → Option String) (job : Job)
    (taskId1 taskId2 : String) (mapf : String → String → List KeyValue)
    (sortf : List KeyValue → List KeyValue) (fileName content : String)
    (hname : job.FileNames.head? = some fileName) (hread : readFile fileName = some content)
    (hn : 0 < job.NReduce) :
    ∃ files, doMapFiles readFile job taskId1 mapf sortf = some files ∧
      doMapFiles readFile job taskId2 mapf sortf = some files ∧
      files.length = job.NReduce ∧
      ∀ i, i < job.NReduce → files[i]? = some (fileContents
        ((sortf (mapf fileName content)).filter
          (fun kv => decide (ihash kv.Key % job.NReduce = i)))) := by
  obtain ⟨buckets, h1, h2, h3, -⟩ := doMapBuckets_eq mapf sortf fileName content job.NReduce hn
  cases hfn : job.FileNames with
  | nil => rw [hfn] at hname; simp at hname
  | cons f rest =>
    rw [hfn] at hname
    simp only [List.head?_cons, Option.some.injEq] at hname
    subst hname
    refine ⟨buckets.map fileContents, ?_, ?_, by simp [h2], ?_⟩
    · simp [doMapFiles, hfn, hread, h1]
    · simp [doMapFiles, hfn, hread, h1]
    · intro i hi
      simp [List.getElem?_map, h3 i hi]

theorem doMap_idempotent_witness :
    ∃ files,
      doMapFiles (fun n => if n = "pg-1.txt" then some "b a" else none)
        ⟨JobType.MapJob, ["pg-1.txt"], 2⟩ "id-1" wcMap (List.insertionSort keyLE) = some files ∧
      doMapFiles (fun n => if n = "pg-1.txt" then some "b a" else none)
        ⟨JobType.MapJob, ["pg-1.txt"], 2⟩ "id-2" wcMap (List.insertionSort keyLE) = some files ∧
      files.length = (⟨JobType.MapJob, ["pg-1.txt"], 2⟩ : Job).NReduce ∧
      ∀ i, i < (⟨JobType.MapJob, ["pg-1.txt"], 2⟩ : Job).NReduce →
        files[i]? = some (fileContents
          ((List.insertionSort keyLE (wcMap "pg-1.txt" "b a")).filter
            (fun kv => decide (ihash kv.Key %
              (⟨JobType.MapJob, ["pg-1.txt"], 2⟩ : Job).NReduce = i)))) :=
  doMap_idempotent (fun n => if n = "pg-1.txt" then some "b a" else none)
    ⟨JobType.MapJob, ["pg-1.txt"], 2⟩ "id-1" "id-2" wcMap (List.insertionSort keyLE)
    "pg-1.txt" "b a" (by decide) (by decide) (by decide)

/-! ## The coordinator: seeding, assignment, lease expiry -/

theorem seedJobs_eq (nReduce : Nat) : ∀ (files : List String) (ch : Chan),
    ch.closed = false → ch.buf.length + files.length ≤ ch.cap →
    seedJobs nReduce files ch = some { ch with
      buf := ch.buf ++ files.map fun f =>
        { JobType := JobType.MapJob, FileNames := [f], NReduce := nReduce } } := by
  intro files
  induction files with
  | nil => intro ch _ _; simp [seedJobs]
  | cons f rest ih =>
    intro ch hc hlen
    simp only [List.length_cons] at hlen
    have hroom : ch.buf.length < ch.cap := by omega
    simp only [seedJobs, Chan.send, hc, hroom, and_self, if_true, Option.some_bind]
    rw [ih (Chan.mk (ch.buf ++ [Job.mk JobType.MapJob [f] nReduce]) ch.cap false) rfl
      (by simp; omega)]
    simp [hc]

theorem seedJobs_none (nReduce : Nat) : ∀ (files : List String) (ch : Chan),
    ch.buf.length ≤ ch.cap → ch.cap < ch.buf.length + files.length →
    seedJobs nReduce files ch = none := by
  intro files
  induction files with
  | nil => intro ch h0 h; simp at h; omega
  | cons f rest ih =>
    intro ch h0 h
    simp only [List.length_cons] at h
    simp only [seedJobs, Chan.send]
    split
    · rename_i hroom
      simp only [Option.some_bind]
      apply ih
      · simp; omega
      · simp; omega
    · rfl

theorem pendingLeases_set : ∀ (leases : List Lease) (ch : Nat) (old new : Lease),
    leases[ch]? = some old →
    pendingLeases (leases.set ch new) + pendingWeight old =
      pendingLeases leases + pendingWeight new := by
  intro leases
  induction leases with
  | nil => intro ch old new h; simp at h
  | cons l rest ih =>
    intro ch old new h
    cases ch with
    | zero =>
      simp only [List.getElem?_cons_zero, Option.some.injEq] at h
      subst h
      simp only [pendingLeases, List.set_cons_zero, List.map_cons, List.sum_cons]
      omega
    | succ ch =>
      simp only [List.getElem?_cons_succ] at h
      have := ih ch old new h
      simp only [pendingLeases, List.set_cons_succ, List.map_cons, List.sum_cons] at this ⊢
      omega

theorem pendingLeases_append (xs ys : List Lease) :
    pendingLeases (xs ++ ys) = pendingLeases xs + pendingLeases ys := by
  simp [pendingLeases]

theorem getTask_eq_of_cons (c : Coordinator) (id : String) (job : Job) (rest : List Job)
    (hq : c.availableJobs.buf = job :: rest) :
    GetTask c id = some (
      { c with
        availableJobs := { c.availableJobs with buf := rest },
        reportChannelByUUID := (id, c.leases.length) :: c.reportChannelByUUID,
        leases := c.leases ++ [Lease.waiting job] },
      { Job := job, TaskId := id }) := by
  simp [GetTask, Chan.recv, hq]

theorem getTask_cases (c : Coordinator) (id : String) (c1 : Coordinator) (reply : GetTaskReply)
    (h : GetTask c id = some (c1, reply)) :
    (c.availableJobs.buf = [] ∧ c.availableJobs.closed = true ∧ c1 = c) ∨
    (∃ job rest, c.availableJobs.buf = job :: rest ∧ reply = { Job := job, TaskId := id } ∧
      c1 = { c with
        availableJobs := { c.availableJobs with buf := rest },
        reportChannelByUUID := (id, c.leases.length) :: c.reportChannelByUUID,
        leases := c.leases ++ [Lease.waiting job] }) := by
  cases hq : c.availableJobs.buf with
  | nil =>
    by_cases hcl : c.availableJobs.closed = true
    · simp [GetTask, Chan.recv, hq, hcl] at h
      exact Or.inl ⟨rfl, hcl, h.1.symm⟩
    · simp [GetTask, Chan.recv, hq, hcl] at h
  | cons job rest =>
    rw [getTask_eq_of_cons c id job rest hq] at h
    simp only [Option.some.injEq, Prod.mk.injEq] at h
    exact Or.inr ⟨job, rest, rfl, h.2.symm, h.1.symm⟩

theorem lt_length_of_getElem? {α : Type} (l : List α) (i : Nat) (x : α) (h : l[i]? = some x) :
    i < l.length := by
  by_contra hcon
  rw [List.getElem?_eq_none (Nat.le_of_not_lt hcon)] at h
  cases h

theorem getElem?_set_same {α : Type} (l : List α) (i : Nat) (x y : α) (h : l[i]? = some x) :
    (l.set i y)[i]? = some y := by
  simp [List.getElem?_set, lt_length_of_getElem? l i x h]

theorem reportSuccess_ack (c c1 : Coordinator) (taskId : String) (job : Job)
    (h : ReportSuccess c taskId job = ReportResult.ack c1) :
    ∃ ch j, c.reportChannelByUUID.lookup taskId = some ch ∧
      c.leases[ch]? = some (Lease.waiting j) ∧
      c1 = { c with leases := c.leases.set ch (Lease.reported job) } := by
  unfold ReportSuccess at h
  split at h
  · cases h
  · rename_i ch hlook
    split at h
    · rename_i j hl
      simp only [ReportResult.ack.injEq] at h
      exact ⟨ch, j, hlook, hl, h.symm⟩
    · cases h

theorem timerFires_some (c c1 : Coordinator) (ch : Nat) (h : timerFires c ch = some c1) :
    ∃ j, c.leases[ch]? = some (Lease.waiting j) ∧
      c1 = { c with leases := c.leases.set ch (Lease.timedOut j) } := by
  unfold timerFires at h
  split at h
  · rename_i j hl
    exact ⟨j, hl, (Option.some.inj h).symm⟩
  · cases h

theorem leaseSend_some (c c1 : Coordinator) (ch : Nat) (h : leaseSend c ch = some c1) :
    (∃ j, c.leases[ch]? = some (Lease.reported j) ∧
      c.successJobs.closed = false ∧ c.successJobs.buf.length < c.successJobs.cap ∧
      c1 = { c with
        successJobs := { c.successJobs with buf := c.successJobs.buf ++ [j] },
        leases := c.leases.set ch Lease.finished }) ∨
    (∃ j, c.leases[ch]? = some (Lease.timedOut j) ∧
      c.availableJobs.closed = false ∧ c.availableJobs.buf.length < c.availableJobs.cap ∧
      c1 = { c with
        availableJobs := { c.availableJobs with buf := c.availableJobs.buf ++ [j] },
        leases := c.leases.set ch Lease.finished }) := by
  unfold leaseSend at h
  split at h
  · rename_i j hl
    refine Or.inl ⟨j, hl, ?_⟩
    unfold Chan.send at h
    split at h
    · rename_i hroom
      simp only [Option.map_some', Option.some.injEq] at h
      exact ⟨hroom.1, hroom.2, h.symm⟩
    · simp at h
  · rename_i j hl
    refine Or.inr ⟨j, hl, ?_⟩
    unfold Chan.send at h
    split at h
    · rename_i hroom
      simp only [Option.map_some', Option.some.injEq] at h
      exact ⟨hroom.1, hroom.2, h.symm⟩
    · simp at h
  · cases h

theorem handleSuccessJobs_some (c c1 : Coordinator) (h : handleSuccessJobs c = some c1) :
    ∃ job rest, c.successJobs.buf = job :: rest ∧
      c1 = { c with successJobs := { c.successJobs with buf := rest } } := by
  unfold handleSuccessJobs at h
  cases hq : c.successJobs.buf with
  | nil =>
    simp only [Chan.recv, hq] at h
    split at h
    · rename_i hr
      split at hr <;> cases hr
    · cases h
  | cons job rest =>
    simp only [Chan.recv, hq] at h
    refine ⟨job, rest, rfl, ?_⟩
    cases hjt : job.JobType <;> simp only [hjt, Option.some.injEq] at h <;> exact h.symm

/-- How one event changes the goroutine at position `ch`: it stays as it is, or it
receives a report while waiting, or its timer fires while waiting, or it does its
send, to `successJobs` after a report and to `availableJobs` after the timer. -/
theorem step_lease (c c1 : Coordinator) (e : Event) (ch : Nat) (l : Lease)
    (h : step c e = some c1) (hl : c.leases[ch]? = some l) :
    (c1.leases[ch]? = some l ∧ e ≠ Event.timer ch ∧ e ≠ Event.send ch) ∨
    (∃ j taskId j1, l = Lease.waiting j ∧ e = Event.reportSuccess taskId j1 ∧
      c.reportChannelByUUID.lookup taskId = some ch ∧
      c1.leases[ch]? = some (Lease.reported j1)) ∨
    (∃ j, l = Lease.waiting j ∧ e = Event.timer ch ∧
      c1.leases[ch]? = some (Lease.timedOut j) ∧
      c1.availableJobs = c.availableJobs ∧ c1.successJobs = c.successJobs) ∨
    (∃ j, l = Lease.reported j ∧ e = Event.send ch ∧ c1.leases[ch]? = some Lease.finished ∧
      c1.successJobs.buf = c.successJobs.buf ++ [j] ∧ c1.availableJobs = c.availableJobs) ∨
    (∃ j, l = Lease.timedOut j ∧ e = Event.send ch ∧ c1.leases[ch]? = some Lease.finished ∧
      c1.availableJobs.buf = c.availableJobs.buf ++ [j] ∧ c1.successJobs = c.successJobs) := by
  have hlt := lt_length_of_getElem? c.leases ch l hl
  cases e with
  | getTask id =>
    simp only [step, Option.map_eq_some'] at h
    obtain ⟨⟨c2, reply⟩, hg, rfl⟩ := h
    rcases getTask_cases c id c2 reply hg with ⟨-, -, rfl⟩ | ⟨job, rest, -, -, rfl⟩
    · exact Or.inl ⟨hl, by simp, by simp⟩
    · refine Or.inl ⟨?_, by simp, by simp⟩
      simp only [List.getElem?_append_left hlt]
      exact hl
  | reportSuccess taskId job =>
    simp only [step] at h
    split at h
    · rename_i c2 hr
      cases h
      obtain ⟨ch1, j, hlook, hw, rfl⟩ := reportSuccess_ack c c1 taskId job hr
      by_cases hch : ch1 = ch
      · subst hch
        rw [hl] at hw
        cases hw
        exact Or.inr (Or.inl ⟨j, taskId, job, rfl, rfl, hlook, getElem?_set_same _ _ _ _ hl⟩)
      · refine Or.inl ⟨?_, by simp, by simp⟩
        simp only [List.getElem?_set_ne hch]
        exact hl
    · cases h
      exact Or.inl ⟨hl, by simp, by simp⟩
  | timer ch1 =>
    simp only [step] at h
    obtain ⟨j, hw, rfl⟩ := timerFires_some c c1 ch1 h
    by_cases hch : ch1 = ch
    · subst hch
      rw [hl] at hw
      cases hw
      exact Or.inr (Or.inr (Or.inl ⟨j, rfl, rfl, getElem?_set_same _ _ _ _ hl, rfl, rfl⟩))
    · refine Or.inl ⟨?_, ?_, by simp⟩
      · simp only [List.getElem?_set_ne hch]
        exact hl
      · intro he
        cases he
        exact hch rfl
  | send ch1 =>
    simp only [step] at h
    rcases leaseSend_some c c1 ch1 h with ⟨j, hw, -, -, rfl⟩ | ⟨j, hw, -, -, rfl⟩
    · by_cases hch : ch1 = ch
      · subst hch
        rw [hl] at hw
        cases hw
        exact Or.inr (Or.inr (Or.inr (Or.inl
          ⟨j, rfl, rfl, getElem?_set_same _ _ _ _ hl, rfl, rfl⟩)))
      · refine Or.inl ⟨?_, by simp, ?_⟩
        · simp only [List.getElem?_set_ne hch]
          exact hl
        · intro he
          cases he
          exact hch rfl
    · by_cases hch : ch1 = ch
      · subst hch
        rw [hl] at hw
        cases hw
        exact Or.inr (Or.inr (Or.inr (Or.inr
          ⟨j, rfl, rfl, getElem?_set_same _ _ _ _ hl, rfl, rfl⟩)))
      · refine Or.inl ⟨?_, by simp, ?_⟩
        · simp only [List.getElem?_set_ne hch]
          exact hl
        · intro he
          cases he
          exact hch rfl
  | handleSuccess =>
    simp only [step] at h
    obtain ⟨job, rest, -, rfl⟩ := handleSuccessJobs_some c c1 h
    exact Or.inl ⟨hl, by simp, by simp⟩

theorem queueInv_init (files : List String) (nReduce : Nat) (c : Coordinator)
    (h : MakeCoordinator files nReduce = some c) : QueueInv c := by
  unfold MakeCoordinator at h
  by_cases hlen : files.length ≤ 100
  · rw [seedJobs_eq nReduce files (Chan.make 100) rfl (by simpa [Chan.make] using hlen)] at h
    simp only [Option.map_some', Option.some.injEq] at h
    subst h
    simp [QueueInv, Chan.make, pendingLeases]
    exact hlen
  · rw [seedJobs_none nReduce files (Chan.make 100) (by simp [Chan.make])
      (by simp [Chan.make]; omega)] at h
    cases h

theorem queueInv_step (c c1 : Coordinator) (e : Event) (hinv : QueueInv c)
    (h : step c e = some c1) : QueueInv c1 := by
  obtain ⟨hcap, hclosed, hsum⟩ := hinv
  cases e with
  | getTask id =>
    simp only [step, Option.map_eq_some'] at h
    obtain ⟨⟨c2, reply⟩, hg, rfl⟩ := h
    rcases getTask_cases c id c2 reply hg with ⟨-, -, rfl⟩ | ⟨job, rest, hq, -, rfl⟩
    · exact ⟨hcap, hclosed, hsum⟩
    · refine ⟨hcap, hclosed, ?_⟩
      rw [hq] at hsum
      simp only [List.length_cons] at hsum
      simp only [pendingLeases_append]
      simp only [pendingLeases, List.map_cons, List.map_nil, List.sum_cons, List.sum_nil,
        pendingWeight] at hsum ⊢
      omega
  | reportSuccess taskId job =>
    simp only [step] at h
    split at h
    · rename_i c2 hr
      cases h
      obtain ⟨ch1, j, -, hw, rfl⟩ := reportSuccess_ack c c1 taskId job hr
      refine ⟨hcap, hclosed, ?_⟩
      have := pendingLeases_set c.leases ch1 _ (Lease.reported job) hw
      simp only [pendingWeight] at this
      show c.availableJobs.buf.length + pendingLeases (c.leases.set ch1 (Lease.reported job)) ≤ 100
      omega
    · cases h
      exact ⟨hcap, hclosed, hsum⟩
  | timer ch1 =>
    simp only [step] at h
    obtain ⟨j, hw, rfl⟩ := timerFires_some c c1 ch1 h
    refine ⟨hcap, hclosed, ?_⟩
    have := pendingLeases_set c.leases ch1 _ (Lease.timedOut j) hw
    simp only [pendingWeight] at this
    show c.availableJobs.buf.length + pendingLeases (c.leases.set ch1 (Lease.timedOut j)) ≤ 100
    omega
  | send ch1 =>
    simp only [step] at h
    rcases leaseSend_some c c1 ch1 h with ⟨j, hw, -, -, rfl⟩ | ⟨j, hw, -, -, rfl⟩
    · refine ⟨hcap, hclosed, ?_⟩
      have := pendingLeases_set c.leases ch1 _ Lease.finished hw
      simp only [pendingWeight] at this
      show c.availableJobs.buf.length + pendingLeases (c.leases.set ch1 Lease.finished) ≤ 100
      omega
    · refine ⟨hcap, hclosed, ?_⟩
      have := pendingLeases_set c.leases ch1 _ Lease.finished hw
      simp only [pendingWeight] at this
      show (c.availableJobs.buf ++ [j]).length +
        pendingLeases (c.leases.set ch1 Lease.finished) ≤ 100
      simp only [List.length_append, List.length_singleton]
      omega
  | handleSuccess =>
    simp only [step] at h
    obtain ⟨job, rest, -, rfl⟩ := handleSuccessJobs_some c c1 h
    exact ⟨hcap, hclosed, hsum⟩

/-- In every reachable state the pending queue has room for the jobs that lease
goroutines still hold. -/
theorem reachable_queueInv (c : Coordinator) (h : Reachable c) : QueueInv c := by
  induction h with
  | init files nReduce c hmk => exact queueInv_init files nReduce c hmk
  | next c e c1 _ hstep ih => exact queueInv_step c c1 e ih hstep

theorem pendingLeases_pos (leases : List Lease) (ch : Nat) (l : Lease)
    (h : leases[ch]? = some l) (hw : pendingWeight l = 1) : 0 < pendingLeases leases := by
  have := pendingLeases_set leases ch l Lease.finished h
  have h0 : pendingWeight Lease.finished = 0 := rfl
  rw [hw, h0] at this
  omega

/-- C9, as stated, fails: with 101 input files `MakeCoordinator` does not return; the
first 100 sends fill the pending queue and the send for file 101 never completes. -/
theorem makeCoordinator_blocks_on_101_files :
    MakeCoordinator (List.replicate 101 "pg-1.txt") 10 = none ∧
    (seedJobs 10 (List.replicate 100 "pg-1.txt") (Chan.make 100)).map
      (fun ch => ch.buf.length) = some 100 ∧
    (seedJobs 10 (List.replicate 100 "pg-1.txt") (Chan.make 100)).bind
      (fun ch => ch.send { JobType := JobType.MapJob, FileNames := ["pg-1.txt"], NReduce := 10 })
      = none := by
  decide

/-- C9, as amended: for at most 100 input files (the capacity of the pending queue)
`MakeCoordinator(files, nReduce)` returns with the pending queue holding exactly one Map
job per input file, in input order, each with `FileNames = [that file]` and
`NReduce = nReduce`; and in every state whose pending queue is non-empty, `GetTask`
replies with the job at the head of the queue and the task id, removes that job from
the queue, leaves the rest of the queue unchanged and registers the id as outstanding:
the id now names a goroutine waiting with that job. -/
theorem makeCoordinator_seeds_getTask_pops (files : List String) (nReduce : Nat)
    (hlen : files.length ≤ 100) :
    (∃ c, MakeCoordinator files nReduce = some c ∧
      c.availableJobs.buf = files.map (fun f =>
        { JobType := JobType.MapJob, FileNames := [f], NReduce := nReduce }) ∧
      c.successJobs.buf = [] ∧ c.leases = [] ∧ c.reportChannelByUUID = [] ∧
      Done c = false) ∧
    ∀ (c : Coordinator) (id : String) (job : Job) (rest : List Job),
      c.availableJobs.buf = job :: rest →
      ∃ c1, GetTask c id = some (c1, { Job := job, TaskId := id }) ∧
        c1.availableJobs.buf = rest ∧
        c1.reportChannelByUUID.lookup id = some c.leases.length ∧
        c1.leases[c.leases.length]? = some (Lease.waiting job) ∧
        c1.successJobs = c.successJobs := by
  constructor
  · unfold MakeCoordinator
    rw [seedJobs_eq nReduce files (Chan.make 100) rfl (by simpa [Chan.make] using hlen)]
    simp [Chan.make, Done]
  · intro c id job rest hq
    refine ⟨_, getTask_eq_of_cons c id job rest hq, rfl, ?_, ?_, rfl⟩
    · simp [List.lookup]
    · simp

theorem makeCoordinator_seeds_getTask_pops_witness :
    (["pg-1.txt", "pg-2.txt"] : List String).length ≤ 100 ∧
    ((∃ c, MakeCoordinator ["pg-1.txt", "pg-2.txt"] 3 = some c ∧
      c.availableJobs.buf = (["pg-1.txt", "pg-2.txt"] : List String).map (fun f =>
        { JobType := JobType.MapJob, FileNames := [f], NReduce := 3 }) ∧
      c.successJobs.buf = [] ∧ c.leases = [] ∧ c.reportChannelByUUID = [] ∧
      Done c = false) ∧
    ∀ (c : Coordinator) (id : String) (job : Job) (rest : List Job),
      c.availableJobs.buf = job :: rest →
      ∃ c1, GetTask c id = some (c1, { Job := job, TaskId := id }) ∧
        c1.availableJobs.buf = rest ∧
        c1.reportChannelByUUID.lookup id = some c.leases.length ∧
        c1.leases[c.leases.length]? = some (Lease.waiting job) ∧
        c1.successJobs = c.successJobs) :=
  ⟨by decide, makeCoordinator_seeds_getTask_pops ["pg-1.txt", "pg-2.txt"] 3 (by decide)⟩

/-- C10: let `GetTask` assign the job at the head of the pending queue under task id
`id`, which starts goroutine `ch` waiting with that job.  In any state in which that
goroutine still waits (no report for it was received), its timer can fire, which
changes neither queue.  From then on every other event leaves the goroutine as it
is, a report for its task id is never received (the handler waits for ever), and its
own send, which in a reachable state can always proceed, appends exactly the assigned
job to the pending queue and leaves the success queue unchanged.  After that send the
goroutine is finished for good: it neither sends nor times out again, so the job is
pushed once and nothing is sent to the success queue for this assignment. -/
theorem lease_expiry_requeues_assigned_job (c c1 : Coordinator) (id : String) (job : Job)
    (rest : List Job) (reply : GetTaskReply) (ch : Nat)
    (hq : c.availableJobs.buf = job :: rest) (hget : GetTask c id = some (c1, reply))
    (hch : ch = c.leases.length) :
    reply.Job = job ∧ reply.TaskId = id ∧
    c1.reportChannelByUUID.lookup id = some ch ∧
    c1.leases[ch]? = some (Lease.waiting job) ∧
    (∀ c2, c2.leases[ch]? = some (Lease.waiting job) →
      ∃ c3, step c2 (Event.timer ch) = some c3 ∧
        c3.leases[ch]? = some (Lease.timedOut job) ∧
        c3.availableJobs = c2.availableJobs ∧ c3.successJobs = c2.successJobs) ∧
    (∀ c3, c3.leases[ch]? = some (Lease.timedOut job) →
      (Reachable c3 → ∃ c4, step c3 (Event.send ch) = some c4) ∧
      (∀ c4, step c3 (Event.send ch) = some c4 →
        c4.availableJobs.buf = c3.availableJobs.buf ++ [job] ∧
        c4.successJobs = c3.successJobs ∧ c4.leases[ch]? = some Lease.finished) ∧
      (∀ e c4, e ≠ Event.send ch → step c3 e = some c4 →
        c4.leases[ch]? = some (Lease.timedOut job)) ∧
      (∀ taskId j, c3.reportChannelByUUID.lookup taskId = some ch →
        ReportSuccess c3 taskId j = ReportResult.blocks)) ∧
    (∀ c4, c4.leases[ch]? = some Lease.finished →
      step c4 (Event.send ch) = none ∧ step c4 (Event.timer ch) = none ∧
      (∀ e c5, step c4 e = some c5 → c5.leases[ch]? = some Lease.finished) ∧
      (∀ taskId j, c4.reportChannelByUUID.lookup taskId = some ch →
        ReportSuccess c4 taskId j = ReportResult.blocks)) := by
  subst hch
  rw [getTask_eq_of_cons c id job rest hq] at hget
  simp only [Option.some.injEq, Prod.mk.injEq] at hget
  obtain ⟨rfl, rfl⟩ := hget
  refine ⟨rfl, rfl, by simp [List.lookup], by simp, ?_, ?_, ?_⟩
  · intro c2 hl
    exact ⟨{ c2 with leases := c2.leases.set c.leases.length (Lease.timedOut job) },
      by simp [step, timerFires, hl], getElem?_set_same _ _ _ _ hl, rfl, rfl⟩
  · intro c3 hl
    refine ⟨?_, ?_, ?_, ?_⟩
    · intro hreach
      obtain ⟨hcap, hclosed, hsum⟩ := reachable_queueInv c3 hreach
      have hpos := pendingLeases_pos c3.leases _ _ hl rfl
      have hroom : c3.availableJobs.buf.length < c3.availableJobs.cap := by omega
      exact ⟨{ c3 with
          availableJobs := { c3.availableJobs with buf := c3.availableJobs.buf ++ [job] },
          leases := c3.leases.set c.leases.length Lease.finished },
        by simp [step, leaseSend, hl, Chan.send, hclosed, hroom]⟩
    · intro c4 hstep
      rcases step_lease c3 c4 _ _ _ hstep hl with ⟨-, -, hne⟩ | ⟨j, t, j1, h1, -⟩ |
        ⟨j, h1, -⟩ | ⟨j, h1, -⟩ | ⟨j, h1, -, h2, h3, h4⟩
      · exact absurd rfl hne
      · cases h1
      · cases h1
      · cases h1
      · cases h1
        exact ⟨h3, h4, h2⟩
    · intro e c4 hne hstep
      rcases step_lease c3 c4 _ _ _ hstep hl with ⟨h1, -, -⟩ | ⟨j, t, j1, h1, -⟩ |
        ⟨j, h1, -⟩ | ⟨j, h1, -⟩ | ⟨j, -, h1, -⟩
      · exact h1
      · cases h1
      · cases h1
      · cases h1
      · exact absurd h1 hne
    · intro taskId j hlook
      simp [ReportSuccess, hlook, hl]
  · intro c4 hl
    refine ⟨by simp [step, leaseSend, hl], by simp [step, timerFires, hl], ?_, ?_⟩
    · intro e c5 hstep
      rcases step_lease c4 c5 _ _ _ hstep hl with ⟨h1, -, -⟩ | ⟨j, t, j1, h1, -⟩ |
        ⟨j, h1, -⟩ | ⟨j, h1, -⟩ | ⟨j, h1, -⟩
      · exact h1
      · cases h1
      · cases h1
      · cases h1
      · cases h1
    · intro taskId j hlook
      simp [ReportSuccess, hlook, hl]

theorem lease_expiry_requeues_assigned_job_witness :
    (oneFileCoordinator.availableJobs.buf =
      { JobType := JobType.MapJob, FileNames := ["pg-1.txt"], NReduce := 2 } :: []) ∧
    GetTask oneFileCoordinator "id-1" = some (oneFileAssigned,
      { Job := { JobType := JobType.MapJob, FileNames := ["pg-1.txt"], NReduce := 2 },
        TaskId := "id-1" }) ∧
    0 = oneFileCoordinator.leases.length ∧
    MakeCoordinator ["pg-1.txt"] 2 = some oneFileCoordinator ∧
    ((timerFires oneFileAssigned 0).bind fun c => leaseSend c 0).map
      (fun c => (c.availableJobs.buf, c.successJobs.buf, c.leases)) =
      some ([{ JobType := JobType.MapJob, FileNames := ["pg-1.txt"], NReduce := 2 }], [],
        [Lease.finished]) ∧
    ((⟨{ JobType := JobType.MapJob, FileNames := ["pg-1.txt"], NReduce := 2 }, "id-1"⟩ :
        GetTaskReply).Job =
      { JobType := JobType.MapJob, FileNames := ["pg-1.txt"], NReduce := 2 } ∧
    (⟨{ JobType := JobType.MapJob, FileNames := ["pg-1.txt"], NReduce := 2 }, "id-1"⟩ :
        GetTaskReply).TaskId = "id-1" ∧
    oneFileAssigned.reportChannelByUUID.lookup "id-1" = some 0 ∧
    oneFileAssigned.leases[0]? = some (Lease.waiting
      { JobType := JobType.MapJob, FileNames := ["pg-1.txt"], NReduce := 2 }) ∧
    (∀ c2 : Coordinator, c2.leases[0]? = some (Lease.waiting
        { JobType := JobType.MapJob, FileNames := ["pg-1.txt"], NReduce := 2 }) →
      ∃ c3, step c2 (Event.timer 0) = some c3 ∧
        c3.leases[0]? = some (Lease.timedOut
          { JobType := JobType.MapJob, FileNames := ["pg-1.txt"], NReduce := 2 }) ∧
        c3.availableJobs = c2.availableJobs ∧ c3.successJobs = c2.successJobs) ∧
    (∀ c3 : Coordinator, c3.leases[0]? = some (Lease.timedOut
        { JobType := JobType.MapJob, FileNames := ["pg-1.txt"], NReduce := 2 }) →
      (Reachable c3 → ∃ c4, step c3 (Event.send 0) = some c4) ∧
      (∀ c4, step c3 (Event.send 0) = some c4 →
        c4.availableJobs.buf = c3.availableJobs.buf ++
          [{ JobType := JobType.MapJob, FileNames := ["pg-1.txt"], NReduce := 2 }] ∧
        c4.successJobs = c3.successJobs ∧ c4.leases[0]? = some Lease.finished) ∧
      (∀ e c4, e ≠ Event.send 0 → step c3 e = some c4 →
        c4.leases[0]? = some (Lease.timedOut
          { JobType := JobType.MapJob, FileNames := ["pg-1.txt"], NReduce := 2 })) ∧
      (∀ taskId j, c3.reportChannelByUUID.lookup taskId = some 0 →
        ReportSuccess c3 taskId j = ReportResult.blocks)) ∧
    (∀ c4 : Coordinator, c4.leases[0]? = some Lease.finished →
      step c4 (Event.send 0) = none ∧ step c4 (Event.timer 0) = none ∧
      (∀ e c5, step c4 e = some c5 → c5.leases[0]? = some Lease.finished) ∧
      (∀ taskId j, c4.reportChannelByUUID.lookup taskId = some 0 →
        ReportSuccess c4 taskId j = ReportResult.blocks))) :=
  ⟨by decide, by decide, by decide, by decide, by decide,
    lease_expiry_requeues_assigned_job oneFileCoordinator oneFileAssigned "id-1"
      { JobType := JobType.MapJob, FileNames := ["pg-1.txt"], NReduce := 2 } []
      ⟨{ JobType := JobType.MapJob, FileNames := ["pg-1.txt"], NReduce := 2 }, "id-1"⟩ 0
      (by decide) (by decide) (by decide)⟩

/-! ## The coordinator: reports, completion, waiting -/

theorem run_reachable : ∀ (es : List Event) (c c1 : Coordinator), Reachable c →
    run c es = some c1 → Reachable c1 := by
  intro es
  induction es with
  | nil => intro c c1 h hr; simp only [run, Option.some.injEq] at hr; exact hr ▸ h
  | cons e es ih =>
    intro c c1 h hr
    simp only [run] at hr
    cases hs : step c e with
    | none => rw [hs] at hr; cases hr
    | some c2 =>
      rw [hs] at hr
      exact ih c2 c1 (Reachable.next c e c2 h hs) hr

theorem step_isSuccess (c c1 : Coordinator) (e : Event) (h : step c e = some c1) :
    c1.isSuccess = c.isSuccess := by
  cases e with
  | getTask id =>
    simp only [step, Option.map_eq_some'] at h
    obtain ⟨⟨c2, reply⟩, hg, rfl⟩ := h
    rcases getTask_cases c id c2 reply hg with ⟨-, -, rfl⟩ | ⟨job, rest, -, -, rfl⟩ <;> rfl
  | reportSuccess taskId job =>
    simp only [step] at h
    split at h
    · rename_i c2 hr
      cases h
      obtain ⟨ch1, j, -, -, rfl⟩ := reportSuccess_ack c c1 taskId job hr
      rfl
    · cases h; rfl
  | timer ch1 =>
    simp only [step] at h
    obtain ⟨j, -, rfl⟩ := timerFires_some c c1 ch1 h
    rfl
  | send ch1 =>
    simp only [step] at h
    rcases leaseSend_some c c1 ch1 h with ⟨j, -, -, -, rfl⟩ | ⟨j, -, -, -, rfl⟩ <;> rfl
  | handleSuccess =>
    simp only [step] at h
    obtain ⟨job, rest, -, rfl⟩ := handleSuccessJobs_some c c1 h
    rfl

theorem run_isSuccess : ∀ (es : List Event) (c c1 : Coordinator),
    run c es = some c1 → c1.isSuccess = c.isSuccess := by
  intro es
  induction es with
  | nil => intro c c1 hr; simp only [run, Option.some.injEq] at hr; rw [hr]
  | cons e es ih =>
    intro c c1 hr
    simp only [run] at hr
    cases hs : step c e with
    | none => rw [hs] at hr; cases hr
    | some c2 =>
      rw [hs] at hr
      exact (ih c2 c1 hr).trans (step_isSuccess c c2 e hs)

theorem mapOnlyInv_init (files : List String) (nReduce : Nat) (c : Coordinator)
    (h : MakeCoordinator files nReduce = some c) : MapOnlyInv c := by
  unfold MakeCoordinator at h
  by_cases hlen : files.length ≤ 100
  · rw [seedJobs_eq nReduce files (Chan.make 100) rfl (by simpa [Chan.make] using hlen)] at h
    simp only [Option.map_some', Option.some.injEq] at h
    subst h
    refine ⟨?_, by simp, by simp, rfl⟩
    intro j hj
    simp only [Chan.make, List.nil_append, List.mem_map] at hj
    obtain ⟨f, -, rfl⟩ := hj
    rfl
  · rw [seedJobs_none nReduce files (Chan.make 100) (by simp [Chan.make])
      (by simp [Chan.make]; omega)] at h
    cases h

theorem mem_set_cases {α : Type} (l : List α) (i : Nat) (x y : α) (h : y ∈ l.set i x) :
    y = x ∨ y ∈ l := by
  rcases List.mem_or_eq_of_mem_set h with h1 | h1
  · exact Or.inr h1
  · exact Or.inl h1

theorem mapOnlyInv_step (c c1 : Coordinator) (e : Event) (hinv : MapOnlyInv c)
    (h : step c e = some c1) : MapOnlyInv c1 := by
  obtain ⟨hq, hw, ht, hs⟩ := hinv
  cases e with
  | getTask id =>
    simp only [step, Option.map_eq_some'] at h
    obtain ⟨⟨c2, reply⟩, hg, rfl⟩ := h
    rcases getTask_cases c id c2 reply hg with ⟨-, -, rfl⟩ | ⟨job, rest, hbuf, -, rfl⟩
    · exact ⟨hq, hw, ht, hs⟩
    · have hjob : job.JobType = JobType.MapJob := hq job (by rw [hbuf]; simp)
      refine ⟨?_, ?_, ?_, hs⟩
      · intro j hj
        exact hq j (by rw [hbuf]; exact List.mem_cons_of_mem _ hj)
      · intro j hj
        simp only [List.mem_append, List.mem_singleton] at hj
        rcases hj with hj | hj
        · exact hw j hj
        · cases hj; exact hjob
      · intro j hj
        simp only [List.mem_append, List.mem_singleton] at hj
        rcases hj with hj | hj
        · exact ht j hj
        · cases hj
  | reportSuccess taskId job =>
    simp only [step] at h
    split at h
    · rename_i c2 hr
      cases h
      obtain ⟨ch1, j, -, -, rfl⟩ := reportSuccess_ack c c1 taskId job hr
      refine ⟨hq, ?_, ?_, hs⟩
      · intro j1 hj
        rcases mem_set_cases _ _ _ _ hj with h1 | h1
        · cases h1
        · exact hw j1 h1
      · intro j1 hj
        rcases mem_set_cases _ _ _ _ hj with h1 | h1
        · cases h1
        · exact ht j1 h1
    · cases h
      exact ⟨hq, hw, ht, hs⟩
  | timer ch1 =>
    simp only [step] at h
    obtain ⟨j, hl, rfl⟩ := timerFires_some c c1 ch1 h
    have hj0 : j.JobType = JobType.MapJob := hw j (List.getElem?_mem hl)
    refine ⟨hq, ?_, ?_, hs⟩
    · intro j1 hj
      rcases mem_set_cases _ _ _ _ hj with h1 | h1
      · cases h1
      · exact hw j1 h1
    · intro j1 hj
      rcases mem_set_cases _ _ _ _ hj with h1 | h1
      · cases h1; exact hj0
      · exact ht j1 h1
  | send ch1 =>
    simp only [step] at h
    rcases leaseSend_some c c1 ch1 h with ⟨j, hl, -, -, rfl⟩ | ⟨j, hl, -, -, rfl⟩
    · refine ⟨hq, ?_, ?_, hs⟩
      · intro j1 hj
        rcases mem_set_cases _ _ _ _ hj with h1 | h1
        · cases h1
        · exact hw j1 h1
      · intro j1 hj
        rcases mem_set_cases _ _ _ _ hj with h1 | h1
        · cases h1
        · exact ht j1 h1
    · have hj0 : j.JobType = JobType.MapJob := ht j (List.getElem?_mem hl)
      refine ⟨?_, ?_, ?_, hs⟩
      · intro j1 hj
        simp only [List.mem_append, List.mem_singleton] at hj
        rcases hj with hj | hj
        · exact hq j1 hj
        · rw [hj]; exact hj0
      · intro j1 hj
        rcases mem_set_cases _ _ _ _ hj with h1 | h1
        · cases h1
        · exact hw j1 h1
      · intro j1 hj
        rcases mem_set_cases _ _ _ _ hj with h1 | h1
        · cases h1
        · exact ht j1 h1
  | handleSuccess =>
    simp only [step] at h
    obtain ⟨job, rest, -, rfl⟩ := handleSuccessJobs_some c c1 h
    exact ⟨hq, hw, ht, hs⟩

/-- In every reachable state the pending queue holds Map jobs only and `Done` is
false. -/
theorem reachable_mapOnlyInv (c : Coordinator) (h : Reachable c) : MapOnlyInv c := by
  induction h with
  | init files nReduce c hmk => exact mapOnlyInv_init files nReduce c hmk
  | next c e c1 _ hstep ih => exact mapOnlyInv_step c c1 e ih hstep

theorem step_lookup_of_ne (c c1 : Coordinator) (e : Event) (taskId : String)
    (h : step c e = some c1) (hne : e ≠ Event.getTask taskId) :
    c1.reportChannelByUUID.lookup taskId = c.reportChannelByUUID.lookup taskId := by
  cases e with
  | getTask id =>
    simp only [step, Option.map_eq_some'] at h
    obtain ⟨⟨c2, reply⟩, hg, rfl⟩ := h
    rcases getTask_cases c id c2 reply hg with ⟨-, -, rfl⟩ | ⟨job, rest, -, -, rfl⟩
    · rfl
    · have hid : (taskId == id) = false := by
        rw [beq_eq_false_iff_ne]
        intro heq
        exact hne (by rw [heq])
      simp [List.lookup, hid]
  | reportSuccess taskId1 job =>
    simp only [step] at h
    split at h
    · rename_i c2 hr
      cases h
      obtain ⟨ch1, j, -, -, rfl⟩ := reportSuccess_ack c c1 taskId1 job hr
      rfl
    · cases h; rfl
  | timer ch1 =>
    simp only [step] at h
    obtain ⟨j, -, rfl⟩ := timerFires_some c c1 ch1 h
    rfl
  | send ch1 =>
    simp only [step] at h
    rcases leaseSend_some c c1 ch1 h with ⟨j, -, -, -, rfl⟩ | ⟨j, -, -, -, rfl⟩ <;> rfl
  | handleSuccess =>
    simp only [step] at h
    obtain ⟨job, rest, -, rfl⟩ := handleSuccessJobs_some c c1 h
    rfl

theorem run_lookup_of_never_issued (taskId : String) : ∀ (es : List Event) (c c1 : Coordinator),
    run c es = some c1 → Event.getTask taskId ∉ es →
    c1.reportChannelByUUID.lookup taskId = c.reportChannelByUUID.lookup taskId := by
  intro es
  induction es with
  | nil => intro c c1 hr _; simp only [run, Option.some.injEq] at hr; rw [hr]
  | cons e es ih =>
    intro c c1 hr hn
    simp only [List.mem_cons, not_or] at hn
    simp only [run] at hr
    cases hs : step c e with
    | none => rw [hs] at hr; cases hr
    | some c2 =>
      rw [hs] at hr
      rw [ih c2 c1 hr hn.2]
      exact step_lookup_of_ne c c2 e taskId hs (fun he => hn.1 he.symm)

theorem makeCoordinator_table_empty (files : List String) (nReduce : Nat) (c : Coordinator)
    (h : MakeCoordinator files nReduce = some c) : c.reportChannelByUUID = [] := by
  unfold MakeCoordinator at h
  cases hs : seedJobs nReduce files (Chan.make 100) with
  | none => rw [hs] at h; cases h
  | some avail =>
    rw [hs] at h
    simp only [Option.map_some', Option.some.injEq] at h
    rw [← h]

/-- An id stays in the table of report channels once it is there: no step of the
coordinator removes an entry. -/
theorem step_lookup_isSome (c c1 : Coordinator) (e : Event) (taskId : String)
    (h : step c e = some c1) (hk : c.reportChannelByUUID.lookup taskId ≠ none) :
    c1.reportChannelByUUID.lookup taskId ≠ none := by
  by_cases he : e = Event.getTask taskId
  · subst he
    simp only [step, Option.map_eq_some'] at h
    obtain ⟨⟨c2, reply⟩, hg, rfl⟩ := h
    rcases getTask_cases c taskId c2 reply hg with ⟨-, -, rfl⟩ | ⟨job, rest, -, -, rfl⟩
    · exact hk
    · simp [List.lookup]
  · rw [step_lookup_of_ne c c1 e taskId h he]
    exact hk

/-- C11: in a state reached from `MakeCoordinator` by a run in which `GetTask` never
issued the task id, `ReportSuccess` with that id returns the error
`cannot read given uuid`, and the coordinator state (pending queue, success queue,
table of report channels, lease goroutines, completion flag) is the same after the
call as before. -/
theorem reportSuccess_unknown_id_rejected (files : List String) (nReduce : Nat)
    (c0 c : Coordinator) (es : List Event) (taskId : String) (job : Job)
    (hmk : MakeCoordinator files nReduce = some c0) (hrun : run c0 es = some c)
    (hnever : Event.getTask taskId ∉ es) :
    c.reportChannelByUUID.lookup taskId = none ∧
    ReportSuccess c taskId job = ReportResult.error "cannot read given uuid" ∧
    step c (Event.reportSuccess taskId job) = some c := by
  have hlook : c.reportChannelByUUID.lookup taskId = none := by
    rw [run_lookup_of_never_issued taskId es c0 c hrun hnever,
      makeCoordinator_table_empty files nReduce c0 hmk]
    rfl
  refine ⟨hlook, ?_, ?_⟩
  · simp [ReportSuccess, hlook]
  · simp [step, ReportSuccess, hlook]

theorem reportSuccess_unknown_id_rejected_witness :
    MakeCoordinator ["pg-1.txt"] 2 = some oneFileCoordinator ∧
    run oneFileCoordinator [Event.getTask "id-1"] = some oneFileAssigned ∧
    Event.getTask "id-9" ∉ [Event.getTask "id-1"] ∧
    oneFileAssigned.reportChannelByUUID.lookup "id-9" = none ∧
    ReportSuccess oneFileAssigned "id-9"
        { JobType := JobType.MapJob, FileNames := ["pg-1.txt"], NReduce := 2 } =
      ReportResult.error "cannot read given uuid" ∧
    step oneFileAssigned (Event.reportSuccess "id-9"
        { JobType := JobType.MapJob, FileNames := ["pg-1.txt"], NReduce := 2 }) =
      some oneFileAssigned :=
  ⟨by decide, by decide, by decide,
    reportSuccess_unknown_id_rejected ["pg-1.txt"] 2 oneFileCoordinator oneFileAssigned
      [Event.getTask "id-1"] "id-9"
      { JobType := JobType.MapJob, FileNames := ["pg-1.txt"], NReduce := 2 }
      (by decide) (by decide) (by decide)⟩

/-- An issued task id is never rejected: whatever happens later, `ReportSuccess` with
an id that is in the table does not return an error. -/
theorem reportSuccess_known_id_no_error (c : Coordinator) (taskId : String) (job : Job)
    (hk : c.reportChannelByUUID.lookup taskId ≠ none) (msg : String) :
    ReportSuccess c taskId job ≠ ReportResult.error msg := by
  unfold ReportSuccess
  cases hl : c.reportChannelByUUID.lookup taskId with
  | none => exact absurd hl hk
  | some ch =>
    simp only
    split <;> simp

/-- C12 fails on the code: the table of report channels is never deleted from.  After
`GetTask` has issued `id-1`, a first report is received and a second report with the
same id is not rejected: the handler finds the channel and waits for ever at its send.
The same happens to a report that arrives after the lease timer has requeued the job.
In both runs the id is still in the table. -/
theorem reportSuccess_resolved_id_not_rejected :
    (run oneFileCoordinator [Event.getTask "id-1", Event.reportSuccess "id-1"
        { JobType := JobType.MapJob, FileNames := ["pg-1.txt"], NReduce := 2 }]).map
      (fun c => (c.leases, c.reportChannelByUUID.lookup "id-1", ReportSuccess c "id-1"
        { JobType := JobType.MapJob, FileNames := ["pg-1.txt"], NReduce := 2 })) =
      some ([Lease.reported
          { JobType := JobType.MapJob, FileNames := ["pg-1.txt"], NReduce := 2 }],
        some 0, ReportResult.blocks) ∧
    (run oneFileCoordinator [Event.getTask "id-1", Event.timer 0, Event.send 0]).map
      (fun c => (c.availableJobs.buf, c.leases, c.reportChannelByUUID.lookup "id-1",
        ReportSuccess c "id-1"
          { JobType := JobType.MapJob, FileNames := ["pg-1.txt"], NReduce := 2 })) =
      some ([{ JobType := JobType.MapJob, FileNames := ["pg-1.txt"], NReduce := 2 }],
        [Lease.finished], some 0, ReportResult.blocks) := by
  decide

/-- C13 fails on the code: with one input file and two reduce shards, after the only
Map job was assigned, reported, and its report processed by `handleSuccessJobs`, the
pending queue is empty: no Reduce job was created. -/
theorem no_reduce_jobs_after_all_map_reports :
    MakeCoordinator ["pg-1.txt"] 2 = some oneFileCoordinator ∧
    processedReports oneFileCoordinator [Event.getTask "id-1", Event.reportSuccess "id-1"
        { JobType := JobType.MapJob, FileNames := ["pg-1.txt"], NReduce := 2 },
        Event.send 0, Event.handleSuccess] =
      [{ JobType := JobType.MapJob, FileNames := ["pg-1.txt"], NReduce := 2 }] ∧
    (run oneFileCoordinator [Event.getTask "id-1", Event.reportSuccess "id-1"
        { JobType := JobType.MapJob, FileNames := ["pg-1.txt"], NReduce := 2 },
        Event.send 0, Event.handleSuccess]).map
      (fun c => (c.availableJobs.buf, c.successJobs.buf, c.addReduce)) =
      some ([], [], false) := by
  decide

/-- C14 fails on the code: with two reduce shards, after two success reports carrying
the two Reduce jobs were received and processed by `handleSuccessJobs`, `Done()` is
still false and a later `GetTask` waits at the empty pending queue without a reply. -/
theorem not_done_after_all_reduce_reports :
    MakeCoordinator ["pg-1.txt", "pg-2.txt"] 2 = some twoFileCoordinator ∧
    processedReports twoFileCoordinator [Event.getTask "id-1", Event.getTask "id-2",
        Event.reportSuccess "id-1"
          { JobType := JobType.ReduceJob, FileNames := ["mr-1.txt-0", "mr-2.txt-0"],
            NReduce := 2 },
        Event.reportSuccess "id-2"
          { JobType := JobType.ReduceJob, FileNames := ["mr-1.txt-1", "mr-2.txt-1"],
            NReduce := 2 },
        Event.send 0, Event.send 1, Event.handleSuccess, Event.handleSuccess] =
      [{ JobType := JobType.ReduceJob, FileNames := ["mr-1.txt-0", "mr-2.txt-0"],
         NReduce := 2 },
       { JobType := JobType.ReduceJob, FileNames := ["mr-1.txt-1", "mr-2.txt-1"],
         NReduce := 2 }] ∧
    (run twoFileCoordinator [Event.getTask "id-1", Event.getTask "id-2",
        Event.reportSuccess "id-1"
          { JobType := JobType.ReduceJob, FileNames := ["mr-1.txt-0", "mr-2.txt-0"],
            NReduce := 2 },
        Event.reportSuccess "id-2"
          { JobType := JobType.ReduceJob, FileNames := ["mr-1.txt-1", "mr-2.txt-1"],
            NReduce := 2 },
        Event.send 0, Event.send 1, Event.handleSuccess, Event.handleSuccess]).map
      (fun c => (Done c, c.availableJobs.closed, (GetTask c "id-3").isNone)) =
      some (false, false, true) := by
  decide

/-- C15, as stated, fails: after `GetTask` has assigned the only job the pending queue
is empty and the job is not done, and the next `GetTask` gives no reply: the handler
waits at its receive. -/
theorem getTask_blocks_on_empty_queue :
    run oneFileCoordinator [Event.getTask "id-1"] = some oneFileAssigned ∧
    oneFileAssigned.availableJobs.buf = [] ∧ Done oneFileAssigned = false ∧
    GetTask oneFileAssigned "id-2" = none := by
  decide

/-- C15, as amended: in a reachable state whose pending queue is empty the job is not
done and `GetTask` does not return: the handler waits at its receive from the queue,
whose channel is open.  It returns, with the job at the head, in the states whose
queue holds a job, and it replies with a job of type `NoJob` only in a state whose
queue is empty and whose channel is closed. -/
theorem getTask_waits_on_empty_queue (c : Coordinator) (id : String)
    (hreach : Reachable c) (hempty : c.availableJobs.buf = []) :
    Done c = false ∧ c.availableJobs.closed = false ∧
    GetTask c id = none ∧ step c (Event.getTask id) = none ∧
    (∀ (c1 : Coordinator) (job : Job) (rest : List Job), c1.availableJobs.buf = job :: rest →
      (GetTask c1 id).map (fun r => r.2) = some { Job := job, TaskId := id }) ∧
    (∀ c1 : Coordinator, c1.availableJobs.buf = [] → c1.availableJobs.closed = true →
      GetTask c1 id = some (c1,
        { Job := { JobType := JobType.NoJob, FileNames := [], NReduce := c1.nReduce },
          TaskId := "" })) := by
  obtain ⟨-, hclosed, -⟩ := reachable_queueInv c hreach
  obtain ⟨-, -, -, hdone⟩ := reachable_mapOnlyInv c hreach
  have hget : GetTask c id = none := by simp [GetTask, Chan.recv, hempty, hclosed]
  refine ⟨hdone, hclosed, hget, by simp [step, hget], ?_, ?_⟩
  · intro c1 job rest hq
    rw [getTask_eq_of_cons c1 id job rest hq]
    rfl
  · intro c1 hq hcl
    simp [GetTask, Chan.recv, hq, hcl]

theorem reachable_oneFileAssigned : Reachable oneFileAssigned :=
  Reachable.next oneFileCoordinator (Event.getTask "id-1") oneFileAssigned
    (Reachable.init ["pg-1.txt"] 2 oneFileCoordinator (by decide)) (by decide)

theorem getTask_waits_on_empty_queue_witness :
    oneFileAssigned.availableJobs.buf = [] ∧
    (Done oneFileAssigned = false ∧ oneFileAssigned.availableJobs.closed = false ∧
    GetTask oneFileAssigned "id-2" = none ∧
    step oneFileAssigned (Event.getTask "id-2") = none ∧
    (∀ (c1 : Coordinator) (job : Job) (rest : List Job), c1.availableJobs.buf = job :: rest →
      (GetTask c1 "id-2").map (fun r => r.2) = some { Job := job, TaskId := "id-2" }) ∧
    (∀ c1 : Coordinator, c1.availableJobs.buf = [] → c1.availableJobs.closed = true →
      GetTask c1 "id-2" = some (c1,
        { Job := { JobType := JobType.NoJob, FileNames := [], NReduce := c1.nReduce },
          TaskId := "" }))) :=
  ⟨by decide, getTask_waits_on_empty_queue oneFileAssigned "id-2" reachable_oneFileAssigned
    (by decide)⟩

/-- No event hands the pending queue a job from outside: a property of the jobs that
are queued or held by a waiting or timed-out lease goroutine still holds of these jobs
after the event. -/
theorem heldForQueue_step (P : Job → Prop) (c c1 : Coordinator) (e : Event)
    (hinv : ∀ j, heldForQueue c j → P j) (h : step c e = some c1) :
    ∀ j, heldForQueue c1 j → P j := by
  have hq : ∀ j ∈ c.availableJobs.buf, P j := fun j hj => hinv j (Or.inl hj)
  have hw : ∀ j, Lease.waiting j ∈ c.leases → P j := fun j hj => hinv j (Or.inr (Or.inl hj))
  have ht : ∀ j, Lease.timedOut j ∈ c.leases → P j := fun j hj => hinv j (Or.inr (Or.inr hj))
  suffices hall : (∀ j ∈ c1.availableJobs.buf, P j) ∧
      (∀ j, Lease.waiting j ∈ c1.leases → P j) ∧ (∀ j, Lease.timedOut j ∈ c1.leases → P j) by
    intro j hj
    rcases hj with hj | hj | hj
    · exact hall.1 j hj
    · exact hall.2.1 j hj
    · exact hall.2.2 j hj
  cases e with
  | getTask id =>
    simp only [step, Option.map_eq_some'] at h
    obtain ⟨⟨c2, reply⟩, hg, rfl⟩ := h
    rcases getTask_cases c id c2 reply hg with ⟨-, -, rfl⟩ | ⟨job, rest, hbuf, -, rfl⟩
    · exact ⟨hq, hw, ht⟩
    · have hjob : P job := hq job (by rw [hbuf]; simp)
      refine ⟨?_, ?_, ?_⟩
      · intro j hj
        exact hq j (by rw [hbuf]; exact List.mem_cons_of_mem _ hj)
      · intro j hj
        simp only [List.mem_append, List.mem_singleton] at hj
        rcases hj with hj | hj
        · exact hw j hj
        · cases hj; exact hjob
      · intro j hj
        simp only [List.mem_append, List.mem_singleton] at hj
        rcases hj with hj | hj
        · exact ht j hj
        · cases hj
  | reportSuccess taskId job =>
    simp only [step] at h
    split at h
    · rename_i c2 hr
      cases h
      obtain ⟨ch1, j, -, -, rfl⟩ := reportSuccess_ack c c1 taskId job hr
      refine ⟨hq, ?_, ?_⟩
      · intro j1 hj
        rcases mem_set_cases _ _ _ _ hj with h1 | h1
        · cases h1
        · exact hw j1 h1
      · intro j1 hj
        rcases mem_set_cases _ _ _ _ hj with h1 | h1
        · cases h1
        · exact ht j1 h1
    · cases h
      exact ⟨hq, hw, ht⟩
  | timer ch1 =>
    simp only [step] at h
    obtain ⟨j, hl, rfl⟩ := timerFires_some c c1 ch1 h
    have hj0 : P j := hw j (List.getElem?_mem hl)
    refine ⟨hq, ?_, ?_⟩
    · intro j1 hj
      rcases mem_set_cases _ _ _ _ hj with h1 | h1
      · cases h1
      · exact hw j1 h1
    · intro j1 hj
      rcases mem_set_cases _ _ _ _ hj with h1 | h1
      · cases h1; exact hj0
      · exact ht j1 h1
  | send ch1 =>
    simp only [step] at h
    rcases leaseSend_some c c1 ch1 h with ⟨j, hl, -, -, rfl⟩ | ⟨j, hl, -, -, rfl⟩
    · refine ⟨hq, ?_, ?_⟩
      · intro j1 hj
        rcases mem_set_cases _ _ _ _ hj with h1 | h1
        · cases h1
        · exact hw j1 h1
      · intro j1 hj
        rcases mem_set_cases _ _ _ _ hj with h1 | h1
        · cases h1
        · exact ht j1 h1
    · have hj0 : P j := ht j (List.getElem?_mem hl)
      refine ⟨?_, ?_, ?_⟩
      · intro j1 hj
        simp only [List.mem_append, List.mem_singleton] at hj
        rcases hj with hj | hj
        · exact hq j1 hj
        · rw [hj]; exact hj0
      · intro j1 hj
        rcases mem_set_cases _ _ _ _ hj with h1 | h1
        · cases h1
        · exact hw j1 h1
      · intro j1 hj
        rcases mem_set_cases _ _ _ _ hj with h1 | h1
        · cases h1
        · exact ht j1 h1
  | handleSuccess =>
    simp only [step] at h
    obtain ⟨job, rest, -, rfl⟩ := handleSuccessJobs_some c c1 h
    exact ⟨hq, hw, ht⟩

/-- Along a run, every job that is queued or held for the queue at the end was queued or
held for the queue at the start. -/
theorem heldForQueue_run : ∀ (es : List Event) (c0 c : Coordinator), run c0 es = some c →
    ∀ j, heldForQueue c j → heldForQueue c0 j := by
  intro es
  induction es with
  | nil => intro c0 c hr j hj; simp only [run, Option.some.injEq] at hr; rw [hr]; exact hj
  | cons e es ih =>
    intro c0 c hr j hj
    simp only [run] at hr
    cases hs : step c0 e with
    | none => rw [hs] at hr; cases hr
    | some c2 =>
      rw [hs] at hr
      exact heldForQueue_step (heldForQueue c0) c0 c2 e (fun _ h => h) hs j (ih c2 c hr j hj)

/-- C16: along every run of `GetTask`, `ReportSuccess`, lease-timer, lease-send and
success-handling events, from any state, no job enters the pending queue that was not
queued or held for the queue at the start, and `Done()` keeps its value, so once true it
stays true.  Hence in a run from a state that `MakeCoordinator` returns, where only Map
jobs are queued and `Done()` is false, a Reduce job is in the pending queue only if every
Map job has a processed success report, and `Done()` is true only if the Reduce job of
every shard has a processed success report: the queue holds Map jobs only and `Done()`
is false. -/
theorem phase_safety (c0 c : Coordinator) (es : List Event) (hrun : run c0 es = some c) :
    (∀ j ∈ c.availableJobs.buf, heldForQueue c0 j) ∧
    Done c = Done c0 ∧
    (∀ (es2 : List Event) (c2 : Coordinator), run c es2 = some c2 →
      Done c = true → Done c2 = true) ∧
    (∀ (files : List String) (nReduce : Nat), MakeCoordinator files nReduce = some c0 →
      (∀ j ∈ c.availableJobs.buf, j.JobType = JobType.ReduceJob →
        ∀ f ∈ files,
          ({ JobType := JobType.MapJob, FileNames := [f], NReduce := nReduce } : Job)
            ∈ processedReports c0 es) ∧
      (Done c = true →
        ∀ i, i < nReduce → reduceJobOf files nReduce i ∈ processedReports c0 es) ∧
      (∀ j ∈ c.availableJobs.buf, j.JobType = JobType.MapJob) ∧
      Done c = false) := by
  have hheld : ∀ j ∈ c.availableJobs.buf, heldForQueue c0 j :=
    fun j hj => heldForQueue_run es c0 c hrun j (Or.inl hj)
  have hdone : Done c = Done c0 := run_isSuccess es c0 c hrun
  refine ⟨hheld, hdone, ?_, ?_⟩
  · intro es2 c2 hr2 hd
    unfold Done at hd ⊢
    rw [run_isSuccess es2 c c2 hr2]
    exact hd
  · intro files nReduce hmk
    obtain ⟨hq0, hw0, ht0, hs0⟩ := mapOnlyInv_init files nReduce c0 hmk
    have hmap : ∀ j ∈ c.availableJobs.buf, j.JobType = JobType.MapJob := by
      intro j hj
      rcases hheld j hj with h | h | h
      · exact hq0 j h
      · exact hw0 j h
      · exact ht0 j h
    have hfalse : Done c = false := by
      rw [hdone]
      exact hs0
    refine ⟨?_, ?_, hmap, hfalse⟩
    · intro j hj hred
      have := hmap j hj
      rw [hred] at this
      cases this
    · intro hd
      rw [hfalse] at hd
      cases hd

theorem phase_safety_witness :
    (run doneCoordinator [Event.getTask "id-1", Event.timer 0, Event.send 0] =
        some doneRequeued ∧
      Done doneCoordinator = true ∧
      doneRequeued.availableJobs.buf = [reduceJobOf ["pg-1.txt"] 2 0] ∧
      (∀ j ∈ doneRequeued.availableJobs.buf, heldForQueue doneCoordinator j) ∧
      Done doneRequeued = Done doneCoordinator ∧
      (∀ (es2 : List Event) (c2 : Coordinator), run doneRequeued es2 = some c2 →
        Done doneRequeued = true → Done c2 = true)) ∧
    (MakeCoordinator ["pg-1.txt", "pg-2.txt"] 2 = some twoFileCoordinator ∧
      run twoFileCoordinator [Event.getTask "id-1", Event.getTask "id-2",
        Event.reportSuccess "id-1" (reduceJobOf ["pg-1.txt", "pg-2.txt"] 2 0),
        Event.reportSuccess "id-2" (reduceJobOf ["pg-1.txt", "pg-2.txt"] 2 1),
        Event.send 0, Event.send 1, Event.handleSuccess, Event.handleSuccess] =
        some twoFileReported ∧
      (∀ i, i < 2 → reduceJobOf ["pg-1.txt", "pg-2.txt"] 2 i ∈
        processedReports twoFileCoordinator [Event.getTask "id-1", Event.getTask "id-2",
          Event.reportSuccess "id-1" (reduceJobOf ["pg-1.txt", "pg-2.txt"] 2 0),
          Event.reportSuccess "id-2" (reduceJobOf ["pg-1.txt", "pg-2.txt"] 2 1),
          Event.send 0, Event.send 1, Event.handleSuccess, Event.handleSuccess]) ∧
      (∀ j ∈ twoFileReported.availableJobs.buf, j.JobType = JobType.ReduceJob →
        ∀ f ∈ ["pg-1.txt", "pg-2.txt"],
          ({ JobType := JobType.MapJob, FileNames := [f], NReduce := 2 } : Job) ∈
            processedReports twoFileCoordinator [Event.getTask "id-1", Event.getTask "id-2",
              Event.reportSuccess "id-1" (reduceJobOf ["pg-1.txt", "pg-2.txt"] 2 0),
              Event.reportSuccess "id-2" (reduceJobOf ["pg-1.txt", "pg-2.txt"] 2 1),
              Event.send 0, Event.send 1, Event.handleSuccess, Event.handleSuccess]) ∧
      (Done twoFileReported = true →
        ∀ i, i < 2 → reduceJobOf ["pg-1.txt", "pg-2.txt"] 2 i ∈
          processedReports twoFileCoordinator [Event.getTask "id-1", Event.getTask "id-2",
            Event.reportSuccess "id-1" (reduceJobOf ["pg-1.txt", "pg-2.txt"] 2 0),
            Event.reportSuccess "id-2" (reduceJobOf ["pg-1.txt", "pg-2.txt"] 2 1),
            Event.send 0, Event.send 1, Event.handleSuccess, Event.handleSuccess]) ∧
      (∀ j ∈ twoFileReported.availableJobs.buf, j.JobType = JobType.MapJob) ∧
      Done twoFileReported = false) :=
  ⟨⟨by decide, by decide, by decide,
      (phase_safety doneCoordinator doneRequeued
        [Event.getTask "id-1", Event.timer 0, Event.send 0] (by decide)).1,
      (phase_safety doneCoordinator doneRequeued
        [Event.getTask "id-1", Event.timer 0, Event.send 0] (by decide)).2.1,
      (phase_safety doneCoordinator doneRequeued
        [Event.getTask "id-1", Event.timer 0, Event.send 0] (by decide)).2.2.1⟩,
    by decide, by decide, by decide,
    (phase_safety twoFileCoordinator twoFileReported
      [Event.getTask "id-1", Event.getTask "id-2",
        Event.reportSuccess "id-1" (reduceJobOf ["pg-1.txt", "pg-2.txt"] 2 0),
        Event.reportSuccess "id-2" (reduceJobOf ["pg-1.txt", "pg-2.txt"] 2 1),
        Event.send 0, Event.send 1, Event.handleSuccess, Event.handleSuccess]
      (by decide)).2.2.2 ["pg-1.txt", "pg-2.txt"] 2 (by decide)⟩

/-! ## File names -/

theorem splitOn_fields_no_sep (sep : Char) : ∀ (l cur : List Char), sep ∉ cur →
    ∀ t ∈ splitOn sep cur l, sep ∉ t := by
  intro l
  induction l with
  | nil =>
    intro cur hc t ht
    simp only [splitOn, List.mem_singleton] at ht
    rw [ht]; exact hc
  | cons c l ih =>
    intro cur hc t ht
    rw [splitOn] at ht
    split at ht
    · simp only [List.mem_cons] at ht
      rcases ht with rfl | ht
      · exact hc
      · exact ih [] (by simp) t ht
    · rename_i hne
      refine ih (cur ++ [c]) ?_ t ht
      simp only [List.mem_append, List.mem_singleton, not_or]
      exact ⟨hc, fun h => hne h.symm⟩

theorem digitChar_ne_dash (d : Nat) (hd : d < 10) : Nat.digitChar d ≠ '-' := by
  interval_cases d <;> decide

theorem toDigitsCore_no_dash : ∀ (fuel n : Nat) (ds : List Char), '-' ∉ ds →
    '-' ∉ Nat.toDigitsCore 10 fuel n ds := by
  intro fuel
  induction fuel with
  | zero => intro n ds h; simpa [Nat.toDigitsCore] using h
  | succ fuel ih =>
    intro n ds h
    have hd : '-' ∉ Nat.digitChar (n % 10) :: ds := by
      simp only [List.mem_cons, not_or]
      exact ⟨fun e => digitChar_ne_dash (n % 10) (Nat.mod_lt _ (by norm_num)) e.symm, h⟩
    rw [Nat.toDigitsCore]
    split
    · exact hd
    · exact ih _ _ hd

theorem itoa_no_dash (i : Nat) : '-' ∉ (Itoa i).data := by
  show '-' ∉ (Nat.toDigits 10 i).asString.data
  exact toDigitsCore_no_dash _ _ [] (by simp)

theorem mapOutputName_eq (fileName : String) (i : Nat) (t : String)
    (h : secondField fileName = some t) :
    mapOutputName fileName i = some ("mr-" ++ t ++ "-" ++ Itoa i) ∧ '-' ∉ t.data := by
  unfold secondField at h
  unfold mapOutputName
  have hall := splitOn_fields_no_sep '-' fileName.data [] (by simp)
  cases hs : splitOn '-' [] fileName.data with
  | nil => rw [hs] at h; cases h
  | cons a rest =>
    cases rest with
    | nil => rw [hs] at h; cases h
    | cons b rest =>
      rw [hs] at h hall
      simp only [Option.some.injEq] at h
      subst h
      exact ⟨rfl, hall b (by simp)⟩

theorem split_mapOutputName (t : List Char) (d : List Char) (ht : '-' ∉ t) (hd : '-' ∉ d) :
    splitOn '-' [] (("mr-" : String).data ++ t ++ ("-" : String).data ++ d) =
      [['m', 'r'], t, d] := by
  have e : ("mr-" : String).data ++ t ++ ("-" : String).data ++ d =
      ['m', 'r'] ++ '-' :: (t ++ '-' :: d) := by
    simp
  rw [e, splitOn_piece '-' ['m', 'r'] [] _ (by decide), splitOn_piece '-' t [] d ht,
    splitOn_no_sep '-' d [] hd]
  simp

theorem reduceOutputName_mapOutputName (t : String) (i : Nat) (ht : '-' ∉ t.data) :
    reduceOutputName ("mr-" ++ t ++ "-" ++ Itoa i) = some ("mr-out-" ++ Itoa i) := by
  unfold reduceOutputName
  have e : ("mr-" ++ t ++ "-" ++ Itoa i).data =
      ("mr-" : String).data ++ t.data ++ ("-" : String).data ++ (Itoa i).data := by
    simp [String.data_append]
  rw [e, split_mapOutputName t.data (Itoa i).data ht (itoa_no_dash i)]

theorem mapOutputName_injective_on_field (t1 t2 : String) (i : Nat)
    (h : "mr-" ++ t1 ++ "-" ++ Itoa i = "mr-" ++ t2 ++ "-" ++ Itoa i) : t1 = t2 := by
  have hd := congrArg String.data h
  simp only [String.data_append, List.append_assoc] at hd
  have h1 := List.append_cancel_left hd
  have h2 : t1.data ++ (("-" : String).data ++ (Itoa i).data) =
      t2.data ++ (("-" : String).data ++ (Itoa i).data) := h1
  exact String.ext (List.append_cancel_right h2)

/-- C17, as stated, fails: the distinct input names `pg-a-1.txt` and `pg-a-2.txt` have the
same second field `a`, so `doMap` renames bucket 0 of both map tasks to `mr-a-0`; and for
an input name without `-` there is no second field and `doMap` panics. -/
theorem map_output_names_collide :
    ("pg-a-1.txt" : String) ≠ "pg-a-2.txt" ∧
    mapOutputName "pg-a-1.txt" 0 = some "mr-a-0" ∧
    mapOutputName "pg-a-2.txt" 0 = some "mr-a-0" ∧
    mapOutputName "input.txt" 0 = none := by
  decide

/-- C17, as amended: for every two map input file names whose second `-`-separated
fields exist and differ, and every bucket index `i`, `doMap` renames the bucket files to
different stable names `"mr-" + field + "-" + i`; and for each partition name so
produced, the output name of `doReduce`, `"mr-out-"` followed by the third
`-`-separated field of the partition name, is `"mr-out-"` followed by that index `i`. -/
theorem partition_file_naming (name1 name2 t1 t2 : String) (i : Nat)
    (h1 : secondField name1 = some t1) (h2 : secondField name2 = some t2) (hne : t1 ≠ t2) :
    ∃ p1 p2, mapOutputName name1 i = some p1 ∧ mapOutputName name2 i = some p2 ∧
      p1 = "mr-" ++ t1 ++ "-" ++ Itoa i ∧ p2 = "mr-" ++ t2 ++ "-" ++ Itoa i ∧ p1 ≠ p2 ∧
      reduceOutputName p1 = some ("mr-out-" ++ Itoa i) ∧
      reduceOutputName p2 = some ("mr-out-" ++ Itoa i) := by
  obtain ⟨e1, d1⟩ := mapOutputName_eq name1 i t1 h1
  obtain ⟨e2, d2⟩ := mapOutputName_eq name2 i t2 h2
  refine ⟨_, _, e1, e2, rfl, rfl, ?_, reduceOutputName_mapOutputName t1 i d1,
    reduceOutputName_mapOutputName t2 i d2⟩
  intro heq
  exact hne (mapOutputName_injective_on_field t1 t2 i heq)

theorem partition_file_naming_witness :
    secondField "pg-being_ernest.txt" = some "being_ernest.txt" ∧
    secondField "pg-grimm.txt" = some "grimm.txt" ∧
    ("being_ernest.txt" : String) ≠ "grimm.txt" ∧
    ∃ p1 p2, mapOutputName "pg-being_ernest.txt" 3 = some p1 ∧
      mapOutputName "pg-grimm.txt" 3 = some p2 ∧
      p1 = "mr-" ++ "being_ernest.txt" ++ "-" ++ Itoa 3 ∧
      p2 = "mr-" ++ "grimm.txt" ++ "-" ++ Itoa 3 ∧ p1 ≠ p2 ∧
      reduceOutputName p1 = some ("mr-out-" ++ Itoa 3) ∧
      reduceOutputName p2 = some ("mr-out-" ++ Itoa 3) :=
  ⟨by decide, by decide, by decide,
    partition_file_naming "pg-being_ernest.txt" "pg-grimm.txt" "being_ernest.txt" "grimm.txt" 3
      (by decide) (by decide) (by decide)⟩

/-! ## The worker loop -/

/-- C18: on a Reduce job the dispatch of `Worker` reads `FileNames[0]`, `FileNames[1]` and
`FileNames[2]` before it calls `doReduce`: with at least three input files it reaches
the call of `doReduce` on that job and task id, and with fewer than three it faults,
whatever `doReduce` would do, so the reduce is not run and no success is reported. -/
theorem worker_reduce_dispatch {α β : Type} (runMap : Job → String → α)
    (runReduce : Job → String → β) (reply : GetTaskReply) (hred : reply.Job.JobType = JobType.ReduceJob) :
    (3 ≤ reply.Job.FileNames.length →
      workerDispatch runMap runReduce reply =
        WorkerTurn.ranReduce (runReduce reply.Job reply.TaskId)) ∧
    (reply.Job.FileNames.length < 3 →
      workerDispatch runMap runReduce reply = WorkerTurn.faults) := by
  unfold workerDispatch
  rw [hred]
  constructor
  · intro h
    match hf : reply.Job.FileNames, h with
    | _ :: _ :: _ :: _, _ => rfl
  · intro h
    match hf : reply.Job.FileNames, h with
    | [], _ => rfl
    | [_], _ => rfl
    | [_, _], _ => rfl

theorem worker_reduce_dispatch_witness :
    ((⟨⟨JobType.ReduceJob, ["mr-a-0", "mr-b-0"], 2⟩, "id-1"⟩ : GetTaskReply).Job.JobType =
      JobType.ReduceJob) ∧
    ((3 ≤ (⟨⟨JobType.ReduceJob, ["mr-a-0", "mr-b-0"], 2⟩, "id-1"⟩ :
        GetTaskReply).Job.FileNames.length →
      workerDispatch (doMap (fun _ => some "a 1\n") wcMap (List.insertionSort keyLE))
          (doReduce (fun _ => some "a 1\n") wcReduce)
          ⟨⟨JobType.ReduceJob, ["mr-a-0", "mr-b-0"], 2⟩, "id-1"⟩ =
        WorkerTurn.ranReduce (doReduce (fun _ => some "a 1\n") wcReduce
          (⟨⟨JobType.ReduceJob, ["mr-a-0", "mr-b-0"], 2⟩, "id-1"⟩ : GetTaskReply).Job
          (⟨⟨JobType.ReduceJob, ["mr-a-0", "mr-b-0"], 2⟩, "id-1"⟩ : GetTaskReply).TaskId)) ∧
    ((⟨⟨JobType.ReduceJob, ["mr-a-0", "mr-b-0"], 2⟩, "id-1"⟩ :
        GetTaskReply).Job.FileNames.length < 3 →
      workerDispatch (doMap (fun _ => some "a 1\n") wcMap (List.insertionSort keyLE))
          (doReduce (fun _ => some "a 1\n") wcReduce)
          ⟨⟨JobType.ReduceJob, ["mr-a-0", "mr-b-0"], 2⟩, "id-1"⟩ = WorkerTurn.faults)) :=
  ⟨by decide,
    worker_reduce_dispatch (doMap (fun _ => some "a 1\n") wcMap (List.insertionSort keyLE))
      (doReduce (fun _ => some "a 1\n") wcReduce)
      ⟨⟨JobType.ReduceJob, ["mr-a-0", "mr-b-0"], 2⟩, "id-1"⟩ (by decide)⟩

/-- A Reduce job over three partition files is run and reported; the same job over two
of the files makes the worker fault before `doReduce`. -/
theorem reduce_job_of_three_files_runs :
    workerDispatch (doMap (fun _ => some "a 1\n") wcMap (List.insertionSort keyLE))
        (doReduce (fun _ => some "a 1\n") wcReduce)
        ⟨⟨JobType.ReduceJob, ["mr-a-0", "mr-b-0", "mr-c-0"], 2⟩, "id-1"⟩ =
      WorkerTurn.ranReduce (some
        { outputName := "mr-out-0", output := ["a 3\n"],
          report := { Job := ⟨JobType.ReduceJob, ["mr-a-0", "mr-b-0", "mr-c-0"], 2⟩,
                      TaskId := "id-1" } }) ∧
    workerDispatch (doMap (fun _ => some "a 1\n") wcMap (List.insertionSort keyLE))
        (doReduce (fun _ => some "a 1\n") wcReduce)
        ⟨⟨JobType.ReduceJob, ["mr-a-0", "mr-b-0"], 2⟩, "id-1"⟩ = WorkerTurn.faults := by
  decide

end MR

namespace KVSrv

/-! ## The key-value server -/

theorem get_twice (kv : KVServer) (args : GetArgs) (reply : GetReply)
    (hack : args.AckRequest = false) :
    (kv.Get args reply).1.Get args reply = ((kv.Get args reply).1, (kv.Get args reply).2) := by
  unfold KVServer.Get
  simp only [hack, Bool.false_eq_true, if_false]
  cases h : kv.processedID args.RequestID with
  | some val => simp [h]
  | none => simp

theorem put_twice (kv : KVServer) (args : PutAppendArgs) (reply : PutAppendReply)
    (hack : args.AckRequest = false) :
    (kv.Put args reply).1.Put args reply = ((kv.Put args reply).1, (kv.Put args reply).2) := by
  unfold KVServer.Put
  by_cases hop : args.Op = "Put"
  · simp only [hop, ne_eq, not_true_eq_false, if_false, hack, Bool.false_eq_true]
    cases h : kv.processedID args.RequestID with
    | some val => simp [h]
    | none => simp
  · simp [hop]

theorem append_twice (kv : KVServer) (args : PutAppendArgs) (reply : PutAppendReply)
    (hack : args.AckRequest = false) :
    (kv.Append args reply).1.Append args reply =
      ((kv.Append args reply).1, (kv.Append args reply).2) := by
  unfold KVServer.Append
  by_cases hop : args.Op = "Append"
  · simp only [hop, ne_eq, not_true_eq_false, if_false, hack, Bool.false_eq_true]
    cases h : kv.processedID args.RequestID with
    | some val => simp [h]
    | none => simp
  · simp [hop]

/-- C19: for every server state and every `Get`, `Put` or `Append` request with
`AckRequest = false`, applying the same request a second time, to the state the first
application left, returns the reply of the first application and leaves the store and
the table of processed requests exactly as the first application left them; a repeated
`Append` therefore appends its value once: after a first-time `Append` and its
repetition the key holds the old value followed by the value once. -/
theorem request_deduplication (kv : KVServer) (gargs : GetArgs) (pargs aargs : PutAppendArgs)
    (greply : GetReply) (preply areply : PutAppendReply)
    (hg : gargs.AckRequest = false) (hp : pargs.AckRequest = false)
    (ha : aargs.AckRequest = false) :
    ((kv.Get gargs greply).1.Get gargs greply).2.Value = (kv.Get gargs greply).2.Value ∧
    ((kv.Get gargs greply).1.Get gargs greply).1 = (kv.Get gargs greply).1 ∧
    ((kv.Put pargs preply).1.Put pargs preply).2.Value = (kv.Put pargs preply).2.Value ∧
    ((kv.Put pargs preply).1.Put pargs preply).1 = (kv.Put pargs preply).1 ∧
    ((kv.Append aargs areply).1.Append aargs areply).2.Value =
      (kv.Append aargs areply).2.Value ∧
    ((kv.Append aargs areply).1.Append aargs areply).1 = (kv.Append aargs areply).1 ∧
    (aargs.Op = "Append" → kv.processedID aargs.RequestID = none →
      ((kv.Append aargs areply).1.Append aargs areply).1.store aargs.Key =
        some (lookupOrEmpty kv.store aargs.Key ++ aargs.Value)) := by
  have h1 := get_twice kv gargs greply hg
  have h2 := put_twice kv pargs preply hp
  have h3 := append_twice kv aargs areply ha
  refine ⟨by rw [h1], by rw [h1], by rw [h2], by rw [h2], by rw [h3], by rw [h3], ?_⟩
  intro hop hnew
  rw [h3]
  simp [KVServer.Append, hop, ha, hnew]

theorem request_deduplication_witness :
    (⟨"k", 7, false⟩ : GetArgs).AckRequest = false ∧
    (⟨"k", "y", "Put", 8, false⟩ : PutAppendArgs).AckRequest = false ∧
    (⟨"k", "z", "Append", 9, false⟩ : PutAppendArgs).AckRequest = false ∧
    ((serverWithX.Append ⟨"k", "z", "Append", 9, false⟩ ⟨""⟩).1.Append
      ⟨"k", "z", "Append", 9, false⟩ ⟨""⟩).1.store "k" = some "xz" ∧
    ((serverWithX.Append ⟨"k", "z", "Append", 9, false⟩ ⟨""⟩).1.Append
      ⟨"k", "z", "Append", 9, false⟩ ⟨""⟩).2.Value = "x" ∧
    (((serverWithX.Get ⟨"k", 7, false⟩ ⟨""⟩).1.Get ⟨"k", 7, false⟩ ⟨""⟩).2.Value =
      (serverWithX.Get ⟨"k", 7, false⟩ ⟨""⟩).2.Value ∧
    ((serverWithX.Get ⟨"k", 7, false⟩ ⟨""⟩).1.Get ⟨"k", 7, false⟩ ⟨""⟩).1 =
      (serverWithX.Get ⟨"k", 7, false⟩ ⟨""⟩).1 ∧
    ((serverWithX.Put ⟨"k", "y", "Put", 8, false⟩ ⟨""⟩).1.Put
        ⟨"k", "y", "Put", 8, false⟩ ⟨""⟩).2.Value =
      (serverWithX.Put ⟨"k", "y", "Put", 8, false⟩ ⟨""⟩).2.Value ∧
    ((serverWithX.Put ⟨"k", "y", "Put", 8, false⟩ ⟨""⟩).1.Put
        ⟨"k", "y", "Put", 8, false⟩ ⟨""⟩).1 =
      (serverWithX.Put ⟨"k", "y", "Put", 8, false⟩ ⟨""⟩).1 ∧
    ((serverWithX.Append ⟨"k", "z", "Append", 9, false⟩ ⟨""⟩).1.Append
        ⟨"k", "z", "Append", 9, false⟩ ⟨""⟩).2.Value =
      (serverWithX.Append ⟨"k", "z", "Append", 9, false⟩ ⟨""⟩).2.Value ∧
    ((serverWithX.Append ⟨"k", "z", "Append", 9, false⟩ ⟨""⟩).1.Append
        ⟨"k", "z", "Append", 9, false⟩ ⟨""⟩).1 =
      (serverWithX.Append ⟨"k", "z", "Append", 9, false⟩ ⟨""⟩).1 ∧
    ((⟨"k", "z", "Append", 9, false⟩ : PutAppendArgs).Op = "Append" →
      serverWithX.processedID (⟨"k", "z", "Append", 9, false⟩ : PutAppendArgs).RequestID = none →
      ((serverWithX.Append ⟨"k", "z", "Append", 9, false⟩ ⟨""⟩).1.Append
        ⟨"k", "z", "Append", 9, false⟩ ⟨""⟩).1.store
          (⟨"k", "z", "Append", 9, false⟩ : PutAppendArgs).Key =
        some (lookupOrEmpty serverWithX.store
          (⟨"k", "z", "Append", 9, false⟩ : PutAppendArgs).Key ++
          (⟨"k", "z", "Append", 9, false⟩ : PutAppendArgs).Value))) :=
  ⟨rfl, rfl, rfl, by decide, by decide,
    request_deduplication serverWithX ⟨"k", 7, false⟩ ⟨"k", "y", "Put", 8, false⟩
      ⟨"k", "z", "Append", 9, false⟩ ⟨""⟩ ⟨""⟩ ⟨""⟩ rfl rfl rfl⟩

/-- C20: for every server state: a first-time `Put` (matching `Op`, `AckRequest = false`,
request id not in the table) sets `store[Key]` to `Value` and replies `Value`; a first-time
`Append` sets `store[Key]` to the old value, the empty string when the key is absent,
followed by `Value`, and replies the old value; a first-time `Get` replies `store[Key]`,
the empty string when absent, and leaves the store unchanged; every other key of the
store is unchanged by the three; and a request with `AckRequest = true` (and matching
`Op`) leaves the store and the reply as they are and removes exactly its request id from
the table of processed requests. -/
theorem first_time_semantics (kv : KVServer)
    (gargs gack : GetArgs) (pargs aargs pack aack : PutAppendArgs)
    (greply : GetReply) (preply : PutAppendReply)
    (hg1 : gargs.AckRequest = false) (hg2 : kv.processedID gargs.RequestID = none)
    (hp0 : pargs.Op = "Put") (hp1 : pargs.AckRequest = false)
    (hp2 : kv.processedID pargs.RequestID = none)
    (ha0 : aargs.Op = "Append") (ha1 : aargs.AckRequest = false)
    (ha2 : kv.processedID aargs.RequestID = none)
    (hgack : gack.AckRequest = true)
    (hpack0 : pack.Op = "Put") (hpack : pack.AckRequest = true)
    (haack0 : aack.Op = "Append") (haack : aack.AckRequest = true) :
    ((kv.Put pargs preply).1.store pargs.Key = some pargs.Value ∧
      (kv.Put pargs preply).2.Value = pargs.Value ∧
      (∀ k, k ≠ pargs.Key → (kv.Put pargs preply).1.store k = kv.store k)) ∧
    ((kv.Append aargs preply).1.store aargs.Key =
        some (lookupOrEmpty kv.store aargs.Key ++ aargs.Value) ∧
      (kv.Append aargs preply).2.Value = lookupOrEmpty kv.store aargs.Key ∧
      (∀ k, k ≠ aargs.Key → (kv.Append aargs preply).1.store k = kv.store k)) ∧
    ((kv.Get gargs greply).2.Value = lookupOrEmpty kv.store gargs.Key ∧
      (kv.Get gargs greply).1.store = kv.store) ∧
    ((kv.Get gack greply).1.store = kv.store ∧ (kv.Get gack greply).2 = greply ∧
      (kv.Get gack greply).1.processedID gack.RequestID = none ∧
      (∀ id, id ≠ gack.RequestID →
        (kv.Get gack greply).1.processedID id = kv.processedID id)) ∧
    ((kv.Put pack preply).1.store = kv.store ∧ (kv.Put pack preply).2 = preply ∧
      (kv.Put pack preply).1.processedID pack.RequestID = none ∧
      (∀ id, id ≠ pack.RequestID →
        (kv.Put pack preply).1.processedID id = kv.processedID id)) ∧
    ((kv.Append aack preply).1.store = kv.store ∧ (kv.Append aack preply).2 = preply ∧
      (kv.Append aack preply).1.processedID aack.RequestID = none ∧
      (∀ id, id ≠ aack.RequestID →
        (kv.Append aack preply).1.processedID id = kv.processedID id)) := by
  refine ⟨⟨?_, ?_, ?_⟩, ⟨?_, ?_, ?_⟩, ⟨?_, ?_⟩, ⟨?_, ?_, ?_, ?_⟩, ⟨?_, ?_, ?_, ?_⟩,
    ⟨?_, ?_, ?_, ?_⟩⟩
  · simp [KVServer.Put, hp0, hp1, hp2]
  · simp [KVServer.Put, hp0, hp1, hp2]
  · intro k hk
    simp [KVServer.Put, hp0, hp1, hp2, Function.update_noteq hk]
  · simp [KVServer.Append, ha0, ha1, ha2]
  · simp [KVServer.Append, ha0, ha1, ha2]
  · intro k hk
    simp [KVServer.Append, ha0, ha1, ha2, Function.update_noteq hk]
  · simp only [KVServer.Get, hg1, hg2, lookupOrEmpty, Bool.false_eq_true, if_false]
    cases kv.store gargs.Key <;> rfl
  · simp [KVServer.Get, hg1, hg2]
  · simp [KVServer.Get, hgack]
  · simp [KVServer.Get, hgack]
  · simp [KVServer.Get, hgack]
  · intro id hid
    simp [KVServer.Get, hgack, Function.update_noteq hid]
  · simp [KVServer.Put, hpack0, hpack]
  · simp [KVServer.Put, hpack0, hpack]
  · simp [KVServer.Put, hpack0, hpack]
  · intro id hid
    simp [KVServer.Put, hpack0, hpack, Function.update_noteq hid]
  · simp [KVServer.Append, haack0, haack]
  · simp [KVServer.Append, haack0, haack]
  · simp [KVServer.Append, haack0, haack]
  · intro id hid
    simp [KVServer.Append, haack0, haack, Function.update_noteq hid]

theorem first_time_semantics_witness :
    serverWithX.processedID getK.RequestID = none ∧
    serverWithX.processedID putY.RequestID = none ∧
    serverWithX.processedID appendZ.RequestID = none ∧
    (serverWithX.Put putY ⟨""⟩).1.store "k" = some "y" ∧
    (serverWithX.Append appendZ ⟨""⟩).1.store "k" = some "xz" ∧
    (serverWithX.Append appendZ ⟨""⟩).2.Value = "x" ∧
    (serverWithX.Get getK ⟨""⟩).2.Value = "x" ∧
    (((serverWithX.Put putY ⟨""⟩).1.store putY.Key = some putY.Value ∧
      (serverWithX.Put putY ⟨""⟩).2.Value = putY.Value ∧
      (∀ k, k ≠ putY.Key → (serverWithX.Put putY ⟨""⟩).1.store k = serverWithX.store k)) ∧
    ((serverWithX.Append appendZ ⟨""⟩).1.store appendZ.Key =
        some (lookupOrEmpty serverWithX.store appendZ.Key ++ appendZ.Value) ∧
      (serverWithX.Append appendZ ⟨""⟩).2.Value = lookupOrEmpty serverWithX.store appendZ.Key ∧
      (∀ k, k ≠ appendZ.Key →
        (serverWithX.Append appendZ ⟨""⟩).1.store k = serverWithX.store k)) ∧
    ((serverWithX.Get getK ⟨""⟩).2.Value = lookupOrEmpty serverWithX.store getK.Key ∧
      (serverWithX.Get getK ⟨""⟩).1.store = serverWithX.store) ∧
    ((serverWithX.Get { getK with AckRequest := true } ⟨""⟩).1.store = serverWithX.store ∧
      (serverWithX.Get { getK with AckRequest := true } ⟨""⟩).2 = ⟨""⟩ ∧
      (serverWithX.Get { getK with AckRequest := true } ⟨""⟩).1.processedID
        ({ getK with AckRequest := true } : GetArgs).RequestID = none ∧
      (∀ id, id ≠ ({ getK with AckRequest := true } : GetArgs).RequestID →
        (serverWithX.Get { getK with AckRequest := true } ⟨""⟩).1.processedID id =
          serverWithX.processedID id)) ∧
    ((serverWithX.Put { putY with AckRequest := true } ⟨""⟩).1.store = serverWithX.store ∧
      (serverWithX.Put { putY with AckRequest := true } ⟨""⟩).2 = ⟨""⟩ ∧
      (serverWithX.Put { putY with AckRequest := true } ⟨""⟩).1.processedID
        ({ putY with AckRequest := true } : PutAppendArgs).RequestID = none ∧
      (∀ id, id ≠ ({ putY with AckRequest := true } : PutAppendArgs).RequestID →
        (serverWithX.Put { putY with AckRequest := true } ⟨""⟩).1.processedID id =
          serverWithX.processedID id)) ∧
    ((serverWithX.Append { appendZ with AckRequest := true } ⟨""⟩).1.store =
        serverWithX.store ∧
      (serverWithX.Append { appendZ with AckRequest := true } ⟨""⟩).2 = ⟨""⟩ ∧
      (serverWithX.Append { appendZ with AckRequest := true } ⟨""⟩).1.processedID
        ({ appendZ with AckRequest := true } : PutAppendArgs).RequestID = none ∧
      (∀ id, id ≠ ({ appendZ with AckRequest := true } : PutAppendArgs).RequestID →
        (serverWithX.Append { appendZ with AckRequest := true } ⟨""⟩).1.processedID id =
          serverWithX.processedID id))) :=
  ⟨rfl, rfl, rfl, by decide, by decide, by decide, by decide,
    first_time_semantics serverWithX getK { getK with AckRequest := true } putY appendZ
      { putY with AckRequest := true } { appendZ with AckRequest := true } ⟨""⟩ ⟨""⟩
      rfl rfl rfl rfl rfl rfl rfl rfl rfl rfl rfl rfl rfl⟩

/-- A `Put` or `Append` request whose `Op` does not match the method has no effect at
all, whatever its `AckRequest`: such an acknowledgement removes nothing. -/
theorem op_mismatch_no_effect (kv : KVServer) (args : PutAppendArgs) (reply : PutAppendReply) :
    (args.Op ≠ "Put" → kv.Put args reply = (kv, reply)) ∧
    (args.Op ≠ "Append" → kv.Append args reply = (kv, reply)) := by
  constructor
  · intro h; simp [KVServer.Put, h]
  · intro h; simp [KVServer.Append, h]

end KVSrv
